import Mathlib

/-!
# Convex hull by Graham scan over a duplicate-free point container

A shallow embedding of `Point.cpp`, `PointSet.cpp` and `ConvexHull.cpp`.

Conventions of the embedding.

* An `int` coordinate is an `Int`; arithmetic that the source performs in `int`
  goes through `int32`, the two's-complement wrap to 32 bits.  Sizes, capacities
  and loop counters are never negative in the source and are `Nat`.
* A `PointP` (pointer to a heap `Point`) is an `Option Point`: `none` is
  `nullptr` (or a cell that was never written); every container owns its
  points exclusively, so a cell holds the value of its pointee.
* The backing array `_pointSet` is the list of its `_capacity` cells.
* An `assert` that fails is `none`; functions that can reach an `assert`
  return an `Option`.
* Every loop is a structurally recursive function whose first numeric argument
  is the number of iterations that remain.
* A `double` is kept exactly: the value `atan2(dy, dx) * 180 / PI` is
  represented by the pair `(dy, dx)` and compared as the exact real angle; the
  value `sqrt(r)` is represented by `r` and compared as the exact real root.
  `Angle.lt_iff_degrees`, `Angle.eq_iff_degrees` and `Root.lt_iff_sqrt` show
  that the comparisons are those of the real values.  No rounding is modelled,
  and this is where the embedding idealises the source: the source compares
  the rounded values, so two different directions whose angles round to the
  same `double` are equal for the source and different here (around `(0,0)`,
  the points `(-1,1000000000)` and `(-1,1000000001)`).  The lemmas on the
  order that `polarSort` produces (`polarSort_spec`, `grahamScan_spec` and what
  follows from them) are lemmas on exact comparisons, and the two statements
  on containers that rest on them are marked `Exact comparisons`.  All other
  statements made for every container use of the sort by `polarComparator`
  only that it permutes its range and is a function of it.  The evaluations
  of `sortByPolar` and `getConvexHull` at a concrete input use inputs on which
  the rounded values compare as the exact ones do.
* Reading or writing outside the backing array and reading through a null
  pointer are undefined in the source.  The predicate `PointSet.WF` collects
  what excludes them; every operation keeps it, and the statements about
  containers assume it.
-/

/-! ## Machine integers -/

/-- Two's-complement wrap of an integer to the range of a 32-bit `int`. -/
def int32 (v : Int) : Int := (v + 2147483648) % 4294967296 - 2147483648

/-! ## Point (Point.h, Point.cpp) -/

/-- A single point of the plane with `int` coordinates `_x` and `_y`. -/
structure Point where
  _x : Int
  _y : Int
  deriving DecidableEq, Repr

/-- The value of `atan2(deltaY, deltaX) * ANGLE_FACTOR / PI`, a `double`, kept as the
two arguments of `atan2`. -/
structure Angle where
  deltaY : Int
  deltaX : Int
  deriving DecidableEq, Repr

/-- The value of `sqrt(radicand)`, a `double`, kept as its radicand. -/
structure Root where
  radicand : Int
  deriving DecidableEq, Repr

namespace Angle

/-- The part of the range `(-π, π]` of `atan2` in which the angle lies: `0` for the open
lower half-plane (negative angles), `1` for angle zero (the non-negative x axis, the origin
included, for which `atan2` gives `0`), `2` for the open upper half-plane, `3` for angle π
(the negative x axis). -/
def sector (a : Angle) : Nat :=
  if a.deltaY < 0 then 0
  else if a.deltaY = 0 then (if 0 ≤ a.deltaX then 1 else 3)
  else 2

/-- Comparison `==` of two angles as exact reals: same sector, and parallel directions inside
an open half-plane. -/
def eq (a b : Angle) : Bool :=
  decide (a.sector = b.sector ∧
    (a.sector = 1 ∨ a.sector = 3 ∨ a.deltaX * b.deltaY - a.deltaY * b.deltaX = 0))

/-- Comparison `<` of two angles as exact reals: an earlier sector, or inside one open
half-plane a strictly counter-clockwise turn from the first direction to the second. -/
def lt (a b : Angle) : Bool :=
  decide (a.sector < b.sector ∨
    (a.sector = b.sector ∧ (a.sector = 0 ∨ a.sector = 2) ∧
      0 < a.deltaX * b.deltaY - a.deltaY * b.deltaX))

end Angle

namespace Root

/-- Comparison `<` of two square roots as exact reals (the square root is strictly
increasing on the non-negative radicands that occur). -/
def lt (a b : Root) : Bool := decide (a.radicand < b.radicand)

end Root

namespace Point

def DEFAULT_COORDINATE_VALUE : Int := 0

/-- Default constructor `Point::Point()`. -/
def new : Point := ⟨DEFAULT_COORDINATE_VALUE, DEFAULT_COORDINATE_VALUE⟩

def getX (p : Point) : Int := p._x

def getY (p : Point) : Int := p._y

/-- Method `Point::set`: both coordinates are overwritten. -/
def set (_p : Point) (x y : Int) : Point := ⟨x, y⟩

/-- Method `Point::toString`: the text `x,y`. -/
def toString (p : Point) : String := ToString.toString p.getX ++ "," ++ ToString.toString p.getY

/-- Method `Point::polarAngle`: the deltas are computed in `int` and converted to `double`
without loss.  The result is the exact angle of the two deltas; the source returns that angle
rounded to a `double`. -/
def polarAngle (p other : Point) : Angle :=
  let deltaX := int32 (p.getX - other.getX)
  let deltaY := int32 (p.getY - other.getY)
  ⟨deltaY, deltaX⟩

/-- Method `Point::distance`: the deltas are computed in `int`.  The result is the exact root
of the exact sum of squares; the source rounds the squares, their sum and the root to
`double`. -/
def distance (p other : Point) : Root :=
  let deltaX := int32 (p.getX - other.getX)
  let deltaY := int32 (p.getY - other.getY)
  ⟨deltaX * deltaX + deltaY * deltaY⟩

/-- The comparison `Point::operator==`. -/
def operator_eq (p other : Point) : Bool :=
  decide (p.getX = other.getX) && decide (p.getY = other.getY)

end Point

/-- A `PointP` is a pointer to a `Point`; `none` is `nullptr`. -/
abbrev PointP := Option Point

/-! ## Library sorting (`<algorithm>`) -/

/-- Insertion of `a` into a sorted list: after the leading elements `b` with `comp b a`, before
the first element that is not smaller than `a`. -/
def orderedInsertBy {α : Type} (comp : α → α → Bool) (a : α) : List α → List α
  | [] => [a]
  | b :: l => if comp b a then b :: orderedInsertBy comp a l else a :: b :: l

/-- The library call `std::stable_sort(first, last, comp)` on the list of the cells of the
range: the elements in ascending order of `comp`, equivalent elements in their original
order. -/
def std_stable_sort {α : Type} (comp : α → α → Bool) : List α → List α
  | [] => []
  | a :: l => orderedInsertBy comp a (std_stable_sort comp l)

/-- The library call `std::sort(first, last, comp)`.  The standard leaves the order of
equivalent elements open; the comparator it is used with here, `xComparator`, has no two
equivalent points that differ in value, so the resulting values are those of the stable
sort. -/
def std_sort {α : Type} (comp : α → α → Bool) (l : List α) : List α := std_stable_sort comp l

/-- A comparator on pointees applied through two pointers.  Dereferencing a null pointer is
undefined in the source; the model answers `false`. -/
def onPointee (comp : Point → Point → Bool) (point1 point2 : PointP) : Bool :=
  match point1, point2 with
  | some p, some q => comp p q
  | _, _ => false

/-! ## PointSet (PointSet.h, PointSet.cpp) -/

def EMPTY_SET_SIZE : Nat := 0

def MINIMUM_INDEX : Nat := 0

def INITIAL_CAPACITY : Nat := 1

def RESIZE_FACTOR : Nat := 2

def INVALID_INDEX : Int := -1

/-- The container: logical size, capacity, and the cells of the backing array. -/
structure PointSet where
  _size : Nat
  _capacity : Nat
  _pointSet : List PointP
  deriving DecidableEq, Repr

/-- The static comparator `yComparator` on the pointees. -/
def yComparator (point1 point2 : Point) : Bool :=
  decide (point1.getY < point2.getY) ||
    (decide (point1.getY = point2.getY) && decide (point1.getX < point2.getX))

/-- The static comparator `xComparator` on the pointees. -/
def xComparator (point1 point2 : Point) : Bool :=
  decide (point1.getX < point2.getX) ||
    (decide (point1.getX = point2.getX) && decide (point1.getY < point2.getY))

/-- The static comparator `polarComparator` on the pointees; the global `gAxisPoint` it reads
is passed as an argument. -/
def polarComparator (gAxisPoint point1 point2 : Point) : Bool :=
  if (point1.polarAngle gAxisPoint).eq (point2.polarAngle gAxisPoint) then
    (point1.distance gAxisPoint).lt (point2.distance gAxisPoint)
  else
    (point1.polarAngle gAxisPoint).lt (point2.polarAngle gAxisPoint)

namespace PointSet

/-- Default constructor `PointSet::PointSet()`. -/
def new : PointSet :=
  { _size := EMPTY_SET_SIZE
    _capacity := INITIAL_CAPACITY
    _pointSet := List.replicate INITIAL_CAPACITY none }

/-- Method `size()`. -/
def size (S : PointSet) : Nat := S._size

/-- Loop of `_initializeSet`: `k` iterations from index `i`, each writing `nullptr`. -/
def _initializeSetLoop : Nat → Nat → List PointP → List PointP
  | 0, _, cells => cells
  | k + 1, i, cells => _initializeSetLoop k (i + 1) (cells.set i none)

/-- Method `_initializeSet(startIndex, endIndex)`; its `assert` is the guard. -/
def _initializeSet (S : PointSet) (startIndex endIndex : Nat) : Option PointSet :=
  if EMPTY_SET_SIZE ≤ startIndex ∧ endIndex ≤ S._capacity then
    some { S with _pointSet := _initializeSetLoop (endIndex - startIndex) startIndex S._pointSet }
  else none

/-- Loop of `_findPoint`: `k` iterations from index `i`.  Reading a null cell is undefined in
the source; the model skips it. -/
def _findPointLoop (S : PointSet) (point : Point) : Nat → Nat → Int
  | 0, _ => INVALID_INDEX
  | k + 1, i =>
    match S._pointSet.getD i none with
    | some q => if q.operator_eq point then (i : Int) else _findPointLoop S point k (i + 1)
    | none => _findPointLoop S point k (i + 1)

/-- Method `_findPoint`: the first index holding a point equal to `point`, else
`INVALID_INDEX`. -/
def _findPoint (S : PointSet) (point : Point) : Int := _findPointLoop S point S._size 0

/-- Loop of `toString`. -/
def toStringLoop (S : PointSet) : Nat → Nat → String → String
  | 0, _, result => result
  | k + 1, i, result =>
    match S._pointSet.getD i none with
    | some q => toStringLoop S k (i + 1) (result ++ (q.toString ++ "\n"))
    | none => toStringLoop S k (i + 1) result

/-- Method `toString`: one line `x,y` per element, in container order. -/
def toString (S : PointSet) : String := toStringLoop S S._size 0 ""

/-- Method `_swapData`: the three fields of both containers are exchanged. -/
def _swapData (pointSet1 pointSet2 : PointSet) : PointSet × PointSet :=
  (pointSet2, pointSet1)

/-- Copy loop of `_resizePointSet`: `newPointSet[i] = oldPointSet[i]`. -/
def _resizeCopyLoop (oldPointSet : List PointP) : Nat → Nat → List PointP → List PointP
  | 0, _, newPointSet => newPointSet
  | k + 1, i, newPointSet =>
    _resizeCopyLoop oldPointSet k (i + 1) (newPointSet.set i (oldPointSet.getD i none))

/-- Method `_resizePointSet`: a backing array of `_capacity * RESIZE_FACTOR` cells receives the
`_size` used cells, the rest is set to `nullptr`. -/
def _resizePointSet (S : PointSet) : Option PointSet :=
  let newPointSet : List PointP := List.replicate (S._capacity * RESIZE_FACTOR) none
  let newPointSet := _resizeCopyLoop S._pointSet S._size 0 newPointSet
  let S1 : PointSet :=
    { S with _pointSet := newPointSet, _capacity := S._capacity * RESIZE_FACTOR }
  S1._initializeSet S1._size S1._capacity

/-- Method `add`. -/
def add (S : PointSet) (point : Point) : Option (Bool × PointSet) :=
  if S._findPoint point ≠ INVALID_INDEX then some (false, S)
  else
    (if (S._size : Int) = (S._capacity : Int) - 1 then S._resizePointSet else some S).bind
      fun S1 =>
        let S2 : PointSet := { S1 with _pointSet := S1._pointSet.set S1._size (some Point.new) }
        let S3 : PointSet := { S2 with _pointSet := S2._pointSet.set S2._size (some point) }
        some (true, { S3 with _size := S3._size + 1 })

/-- Loop of `_trimGap`: `_pointSet[i] = _pointSet[i + 1]`. -/
def _trimGapLoop : Nat → Nat → List PointP → List PointP
  | 0, _, cells => cells
  | k + 1, i, cells => _trimGapLoop k (i + 1) (cells.set i (cells.getD (i + 1) none))

/-- Method `_trimGap(gapIndex)`; its `assert` is the guard. -/
def _trimGap (S : PointSet) (gapIndex : Int) : Option PointSet :=
  if (EMPTY_SET_SIZE : Int) ≤ gapIndex ∧ gapIndex < (S._size : Int) then
    let cells := _trimGapLoop (S._size - 1 - gapIndex.toNat) gapIndex.toNat S._pointSet
    some { S with _pointSet := cells.set (S._size - 1) none }
  else none

/-- Method `remove`. -/
def remove (S : PointSet) (point : Point) : Option (Bool × PointSet) :=
  let pointIndex := S._findPoint point
  if pointIndex ≠ INVALID_INDEX then
    (S._trimGap pointIndex).bind fun S1 => some (true, { S1 with _size := S1._size - 1 })
  else some (false, S)

/-- Method `sortSet`. -/
def sortSet (S : PointSet) : PointSet :=
  if S._size ≠ EMPTY_SET_SIZE then
    { S with _pointSet :=
        std_sort (onPointee xComparator) (S._pointSet.take S._size) ++ S._pointSet.drop S._size }
  else S

/-- Method `sortByPolar`: a stable sort of the used cells by `yComparator`, then a stable sort
of the used cells after the first by `polarComparator` around the first. -/
def sortByPolar (S : PointSet) : PointSet :=
  if S._size ≠ EMPTY_SET_SIZE then
    let cells1 :=
      std_stable_sort (onPointee yComparator) (S._pointSet.take S._size) ++
        S._pointSet.drop S._size
    let gAxisPoint : PointP := cells1.getD MINIMUM_INDEX none
    let comp : PointP → PointP → Bool := fun point1 point2 =>
      match gAxisPoint with
      | some axis => onPointee (polarComparator axis) point1 point2
      | none => false
    { S with _pointSet :=
        cells1.take 1 ++ std_stable_sort comp ((cells1.take S._size).drop 1) ++
          cells1.drop S._size }
  else S

/-- The indexing `operator[]`; its `assert` is the guard. -/
def operator_index (S : PointSet) (index : Int) : Option Point :=
  if (EMPTY_SET_SIZE : Int) ≤ index ∧ index < (S._size : Int) then
    S._pointSet.getD index.toNat none
  else none

/-- Loop of `operator==`. -/
def operator_eqLoop (S other : PointSet) : Nat → Nat → Bool
  | 0, _ => true
  | k + 1, i =>
    match S._pointSet.getD i none with
    | some currentPoint =>
      if other._findPoint currentPoint = INVALID_INDEX then false
      else operator_eqLoop S other k (i + 1)
    | none => false

/-- The comparison `operator==` of two containers. -/
def operator_eq (S other : PointSet) : Bool :=
  if S._size ≠ other._size then false else operator_eqLoop S other S._size 0

/-- The comparison `operator!=` of two containers. -/
def operator_ne (S other : PointSet) : Bool := !(S.operator_eq other)

/-- Loop of `operator-` (`keep = true`) and of `operator&` (`keep = false`): the current point
is added to the result when its absence from `other` equals `keep`. -/
def selectLoop (S other : PointSet) (keep : Bool) : Nat → Nat → PointSet → Option PointSet
  | 0, _, resultSet => some resultSet
  | k + 1, i, resultSet =>
    match S._pointSet.getD i none with
    | some currentPoint =>
      if decide (other._findPoint currentPoint = INVALID_INDEX) = keep then
        (resultSet.add currentPoint).bind fun r => selectLoop S other keep k (i + 1) r.2
      else selectLoop S other keep k (i + 1) resultSet
    | none => none

/-- The difference `operator-`. -/
def operator_sub (S other : PointSet) : Option PointSet :=
  selectLoop S other true S._size 0 PointSet.new

/-- The intersection `operator&`. -/
def operator_and (S other : PointSet) : Option PointSet :=
  selectLoop S other false S._size 0 PointSet.new

/-- Loop of the copy constructor: `this -> add(*(other._pointSet[i]))`. -/
def copyLoop (other : PointSet) : Nat → Nat → PointSet → Option PointSet
  | 0, _, this => some this
  | k + 1, i, this =>
    match other._pointSet.getD i none with
    | some q => (this.add q).bind fun r => copyLoop other k (i + 1) r.2
    | none => none

/-- Copy constructor `PointSet::PointSet(const PointSet& other)`. -/
def copy (other : PointSet) : Option PointSet :=
  let this : PointSet :=
    { _size := EMPTY_SET_SIZE
      _capacity := other._capacity
      _pointSet := List.replicate other._capacity none }
  (copyLoop other other.size 0 this).bind fun this =>
    this._initializeSet this._size this._capacity

/-- The assignment `operator=`: the new value of `*this`. -/
def operator_assign (S other : PointSet) : Option PointSet :=
  if S.operator_ne other then
    (PointSet.copy other).bind fun newSet => some (_swapData S newSet).1
  else some S

/-- The element sequence of a container: the pointees of its first `_size` cells. -/
def toList (S : PointSet) : List Point := (S._pointSet.take S._size).reduceOption

/-- Well-formedness of the representation: the backing array has `_capacity` cells, the size
is below the capacity, and each of the first `_size` cells points to a point. -/
def WF (S : PointSet) : Prop :=
  S._pointSet.length = S._capacity ∧ S._size < S._capacity ∧
    (S._pointSet.take S._size).all Option.isSome = true

instance (S : PointSet) : Decidable S.WF := by
  unfold WF; infer_instance

end PointSet

/-! ## The hull algorithm (ConvexHull.cpp) -/

def INITIAL_RESULT_SIZE : Nat := 2

/-- The static function `counterClockwise`: the expression is evaluated in `int` and widened to
`long`. -/
def counterClockwise (pointA pointB pointC : Point) : Bool :=
  let result : Int :=
    int32 (int32 (int32 (pointB.getX - pointA.getX) * int32 (pointC.getY - pointA.getY))
      - int32 (int32 (pointB.getY - pointA.getY) * int32 (pointC.getX - pointA.getX)))
  decide (0 < result)

/-- First loop of `getConvexHull`: at most `k` further iterations of
`for ( ; j < pointSet.size() && j < INITIAL_RESULT_SIZE; j++)`; started with
`k = INITIAL_RESULT_SIZE` and `j = 0` the guard `j < INITIAL_RESULT_SIZE` fails when `k` is
used up.  The result is the result set and the final `j`. -/
def getConvexHullInit (pointSet : PointSet) : Nat → Nat → PointSet → Option (PointSet × Nat)
  | 0, j, resultSet => some (resultSet, j)
  | k + 1, j, resultSet =>
    if j < pointSet.size ∧ j < INITIAL_RESULT_SIZE then
      (pointSet.operator_index j).bind fun p =>
        (resultSet.add p).bind fun r => getConvexHullInit pointSet k (j + 1) r.2
    else some (resultSet, j)

/-- The `while` loop of `getConvexHull` for the candidate `pointSet[i]`, by recursion on the
counter `j`, which every iteration decrements.  The result is the result set and the final
`j`. -/
def getConvexHullWhile (pointSet : PointSet) (i : Nat) : Nat → PointSet → Option (PointSet × Nat)
  | 0, resultSet => some (resultSet, 0)
  | j + 1, resultSet =>
    if INITIAL_RESULT_SIZE ≤ j + 1 then
      (resultSet.operator_index (((j + 1 : Nat) : Int) - 2)).bind fun a =>
      (resultSet.operator_index (((j + 1 : Nat) : Int) - 1)).bind fun b =>
      (pointSet.operator_index i).bind fun c =>
        if !counterClockwise a b c then
          (resultSet.operator_index (((j + 1 : Nat) : Int) - 1)).bind fun last =>
          (resultSet.remove last).bind fun r => getConvexHullWhile pointSet i j r.2
        else some (resultSet, j + 1)
    else some (resultSet, j + 1)

/-- The `for` loop of `getConvexHull`: `k` iterations from index `i`. -/
def getConvexHullFor (pointSet : PointSet) : Nat → Nat → Nat → PointSet → Option PointSet
  | 0, _, _, resultSet => some resultSet
  | k + 1, i, j, resultSet =>
    (getConvexHullWhile pointSet i j resultSet).bind fun w =>
    (pointSet.operator_index i).bind fun p =>
    (w.1.add p).bind fun r => getConvexHullFor pointSet k (i + 1) (w.2 + 1) r.2

/-- The static function `getConvexHull`: the argument after the call (it is sorted in place)
and the returned result set. -/
def getConvexHull (pointSet : PointSet) : Option (PointSet × PointSet) :=
  let resultSet := PointSet.new
  let pointSet := pointSet.sortByPolar
  (getConvexHullInit pointSet INITIAL_RESULT_SIZE 0 resultSet).bind fun r =>
    (getConvexHullFor pointSet (pointSet.size - INITIAL_RESULT_SIZE) INITIAL_RESULT_SIZE r.2
      r.1).bind fun resultSet => some (pointSet, resultSet)

/-- The part of `processResult` before the output: the result set sorted by coordinates. -/
def processResult (resultSet : PointSet) : PointSet := resultSet.sortSet

/-- A container filled by successive `add` calls, as `receiveInput` and
`initializePointSets` do. -/
def addAll : List Point → PointSet → Option PointSet
  | [], S => some S
  | p :: ps, S => (S.add p).bind fun r => addAll ps r.2

/-- The exact integer cross product `(B.x−A.x)(C.y−A.y) − (B.y−A.y)(C.x−A.x)`. -/
def cross (A B C : Point) : Int :=
  (B.getX - A.getX) * (C.getY - A.getY) - (B.getY - A.getY) * (C.getX - A.getX)

/-- Coordinates of absolute value at most `16383`, for which no `int` operation of
`counterClockwise`, `polarAngle` or `distance` overflows. -/
def Point.small (p : Point) : Prop := |p.getX| ≤ 16383 ∧ |p.getY| ≤ 16383

instance (p : Point) : Decidable p.small := by
  unfold Point.small; infer_instance

/-! ## Auxiliary definitions for the proofs -/

/-- The well-formed container with element sequence `l` and unused cells `rest`. -/
def PointSet.mkSet (l : List Point) (rest : List PointP) : PointSet :=
  { _size := l.length, _capacity := l.length + rest.length, _pointSet := l.map some ++ rest }

/-- The element sequence after adding the points `ps` one by one to a container whose
element sequence is `l`: a point already present is skipped, every other is appended. -/
def addList (l ps : List Point) : List Point :=
  ps.foldl (fun acc p => if p ∈ acc then acc else acc ++ [p]) l

/-- The first occurrences of the points of a sequence, in the order of the sequence. -/
def firstOccurrences : List Point → List Point
  | [] => []
  | p :: ps => p :: (firstOccurrences ps).filter fun q => decide (q ≠ p)

/-- The element sequence after `sortByPolar`: the stable sort by `yComparator`, then the
stable sort of the tail by `polarComparator` around the head. -/
def polarSort (l : List Point) : List Point :=
  match std_stable_sort yComparator l with
  | [] => []
  | a :: t => a :: std_stable_sort (polarComparator a) t

/-- The containers that a program can build: from the empty container by the public
operations of `PointSet`. -/
inductive Reachable : PointSet → Prop
  | new : Reachable PointSet.new
  | add {S S' : PointSet} {p : Point} {b : Bool} :
      Reachable S → S.add p = some (b, S') → Reachable S'
  | remove {S S' : PointSet} {p : Point} {b : Bool} :
      Reachable S → S.remove p = some (b, S') → Reachable S'
  | sortSet {S : PointSet} : Reachable S → Reachable S.sortSet
  | sortByPolar {S : PointSet} : Reachable S → Reachable S.sortByPolar
  | copy {S S' : PointSet} : Reachable S → PointSet.copy S = some S' → Reachable S'
  | assign {S T S' : PointSet} :
      Reachable S → Reachable T → S.operator_assign T = some S' → Reachable S'
  | sub {S T R : PointSet} : Reachable S → Reachable T → S.operator_sub T = some R → Reachable R
  | and {S T R : PointSet} : Reachable S → Reachable T → S.operator_and T = some R → Reachable R

/-- The `while` loop of `getConvexHull` on the element sequence of the result set, kept with
its last element first: the last element is dropped as long as it does not make a
counter-clockwise turn with the one before it and the candidate `c`. -/
def scanWhile (c : Point) : List Point → List Point
  | b :: a :: s => if !counterClockwise a b c then scanWhile c (a :: s) else b :: a :: s
  | s => s

/-- The `for` loop of `getConvexHull` on the remaining candidates and the element sequence of
the result set, kept with its last element first. -/
def scanFor : List Point → List Point → List Point
  | [], st => st
  | c :: cs, st => scanFor cs (c :: scanWhile c st)

/-- The element sequence of the result of `getConvexHull` for the sorted element sequence `L`
of its argument. -/
def grahamScan (L : List Point) : List Point :=
  (scanFor (L.drop 2) (L.take 2).reverse).reverse

/-! ## Geometry used in the proofs -/

/-- The point `q` comes strictly after `p0` in the order of `yComparator`: it lies higher, or
at the same height and to the right. -/
def above (p0 q : Point) : Prop :=
  p0.getY < q.getY ∨ (p0.getY = q.getY ∧ p0.getX < q.getX)

/-- The square of the distance between two points. -/
def dist2 (p0 q : Point) : Int :=
  (q.getX - p0.getX) * (q.getX - p0.getX) + (q.getY - p0.getY) * (q.getY - p0.getY)

/-- The order of `polarComparator` around `p0`, in its non-strict form: `a` has a smaller polar
angle than `b`, or the same polar angle and at most the same distance. -/
def ple (p0 a b : Point) : Prop :=
  0 < cross p0 a b ∨ (cross p0 a b = 0 ∧ dist2 p0 a ≤ dist2 p0 b)

/-- The point `q` lies in every closed half-plane `cross u v · ≥ 0` that holds all points of
`st`. -/
def Covered (st : List Point) (q : Point) : Prop :=
  ∀ u v : Point, (∀ s ∈ st, 0 ≤ cross u v s) → 0 ≤ cross u v q

/-- A sequence, last element first, in which every three elements taken in the order of
insertion make a strict counter-clockwise turn. -/
def CCWStack : List Point → Prop
  | [] => True
  | z :: st => st.Pairwise (fun y x => 0 < cross x y z) ∧ CCWStack st

/-- The value fits a 32-bit `int`. -/
def inInt32 (v : Int) : Prop := -2147483648 ≤ v ∧ v ≤ 2147483647

/-- No `int` operation of `counterClockwise pointA pointB pointC` overflows. -/
def crossFits (A B C : Point) : Prop :=
  inInt32 (B.getX - A.getX) ∧ inInt32 (C.getY - A.getY) ∧
  inInt32 (B.getY - A.getY) ∧ inInt32 (C.getX - A.getX) ∧
  inInt32 ((B.getX - A.getX) * (C.getY - A.getY)) ∧
  inInt32 ((B.getY - A.getY) * (C.getX - A.getX)) ∧
  inInt32 (cross A B C)

instance (v : Int) : Decidable (inInt32 v) := by
  unfold inInt32; infer_instance

instance (A B C : Point) : Decidable (crossFits A B C) := by
  unfold crossFits; infer_instance

/-- The order of `xComparator`, in its non-strict form: ascending `x`, ties by ascending `y`. -/
def xle (a b : Point) : Prop := a.getX < b.getX ∨ (a.getX = b.getX ∧ a.getY ≤ b.getY)

/-- The order of `yComparator`, in its non-strict form: ascending `y`, ties by ascending `x`. -/
def yle (a b : Point) : Prop := a.getY < b.getY ∨ (a.getY = b.getY ∧ a.getX ≤ b.getX)

instance (a b : Point) : Decidable (xle a b) := by
  unfold xle; infer_instance

instance (a b : Point) : Decidable (yle a b) := by
  unfold yle; infer_instance


/-- No `int` operation of `b.polarAngle(a)` and `b.distance(a)` overflows: both coordinate
differences fit a 32-bit `int`. -/
def deltaFits (a b : Point) : Prop :=
  inInt32 (b.getX - a.getX) ∧ inInt32 (b.getY - a.getY)

instance (a b : Point) : Decidable (deltaFits a b) := by
  unfold deltaFits; infer_instance


/-! ## States of the scan loops -/

/-- The states `(i, j, resultSet)` in which `getConvexHull` evaluates the test of its second
`for` loop or of its `while` loop: the state after the first loop; the state after an
iteration of the `while` loop, which is entered when `j ≥ INITIAL_RESULT_SIZE` and the three
points do not make a counter-clockwise turn; the state after the rest of an iteration of the
`for` loop, which is reached when the test of the `while` loop fails. -/
inductive ScanState (pointSet : PointSet) : Nat → Nat → PointSet → Prop
  | init {resultSet : PointSet} {j : Nat} :
      getConvexHullInit pointSet INITIAL_RESULT_SIZE 0 PointSet.new = some (resultSet, j) →
      ScanState pointSet INITIAL_RESULT_SIZE j resultSet
  | pop {i j : Nat} {resultSet : PointSet} {a b c : Point} {r : Bool × PointSet} :
      ScanState pointSet i j resultSet → i < pointSet.size → INITIAL_RESULT_SIZE ≤ j →
      resultSet.operator_index ((j : Int) - 2) = some a →
      resultSet.operator_index ((j : Int) - 1) = some b →
      pointSet.operator_index i = some c →
      counterClockwise a b c = false →
      resultSet.remove b = some r →
      ScanState pointSet i (j - 1) r.2
  | push {i j : Nat} {resultSet : PointSet} {c : Point} {r : Bool × PointSet} :
      ScanState pointSet i j resultSet → i < pointSet.size →
      (j < INITIAL_RESULT_SIZE ∨
        ∃ a b, resultSet.operator_index ((j : Int) - 2) = some a ∧
          resultSet.operator_index ((j : Int) - 1) = some b ∧
          counterClockwise a b c = true) →
      pointSet.operator_index i = some c →
      resultSet.add c = some r →
      ScanState pointSet (i + 1) (j + 1) r.2

/-- A sequence, last element first, in which every three consecutive elements, taken in the
order of insertion, are accepted by `counterClockwise`. -/
def TurnChain : List Point → Prop
  | c :: b :: a :: s => counterClockwise a b c = true ∧ TurnChain (b :: a :: s)
  | _ => True

/-! ## Representation lemmas -/



theorem Point.operator_eq_iff (p q : Point) : p.operator_eq q = true ↔ p = q := by
  cases p; cases q
  simp [Point.operator_eq, Point.getX, Point.getY]

theorem reduceOption_map_some {α : Type} (l : List α) : (l.map some).reduceOption = l := by
  induction l with
  | nil => rfl
  | cons a l ih => simp [List.reduceOption_cons_of_some, ih]

theorem map_some_reduceOption {α : Type} (l : List (Option α))
    (h : l.all Option.isSome = true) : l.reduceOption.map some = l := by
  induction l with
  | nil => rfl
  | cons a l ih =>
    cases a with
    | none => simp at h
    | some a =>
      simp only [List.all_cons, Bool.and_eq_true] at h
      simp [List.reduceOption_cons_of_some, ih h.2]

namespace PointSet

theorem toList_mkSet (l : List Point) (rest : List PointP) : (mkSet l rest).toList = l := by
  simp [toList, mkSet, reduceOption_map_some]

theorem WF_mkSet (l : List Point) (rest : List PointP) : (mkSet l rest).WF ↔ rest ≠ [] := by
  simp [WF, mkSet, List.length_pos]

theorem WF.cells_eq {S : PointSet} (h : S.WF) :
    S = mkSet S.toList (S._pointSet.drop S._size) ∧ S._pointSet.drop S._size ≠ [] := by
  obtain ⟨h1, h2, h3⟩ := h
  have hlen : S.toList.length = S._size := by
    have := congrArg List.length (map_some_reduceOption _ h3)
    simp only [List.length_map, List.length_take] at this
    rw [toList, this]; omega
  refine ⟨?_, ?_⟩
  · cases S with
    | mk sz cap cells =>
      simp only [mkSet, toList] at *
      rw [map_some_reduceOption _ h3, List.take_append_drop]
      simp only [List.length_drop, mk.injEq, and_true]
      refine ⟨?_, ?_⟩
      · omega
      · omega
  · intro hd
    have := congrArg List.length hd
    simp only [List.length_drop, List.length_nil] at this
    omega

end PointSet

namespace PointSet

theorem getD_mkSet (l : List Point) (rest : List PointP) (i : Nat) (q : Point)
    (h : l[i]? = some q) : (mkSet l rest)._pointSet.getD i none = some q := by
  have hi : i < l.length := by
    by_contra hc
    rw [List.getElem?_eq_none (by omega)] at h
    cases h
  rw [List.getD_eq_getElem?_getD]
  show ((l.map some ++ rest)[i]?).getD none = some q
  rw [List.getElem?_append_left (by simpa using hi), List.getElem?_map, h]
  rfl

theorem _findPointLoop_mkSet (l1 l2 : List Point) (rest : List PointP) (p : Point) :
    _findPointLoop (mkSet (l1 ++ l2) rest) p l2.length l1.length =
      if p ∈ l2 then ((l1.length + l2.indexOf p : Nat) : Int) else INVALID_INDEX := by
  induction l2 generalizing l1 with
  | nil => simp [_findPointLoop]
  | cons q l2 ih =>
    have hq : (mkSet (l1 ++ q :: l2) rest)._pointSet.getD l1.length none = some q := by
      apply getD_mkSet
      rw [List.getElem?_append_right (le_refl _), Nat.sub_self, List.getElem?_cons_zero]
    simp only [List.length_cons, _findPointLoop, hq]
    by_cases hqp : q = p
    · subst hqp
      simp [(Point.operator_eq_iff q q).2 rfl]
    · have h1 : q.operator_eq p = false := by
        rw [← Bool.not_eq_true, Point.operator_eq_iff]; exact hqp
      have ih' := ih (l1 ++ [q])
      simp only [List.append_assoc, List.singleton_append, List.length_append, List.length_singleton] at ih'
      simp only [h1, Bool.false_eq_true, if_false, ih', List.mem_cons]
      have hpq : ¬ p = q := fun h => hqp h.symm
      simp only [hpq, false_or]
      split
      · rw [List.indexOf_cons_ne _ hqp]; push_cast; ring_nf
      · rfl

theorem _findPoint_mkSet (l : List Point) (rest : List PointP) (p : Point) :
    _findPoint (mkSet l rest) p = if p ∈ l then ((l.indexOf p : Nat) : Int) else INVALID_INDEX := by
  have := _findPointLoop_mkSet [] l rest p
  simpa [_findPoint, mkSet] using this

theorem _findPoint_mkSet_of_mem {l : List Point} {p : Point} (rest : List PointP) (h : p ∈ l) :
    _findPoint (mkSet l rest) p = ((l.indexOf p : Nat) : Int) := by
  rw [_findPoint_mkSet, if_pos h]

theorem _findPoint_mkSet_of_not_mem {l : List Point} {p : Point} (rest : List PointP)
    (h : p ∉ l) : _findPoint (mkSet l rest) p = INVALID_INDEX := by
  rw [_findPoint_mkSet, if_neg h]

theorem _findPoint_mkSet_ne_invalid (l : List Point) (rest : List PointP) (p : Point) :
    _findPoint (mkSet l rest) p ≠ INVALID_INDEX ↔ p ∈ l := by
  rw [_findPoint_mkSet]
  split
  · simp [INVALID_INDEX, *]
  · simp [*]

end PointSet

namespace PointSet

theorem _initializeSetLoop_append (pre rest : List PointP) :
    _initializeSetLoop rest.length pre.length (pre ++ rest) =
      pre ++ List.replicate rest.length none := by
  induction rest generalizing pre with
  | nil => simp [_initializeSetLoop]
  | cons a rest ih =>
    have h1 : (pre ++ a :: rest).set pre.length none = (pre ++ [none]) ++ rest := by
      simp [List.set_append_right]
    have ih' := ih (pre ++ [none])
    simp only [List.length_append, List.length_singleton] at ih'
    simp only [List.length_cons, _initializeSetLoop, h1]
    simpa [List.replicate_succ] using ih'

theorem _initializeSet_mkSet (l : List Point) (rest : List PointP) :
    _initializeSet (mkSet l rest) (mkSet l rest)._size (mkSet l rest)._capacity =
      some (mkSet l (List.replicate rest.length none)) := by
  have h := _initializeSetLoop_append (l.map some) rest
  simp only [List.length_map] at h
  simp [_initializeSet, mkSet, EMPTY_SET_SIZE, h]

theorem _resizeCopyLoop_mkSet (l1 l2 : List Point) (rest : List PointP) (m : Nat) :
    _resizeCopyLoop ((l1 ++ l2).map some ++ rest) l2.length l1.length
        (l1.map some ++ List.replicate (l2.length + m) none) =
      (l1 ++ l2).map some ++ List.replicate m none := by
  induction l2 generalizing l1 with
  | nil => simp [_resizeCopyLoop]
  | cons q l2 ih =>
    have hq : ((l1 ++ q :: l2).map some ++ rest).getD l1.length none = some q := by
      have := getD_mkSet (l1 ++ q :: l2) rest l1.length q
        (by rw [List.getElem?_append_right (le_refl _), Nat.sub_self, List.getElem?_cons_zero])
      simpa [mkSet] using this
    have h1 : (l1.map some ++ List.replicate (l2.length + 1 + m) none).set l1.length (some q) =
        (l1 ++ [q]).map some ++ List.replicate (l2.length + m) none := by
      have : l2.length + 1 + m = (l2.length + m) + 1 := by omega
      rw [this, List.replicate_succ]
      simp [List.set_append_right]
    have ih' := ih (l1 ++ [q])
    simp only [List.append_assoc, List.singleton_append, List.length_append,
      List.length_singleton] at ih'
    simp only [List.length_cons, _resizeCopyLoop, hq, h1]
    rw [← ih']

theorem _resizePointSet_mkSet (l : List Point) (rest : List PointP) :
    _resizePointSet (mkSet l rest) =
      some (mkSet l (List.replicate (l.length + 2 * rest.length) none)) := by
  have h := _resizeCopyLoop_mkSet [] l rest (l.length + 2 * rest.length)
  simp only [List.nil_append, List.length_nil, List.map_nil] at h
  have hcap : (l.length + rest.length) * RESIZE_FACTOR = l.length + (l.length + 2 * rest.length) := by
    simp only [RESIZE_FACTOR]; omega
  have h2 := _initializeSet_mkSet l (List.replicate (l.length + 2 * rest.length) none)
  simp only [List.length_replicate] at h2
  simp only [_resizePointSet]
  show _initializeSet
      { _size := l.length, _capacity := (l.length + rest.length) * RESIZE_FACTOR,
        _pointSet := _resizeCopyLoop (l.map some ++ rest) l.length 0
          (List.replicate ((l.length + rest.length) * RESIZE_FACTOR) none) } l.length
      ((l.length + rest.length) * RESIZE_FACTOR) = _
  rw [hcap, h]
  simp only [mkSet, List.length_replicate] at h2 ⊢
  exact h2

theorem add_mkSet_of_mem {l : List Point} {p : Point} (rest : List PointP) (h : p ∈ l) :
    add (mkSet l rest) p = some (false, mkSet l rest) := by
  simp [add, (_findPoint_mkSet_ne_invalid l rest p).2 h]

theorem set_mkSet (l : List Point) (a : PointP) (rest : List PointP) (p : Point) :
    (l.map some ++ a :: rest).set l.length (some p) = (l ++ [p]).map some ++ rest := by
  simp [List.set_append_right]

theorem add_mkSet_of_not_mem {l : List Point} {p : Point} {rest : List PointP}
    (hrest : rest ≠ []) (h : p ∉ l) :
    ∃ rest', rest' ≠ [] ∧ add (mkSet l rest) p = some (true, mkSet (l ++ [p]) rest') ∧
      (mkSet (l ++ [p]) rest')._capacity =
        if rest.length = 1 then (mkSet l rest)._capacity * RESIZE_FACTOR
        else (mkSet l rest)._capacity := by
  have hf : ¬ (_findPoint (mkSet l rest) p ≠ INVALID_INDEX) := by
    rw [_findPoint_mkSet_ne_invalid]; exact h
  cases rest with
  | nil => exact absurd rfl hrest
  | cons a rest =>
    cases rest with
    | nil =>
      refine ⟨List.replicate (l.length + 1) none, by simp, ?_, ?_⟩
      · simp only [add, hf, if_false]
        have hc : ((mkSet l [a])._size : Int) = ((mkSet l [a])._capacity : Int) - 1 := by
          simp [mkSet]
        rw [if_pos hc, _resizePointSet_mkSet]
        simp only [Option.some_bind, List.length_singleton]
        have h2 : l.length + 2 * 1 = (l.length + 1) + 1 := by omega
        rw [h2, List.replicate_succ]
        simp only [mkSet, List.set_set, set_mkSet]
        simp
        omega
      · simp [mkSet, RESIZE_FACTOR]; omega
    | cons b rest =>
      refine ⟨b :: rest, by simp, ?_, ?_⟩
      · simp only [add, hf, if_false]
        have hc : ¬ ((mkSet l (a :: b :: rest))._size : Int) =
            ((mkSet l (a :: b :: rest))._capacity : Int) - 1 := by
          simp [mkSet]; omega
        rw [if_neg hc]
        simp only [Option.some_bind, mkSet, List.set_set, set_mkSet]
        simp
        omega
      · simp [mkSet]; omega

end PointSet

namespace PointSet

theorem _trimGapLoop_append (pre ys tl : List PointP) (x : PointP) :
    _trimGapLoop ys.length pre.length (pre ++ x :: (ys ++ tl)) =
      pre ++ (ys ++ (x :: ys).getLast (List.cons_ne_nil _ _) :: tl) := by
  induction ys generalizing pre x with
  | nil => simp [_trimGapLoop]
  | cons y ys ih =>
    have hget : (pre ++ x :: (y :: ys ++ tl)).getD (pre.length + 1) none = y := by
      rw [List.getD_eq_getElem?_getD, List.getElem?_append_right (by omega)]
      simp
    have hset : (pre ++ x :: (y :: ys ++ tl)).set pre.length y =
        (pre ++ [y]) ++ y :: (ys ++ tl) := by
      simp [List.set_append_right]
    have ih' := ih (pre ++ [y]) y
    simp only [List.length_append, List.length_singleton] at ih'
    simp only [List.length_cons, _trimGapLoop, hget, hset, ih']
    simp

theorem remove_mkSet_of_not_mem {l : List Point} {p : Point} (rest : List PointP) (h : p ∉ l) :
    remove (mkSet l rest) p = some (false, mkSet l rest) := by
  have hf : ¬ (_findPoint (mkSet l rest) p ≠ INVALID_INDEX) := by
    rw [_findPoint_mkSet_ne_invalid]; exact h
  simp only [remove, hf, if_false]

theorem remove_mkSet_split (l1 l2 : List Point) (p : Point) (rest : List PointP)
    (h : p ∉ l1) :
    remove (mkSet (l1 ++ p :: l2) rest) p = some (true, mkSet (l1 ++ l2) (none :: rest)) := by
  have hmem : p ∈ l1 ++ p :: l2 := by simp
  have hidx : _findPoint (mkSet (l1 ++ p :: l2) rest) p = (l1.length : Int) := by
    rw [_findPoint_mkSet_of_mem rest hmem, List.indexOf_append_of_not_mem h,
      List.indexOf_cons_self]
    simp
  have hne : (l1.length : Int) ≠ INVALID_INDEX := by
    simp only [INVALID_INDEX]; omega
  have hloop := _trimGapLoop_append (l1.map some) (l2.map some) rest (some p)
  simp only [List.length_map] at hloop
  simp only [remove, hidx, hne, ne_eq, not_false_eq_true, if_true, _trimGap]
  have hguard : ((EMPTY_SET_SIZE : Nat) : Int) ≤ (l1.length : Int) ∧
      (l1.length : Int) < ((mkSet (l1 ++ p :: l2) rest)._size : Int) := by
    simp [mkSet, EMPTY_SET_SIZE]
  rw [if_pos hguard]
  have hk : (mkSet (l1 ++ p :: l2) rest)._size - 1 - l1.length = l2.length := by
    simp [mkSet]
  have hcells : (mkSet (l1 ++ p :: l2) rest)._pointSet =
      l1.map some ++ some p :: (l2.map some ++ rest) := by
    simp [mkSet]
  simp only [Option.some_bind, Int.toNat_ofNat, hcells, hk, hloop]
  have hlast : (mkSet (l1 ++ p :: l2) rest)._size - 1 = (l1.map some ++ l2.map some).length := by
    simp [mkSet]
  have hset : (l1.map some ++ (l2.map some ++
      (some p :: l2.map some).getLast (List.cons_ne_nil _ _) :: rest)).set
        ((mkSet (l1 ++ p :: l2) rest)._size - 1) none =
      l1.map some ++ (l2.map some ++ none :: rest) := by
    rw [hlast, ← List.append_assoc, List.set_append_right _ _ (le_refl _), Nat.sub_self]
    simp
  rw [hset]
  simp [mkSet]
  omega

theorem remove_mkSet_of_mem {l : List Point} {p : Point} (rest : List PointP) (h : p ∈ l) :
    ∃ l1 l2, p ∉ l1 ∧ l = l1 ++ p :: l2 ∧
      remove (mkSet l rest) p = some (true, mkSet (l1 ++ l2) (none :: rest)) := by
  obtain ⟨l1, l2, h1, h2, _⟩ := List.exists_erase_eq h
  refine ⟨l1, l2, h1, h2, ?_⟩
  rw [h2]
  exact remove_mkSet_split l1 l2 p rest h1

theorem operator_index_mkSet (l : List Point) (rest : List PointP) (i : Nat) (h : i < l.length) :
    operator_index (mkSet l rest) (i : Int) = l[i]? := by
  have hg : ((EMPTY_SET_SIZE : Nat) : Int) ≤ (i : Int) ∧ (i : Int) < ((mkSet l rest)._size : Int) := by
    simp [mkSet, EMPTY_SET_SIZE, h]
  rw [operator_index, if_pos hg, Int.toNat_ofNat, List.getElem?_eq_getElem h]
  exact getD_mkSet l rest i _ (List.getElem?_eq_getElem h)

theorem operator_index_mkSet_of_not (l : List Point) (rest : List PointP) (i : Int)
    (h : ¬ (0 ≤ i ∧ i < l.length)) : operator_index (mkSet l rest) i = none := by
  have hg : ¬ (((EMPTY_SET_SIZE : Nat) : Int) ≤ i ∧ i < ((mkSet l rest)._size : Int)) := by
    simpa [mkSet, EMPTY_SET_SIZE] using h
  rw [operator_index, if_neg hg]

end PointSet

/-! ## Sorting lemmas -/

theorem orderedInsertBy_perm {α : Type} (comp : α → α → Bool) (a : α) (l : List α) :
    (orderedInsertBy comp a l).Perm (a :: l) := by
  induction l with
  | nil => exact List.Perm.refl _
  | cons b l ih =>
    simp only [orderedInsertBy]
    split
    · exact (List.Perm.cons b ih).trans (List.Perm.swap a b l)
    · exact List.Perm.refl _

theorem std_stable_sort_perm {α : Type} (comp : α → α → Bool) (l : List α) :
    (std_stable_sort comp l).Perm l := by
  induction l with
  | nil => exact List.Perm.refl _
  | cons a l ih =>
    simp only [std_stable_sort]
    exact (orderedInsertBy_perm comp a _).trans (List.Perm.cons a ih)

theorem orderedInsertBy_map_some (comp : Point → Point → Bool) (f : PointP → PointP → Bool)
    (hf : ∀ p q, f (some p) (some q) = comp p q) (a : Point) (l : List Point) :
    orderedInsertBy f (some a) (l.map some) = (orderedInsertBy comp a l).map some := by
  induction l with
  | nil => rfl
  | cons b l ih =>
    simp only [List.map_cons, orderedInsertBy, hf]
    split
    · simp [ih]
    · simp

theorem std_stable_sort_map_some (comp : Point → Point → Bool) (f : PointP → PointP → Bool)
    (hf : ∀ p q, f (some p) (some q) = comp p q) (l : List Point) :
    std_stable_sort f (l.map some) = (std_stable_sort comp l).map some := by
  induction l with
  | nil => rfl
  | cons a l ih =>
    simp only [List.map_cons, std_stable_sort, ih]
    exact orderedInsertBy_map_some comp f hf a _

theorem std_stable_sort_length {α : Type} (comp : α → α → Bool) (l : List α) :
    (std_stable_sort comp l).length = l.length :=
  (std_stable_sort_perm comp l).length_eq

theorem polarSort_perm (l : List Point) : (polarSort l).Perm l := by
  have h := std_stable_sort_perm yComparator l
  unfold polarSort
  cases hs : std_stable_sort yComparator l with
  | nil => rw [hs] at h; exact h
  | cons a t =>
    rw [hs] at h
    exact (List.Perm.cons a (std_stable_sort_perm _ t)).trans h

namespace PointSet

theorem sortSet_mkSet (l : List Point) (rest : List PointP) :
    sortSet (mkSet l rest) = mkSet (std_sort xComparator l) rest := by
  cases l with
  | nil => rfl
  | cons a l =>
    have hne : (mkSet (a :: l) rest)._size ≠ EMPTY_SET_SIZE := by simp [mkSet, EMPTY_SET_SIZE]
    have hs := std_stable_sort_map_some xComparator (onPointee xComparator) (fun _ _ => rfl)
      (a :: l)
    have hlen := std_stable_sort_length xComparator (a :: l)
    simp only [sortSet, if_pos hne]
    simp only [mkSet, std_sort] at *
    have ht : (List.map some (a :: l) ++ rest).take (a :: l).length = List.map some (a :: l) := by
      rw [List.take_append_eq_append_take]; simp
    have hd : (List.map some (a :: l) ++ rest).drop (a :: l).length = rest := by
      rw [List.drop_append_eq_append_drop]; simp
    rw [ht, hd, hs, hlen]

theorem sortByPolar_mkSet (l : List Point) (rest : List PointP) :
    sortByPolar (mkSet l rest) = mkSet (polarSort l) rest := by
  cases l with
  | nil => rfl
  | cons a l =>
    have hne : (mkSet (a :: l) rest)._size ≠ EMPTY_SET_SIZE := by simp [mkSet, EMPTY_SET_SIZE]
    have hs := std_stable_sort_map_some yComparator (onPointee yComparator) (fun _ _ => rfl)
      (a :: l)
    have hlen := std_stable_sort_length yComparator (a :: l)
    have ht : (List.map some (a :: l) ++ rest).take (a :: l).length = List.map some (a :: l) := by
      rw [List.take_append_eq_append_take]; simp
    have hd : (List.map some (a :: l) ++ rest).drop (a :: l).length = rest := by
      rw [List.drop_append_eq_append_drop]; simp
    simp only [sortByPolar, if_pos hne]
    unfold polarSort
    cases hy : std_stable_sort yComparator (a :: l) with
    | nil => rw [hy] at hlen; simp at hlen
    | cons b t =>
      rw [hy] at hs hlen
      have hlen' : t.length = l.length := by simpa using hlen
      simp only [mkSet] at *
      rw [ht, hd, hs]
      have hp := std_stable_sort_map_some (polarComparator b)
        (fun point1 point2 => onPointee (polarComparator b) point1 point2) (fun _ _ => rfl) t
      have hlp := std_stable_sort_length (polarComparator b) t
      simp [MINIMUM_INDEX, List.take_append_eq_append_take, List.drop_append_eq_append_drop,
        hlen', hp, hlp]

end PointSet

/-! ## Sequences of `add` -/

theorem addList_nil (l : List Point) : addList l [] = l := rfl

theorem addList_cons_of_mem {l : List Point} {p : Point} (ps : List Point) (h : p ∈ l) :
    addList l (p :: ps) = addList l ps := by
  simp [addList, h]

theorem addList_cons_of_not_mem {l : List Point} {p : Point} (ps : List Point) (h : p ∉ l) :
    addList l (p :: ps) = addList (l ++ [p]) ps := by
  simp [addList, h]

theorem addList_nodup (l ps : List Point) (h : l.Nodup) : (addList l ps).Nodup := by
  induction ps generalizing l with
  | nil => exact h
  | cons p ps ih =>
    by_cases hp : p ∈ l
    · rw [addList_cons_of_mem ps hp]; exact ih l h
    · rw [addList_cons_of_not_mem ps hp]
      apply ih
      rw [List.nodup_append]
      refine ⟨h, List.nodup_singleton p, ?_⟩
      intro x hx hx'
      rw [List.mem_singleton] at hx'
      exact hp (hx' ▸ hx)

theorem mem_addList (l ps : List Point) (q : Point) : q ∈ addList l ps ↔ q ∈ l ∨ q ∈ ps := by
  induction ps generalizing l with
  | nil => simp [addList_nil]
  | cons p ps ih =>
    by_cases hp : p ∈ l
    · rw [addList_cons_of_mem ps hp, ih]
      constructor
      · rintro (h | h)
        · exact Or.inl h
        · exact Or.inr (List.mem_cons_of_mem _ h)
      · rintro (h | h)
        · exact Or.inl h
        · rcases List.mem_cons.1 h with h | h
          · exact Or.inl (h ▸ hp)
          · exact Or.inr h
    · rw [addList_cons_of_not_mem ps hp, ih]
      simp only [List.mem_append, List.mem_singleton, List.mem_cons]
      tauto

theorem addList_eq_append_filter (l ps : List Point) :
    addList l ps = l ++ (firstOccurrences ps).filter fun q => decide (q ∉ l) := by
  induction ps generalizing l with
  | nil => simp [addList_nil, firstOccurrences]
  | cons p ps ih =>
    by_cases hp : p ∈ l
    · rw [addList_cons_of_mem ps hp, ih]
      simp only [firstOccurrences, List.filter_cons, hp, not_true_eq_false, decide_False,
        Bool.false_eq_true, if_false, List.filter_filter]
      congr 1
      apply List.filter_congr
      intro q _
      by_cases hq : q ∈ l
      · simp [hq]
      · have : q ≠ p := fun h => hq (h ▸ hp)
        simp [hq, this]
    · rw [addList_cons_of_not_mem ps hp, ih]
      simp only [firstOccurrences, List.filter_cons, hp, not_false_eq_true, decide_True,
        if_true, List.filter_filter, List.append_assoc, List.singleton_append]
      congr 2
      apply List.filter_congr
      intro q _
      simp only [List.mem_append, List.mem_singleton, not_or, ne_eq, Bool.decide_and,
        Bool.and_comm]

theorem addList_nil_left (ps : List Point) : addList [] ps = firstOccurrences ps := by
  rw [addList_eq_append_filter]
  simp

theorem mem_firstOccurrences (ps : List Point) (q : Point) :
    q ∈ firstOccurrences ps ↔ q ∈ ps := by
  rw [← addList_nil_left, mem_addList]
  simp

theorem firstOccurrences_nodup (ps : List Point) : (firstOccurrences ps).Nodup := by
  rw [← addList_nil_left]
  exact addList_nodup [] ps List.nodup_nil

theorem firstOccurrences_length (ps : List Point) :
    (firstOccurrences ps).length = ps.toFinset.card := by
  rw [← List.toFinset_card_of_nodup (firstOccurrences_nodup ps)]
  congr 1
  ext q
  simp [mem_firstOccurrences]

theorem addList_of_nodup_disjoint (l ps : List Point) (h : ps.Nodup)
    (hd : ∀ q ∈ ps, q ∉ l) : addList l ps = l ++ ps := by
  induction ps generalizing l with
  | nil => simp [addList_nil]
  | cons p ps ih =>
    have hp : p ∉ l := hd p (List.mem_cons_self _ _)
    rw [addList_cons_of_not_mem ps hp, ih (l ++ [p]) (List.nodup_cons.1 h).2]
    · simp
    · intro q hq
      simp only [List.mem_append, List.mem_singleton, not_or]
      refine ⟨hd q (List.mem_cons_of_mem _ hq), ?_⟩
      rintro rfl
      exact (List.nodup_cons.1 h).1 hq

theorem addAll_mkSet (ps l : List Point) (rest : List PointP) (hrest : rest ≠ []) :
    ∃ rest', rest' ≠ [] ∧ addAll ps (PointSet.mkSet l rest) =
      some (PointSet.mkSet (addList l ps) rest') := by
  induction ps generalizing l rest with
  | nil => exact ⟨rest, hrest, rfl⟩
  | cons p ps ih =>
    by_cases hp : p ∈ l
    · obtain ⟨rest', h1, h2⟩ := ih l rest hrest
      refine ⟨rest', h1, ?_⟩
      simp only [addAll, PointSet.add_mkSet_of_mem rest hp, Option.some_bind]
      rw [h2, addList_cons_of_mem ps hp]
    · obtain ⟨r1, hr1, hadd, _⟩ := PointSet.add_mkSet_of_not_mem hrest hp
      obtain ⟨rest', h1, h2⟩ := ih (l ++ [p]) r1 hr1
      refine ⟨rest', h1, ?_⟩
      simp only [addAll, hadd, Option.some_bind]
      rw [h2, addList_cons_of_not_mem ps hp]

namespace PointSet

theorem new_eq_mkSet : PointSet.new = mkSet [] [none] := rfl

theorem selectLoop_mkSet (l1 l2 : List Point) (rest : List PointP) (other : PointSet)
    (keep : Bool) (R : PointSet) :
    selectLoop (mkSet (l1 ++ l2) rest) other keep l2.length l1.length R =
      addAll (l2.filter fun q => decide (decide (other._findPoint q = INVALID_INDEX) = keep)) R := by
  induction l2 generalizing l1 R with
  | nil => rfl
  | cons q l2 ih =>
    have hq : (mkSet (l1 ++ q :: l2) rest)._pointSet.getD l1.length none = some q := by
      apply getD_mkSet
      rw [List.getElem?_append_right (le_refl _), Nat.sub_self, List.getElem?_cons_zero]
    have ih' := fun R => ih (l1 ++ [q]) R
    simp only [List.append_assoc, List.singleton_append, List.length_append,
      List.length_singleton] at ih'
    simp only [List.length_cons, selectLoop, hq, List.filter_cons]
    by_cases hc : decide (other._findPoint q = INVALID_INDEX) = keep
    · simp only [hc, if_true, decide_True, addAll, ih']
    · simp only [hc, if_false, decide_False, Bool.false_eq_true, ih']

theorem copyLoop_mkSet (l1 l2 : List Point) (rest : List PointP) (this : PointSet) :
    copyLoop (mkSet (l1 ++ l2) rest) l2.length l1.length this = addAll l2 this := by
  induction l2 generalizing l1 this with
  | nil => rfl
  | cons q l2 ih =>
    have hq : (mkSet (l1 ++ q :: l2) rest)._pointSet.getD l1.length none = some q := by
      apply getD_mkSet
      rw [List.getElem?_append_right (le_refl _), Nat.sub_self, List.getElem?_cons_zero]
    have ih' := fun R => ih (l1 ++ [q]) R
    simp only [List.append_assoc, List.singleton_append, List.length_append,
      List.length_singleton] at ih'
    simp only [List.length_cons, copyLoop, hq, addAll, ih']

theorem operator_sub_mkSet (l m : List Point) (rest rest2 : List PointP) :
    ∃ rest', rest' ≠ [] ∧ operator_sub (mkSet l rest) (mkSet m rest2) =
      some (mkSet (addList [] (l.filter fun q => decide (q ∉ m))) rest') := by
  have h := selectLoop_mkSet [] l rest (mkSet m rest2) true PointSet.new
  simp only [List.nil_append, List.length_nil] at h
  obtain ⟨rest', h1, h2⟩ := addAll_mkSet (l.filter fun q => decide (q ∉ m)) [] [none] (by simp)
  refine ⟨rest', h1, ?_⟩
  rw [← h2, new_eq_mkSet.symm, operator_sub]
  show selectLoop (mkSet l rest) (mkSet m rest2) true l.length 0 PointSet.new = _
  rw [h]
  congr 1
  apply List.filter_congr
  intro q _
  by_cases hq : q ∈ m
  · simp [_findPoint_mkSet_of_mem rest2 hq, hq, INVALID_INDEX]
  · simp [_findPoint_mkSet_of_not_mem rest2 hq, hq]

theorem operator_and_mkSet (l m : List Point) (rest rest2 : List PointP) :
    ∃ rest', rest' ≠ [] ∧ operator_and (mkSet l rest) (mkSet m rest2) =
      some (mkSet (addList [] (l.filter fun q => decide (q ∈ m))) rest') := by
  have h := selectLoop_mkSet [] l rest (mkSet m rest2) false PointSet.new
  simp only [List.nil_append, List.length_nil] at h
  obtain ⟨rest', h1, h2⟩ := addAll_mkSet (l.filter fun q => decide (q ∈ m)) [] [none] (by simp)
  refine ⟨rest', h1, ?_⟩
  rw [← h2, new_eq_mkSet.symm, operator_and]
  show selectLoop (mkSet l rest) (mkSet m rest2) false l.length 0 PointSet.new = _
  rw [h]
  congr 1
  apply List.filter_congr
  intro q _
  by_cases hq : q ∈ m
  · simp [_findPoint_mkSet_of_mem rest2 hq, hq, INVALID_INDEX]
  · simp [_findPoint_mkSet_of_not_mem rest2 hq, hq]

theorem copy_mkSet (l : List Point) (rest : List PointP) (hrest : rest ≠ []) :
    ∃ rest', rest' ≠ [] ∧ PointSet.copy (mkSet l rest) = some (mkSet (addList [] l) rest') := by
  have h := copyLoop_mkSet [] l rest
  simp only [List.nil_append, List.length_nil] at h
  have hne : List.replicate (l.length + rest.length) (none : PointP) ≠ [] := by
    cases rest with
    | nil => exact absurd rfl hrest
    | cons a r => simp [List.replicate_succ]
  obtain ⟨r1, hr1, h2⟩ := addAll_mkSet l [] _ hne
  refine ⟨List.replicate r1.length none, ?_, ?_⟩
  · cases r1 with
    | nil => exact absurd rfl hr1
    | cons a r => simp [List.replicate_succ]
  · simp only [PointSet.copy]
    have h3 : (⟨EMPTY_SET_SIZE, (mkSet l rest)._capacity,
        List.replicate (mkSet l rest)._capacity none⟩ : PointSet) =
        mkSet [] (List.replicate (l.length + rest.length) none) := by
      simp [mkSet, EMPTY_SET_SIZE]
    rw [h3]
    show (copyLoop (mkSet l rest) l.length 0 _).bind _ = _
    rw [h, h2, Option.some_bind]
    exact _initializeSet_mkSet _ _

end PointSet

/-! ## The container invariant -/

namespace PointSet

theorem WF.exists_mkSet {S : PointSet} (h : S.WF) :
    ∃ rest, rest ≠ [] ∧ S = mkSet S.toList rest :=
  ⟨_, h.cells_eq.2, h.cells_eq.1⟩

theorem mem_iff_exists_operator_eq (l : List Point) (p : Point) :
    (∃ q ∈ l, q.operator_eq p = true) ↔ p ∈ l := by
  constructor
  · rintro ⟨q, hq, he⟩
    rw [Point.operator_eq_iff] at he
    exact he ▸ hq
  · intro h
    exact ⟨p, h, (Point.operator_eq_iff p p).2 rfl⟩

end PointSet

theorem Reachable.eq_mkSet {S : PointSet} (h : Reachable S) :
    ∃ l rest, rest ≠ [] ∧ l.Nodup ∧ S = PointSet.mkSet l rest := by
  induction h with
  | new => exact ⟨[], [none], by simp, List.nodup_nil, rfl⟩
  | @add S S' p b _ hadd ih =>
    obtain ⟨l, rest, hrest, hnd, rfl⟩ := ih
    by_cases hp : p ∈ l
    · rw [PointSet.add_mkSet_of_mem rest hp] at hadd
      cases hadd
      exact ⟨l, rest, hrest, hnd, rfl⟩
    · obtain ⟨r1, hr1, h1, _⟩ := PointSet.add_mkSet_of_not_mem hrest hp
      rw [h1] at hadd
      cases hadd
      refine ⟨l ++ [p], r1, hr1, ?_, rfl⟩
      have := addList_nodup l [p] hnd
      rwa [addList_cons_of_not_mem [] hp, addList_nil] at this
  | @remove S S' p b _ hrem ih =>
    obtain ⟨l, rest, hrest, hnd, rfl⟩ := ih
    by_cases hp : p ∈ l
    · obtain ⟨l1, l2, _, hl, h1⟩ := PointSet.remove_mkSet_of_mem rest hp
      rw [h1] at hrem
      cases hrem
      refine ⟨l1 ++ l2, none :: rest, by simp, ?_, rfl⟩
      subst hl
      exact hnd.sublist (List.Sublist.append_left (List.sublist_cons_self p l2) l1)
    · rw [PointSet.remove_mkSet_of_not_mem rest hp] at hrem
      cases hrem
      exact ⟨l, rest, hrest, hnd, rfl⟩
  | @sortSet S _ ih =>
    obtain ⟨l, rest, hrest, hnd, rfl⟩ := ih
    refine ⟨std_sort xComparator l, rest, hrest, ?_, PointSet.sortSet_mkSet l rest⟩
    exact (std_stable_sort_perm xComparator l).nodup_iff.2 hnd
  | @sortByPolar S _ ih =>
    obtain ⟨l, rest, hrest, hnd, rfl⟩ := ih
    refine ⟨polarSort l, rest, hrest, ?_, PointSet.sortByPolar_mkSet l rest⟩
    exact (polarSort_perm l).nodup_iff.2 hnd
  | @copy S S' _ hcopy ih =>
    obtain ⟨l, rest, hrest, hnd, rfl⟩ := ih
    obtain ⟨r1, hr1, h1⟩ := PointSet.copy_mkSet l rest hrest
    rw [h1] at hcopy
    cases hcopy
    exact ⟨_, r1, hr1, addList_nodup [] l List.nodup_nil, rfl⟩
  | @assign S T S' _ _ hassign ihS ihT =>
    obtain ⟨l, rest, hrest, hnd, rfl⟩ := ihS
    obtain ⟨m, rest2, hrest2, hnd2, rfl⟩ := ihT
    unfold PointSet.operator_assign at hassign
    split at hassign
    · obtain ⟨r1, hr1, h1⟩ := PointSet.copy_mkSet m rest2 hrest2
      rw [h1] at hassign
      simp only [Option.some_bind, PointSet._swapData, Option.some.injEq] at hassign
      subst hassign
      exact ⟨_, r1, hr1, addList_nodup [] m List.nodup_nil, rfl⟩
    · cases hassign
      exact ⟨l, rest, hrest, hnd, rfl⟩
  | @sub S T R _ _ hsub ihS ihT =>
    obtain ⟨l, rest, hrest, hnd, rfl⟩ := ihS
    obtain ⟨m, rest2, hrest2, hnd2, rfl⟩ := ihT
    obtain ⟨r1, hr1, h1⟩ := PointSet.operator_sub_mkSet l m rest rest2
    rw [h1] at hsub
    cases hsub
    exact ⟨_, r1, hr1, addList_nodup [] _ List.nodup_nil, rfl⟩
  | @and S T R _ _ hand ihS ihT =>
    obtain ⟨l, rest, hrest, hnd, rfl⟩ := ihS
    obtain ⟨m, rest2, hrest2, hnd2, rfl⟩ := ihT
    obtain ⟨r1, hr1, h1⟩ := PointSet.operator_and_mkSet l m rest rest2
    rw [h1] at hand
    cases hand
    exact ⟨_, r1, hr1, addList_nodup [] _ List.nodup_nil, rfl⟩


/-! ## The hull algorithm on element sequences -/

theorem scanWhile_suffix (c : Point) (st : List Point) : scanWhile c st <:+ st := by
  induction st with
  | nil => exact List.suffix_refl _
  | cons b s ih =>
    cases s with
    | nil => exact List.suffix_refl _
    | cons a s =>
      simp only [scanWhile]
      split
      · exact ih.trans (List.suffix_cons b _)
      · exact List.suffix_refl _

theorem scanWhile_ne_nil (c : Point) (st : List Point) (h : st ≠ []) : scanWhile c st ≠ [] := by
  induction st with
  | nil => exact absurd rfl h
  | cons b s ih =>
    cases s with
    | nil => simp [scanWhile]
    | cons a s =>
      simp only [scanWhile]
      split
      · exact ih (by simp)
      · simp

theorem getConvexHullWhile_mkSet (L : List Point) (rest : List PointP) (i : Nat) (c : Point)
    (hc : L[i]? = some c) (st : List Point) (hst : st.Nodup) (r : List PointP) (hr : r ≠ []) :
    ∃ r', r' ≠ [] ∧
      getConvexHullWhile (PointSet.mkSet L rest) i st.length (PointSet.mkSet st.reverse r) =
        some (PointSet.mkSet (scanWhile c st).reverse r', (scanWhile c st).length) := by
  have hi : i < L.length := by
    by_contra hcon
    rw [List.getElem?_eq_none (by omega)] at hc
    cases hc
  have hci : (PointSet.mkSet L rest).operator_index (i : Int) = some c := by
    rw [PointSet.operator_index_mkSet L rest i hi, hc]
  induction st generalizing r with
  | nil => exact ⟨r, hr, rfl⟩
  | cons b s ih =>
    cases s with
    | nil => exact ⟨r, hr, rfl⟩
    | cons a s =>
      have hlen : (b :: a :: s).length = (s.length + 1) + 1 := rfl
      have hrev : (b :: a :: s).reverse = s.reverse ++ [a, b] := by simp
      have ha : (PointSet.mkSet (b :: a :: s).reverse r).operator_index
          ((((s.length + 1) + 1 : Nat) : Int) - 2) = some a := by
        have h1 : ((((s.length + 1) + 1 : Nat) : Int) - 2) = ((s.length : Nat) : Int) := by
          push_cast; ring
        rw [h1, PointSet.operator_index_mkSet _ _ _ (by simp), hrev,
          List.getElem?_append_right (by simp)]
        simp
      have hb : (PointSet.mkSet (b :: a :: s).reverse r).operator_index
          ((((s.length + 1) + 1 : Nat) : Int) - 1) = some b := by
        have h1 : ((((s.length + 1) + 1 : Nat) : Int) - 1) = ((s.length + 1 : Nat) : Int) := by
          push_cast; ring
        rw [h1, PointSet.operator_index_mkSet _ _ _ (by simp), hrev,
          List.getElem?_append_right (by simp)]
        simp
      have hguard : INITIAL_RESULT_SIZE ≤ (s.length + 1) + 1 := by
        simp only [INITIAL_RESULT_SIZE]; omega
      rw [hlen, getConvexHullWhile]
      simp only [hguard, if_true, ha, hb, hci, Option.some_bind, scanWhile]
      by_cases hccw : counterClockwise a b c = true
      · simp only [hccw, Bool.not_true, Bool.false_eq_true, if_false]
        exact ⟨r, hr, rfl⟩
      · rw [Bool.not_eq_true] at hccw
        simp only [hccw, Bool.not_false, if_true]
        have hnb : b ∉ (a :: s).reverse := by
          rw [List.mem_reverse]
          exact (List.nodup_cons.1 hst).1
        have hrem : (PointSet.mkSet (b :: a :: s).reverse r).remove b =
            some (true, PointSet.mkSet ((a :: s).reverse ++ []) (none :: r)) := by
          have := PointSet.remove_mkSet_split (a :: s).reverse [] b r hnb
          simpa using this
        rw [hrem, Option.some_bind]
        simp only [List.append_nil]
        obtain ⟨r', hr', h'⟩ := ih (List.nodup_cons.1 hst).2 (none :: r) (by simp)
        exact ⟨r', hr', h'⟩

theorem getConvexHullFor_mkSet (pre cs : List Point) (rest : List PointP)
    (hL : (pre ++ cs).Nodup) (st : List Point) (hst : st.Nodup) (hsub : ∀ x ∈ st, x ∈ pre)
    (r : List PointP) (hr : r ≠ []) :
    ∃ r', r' ≠ [] ∧
      getConvexHullFor (PointSet.mkSet (pre ++ cs) rest) cs.length pre.length st.length
          (PointSet.mkSet st.reverse r) =
        some (PointSet.mkSet (scanFor cs st).reverse r') := by
  induction cs generalizing pre st r with
  | nil => exact ⟨r, hr, rfl⟩
  | cons c cs ih =>
    have hc : (pre ++ c :: cs)[pre.length]? = some c := by
      rw [List.getElem?_append_right (le_refl _), Nat.sub_self, List.getElem?_cons_zero]
    obtain ⟨r1, hr1, hw⟩ := getConvexHullWhile_mkSet (pre ++ c :: cs) rest pre.length c hc st hst
      r hr
    have hci : (PointSet.mkSet (pre ++ c :: cs) rest).operator_index (pre.length : Int) =
        some c := by
      rw [PointSet.operator_index_mkSet _ rest pre.length (by simp), hc]
    have hcpre : c ∉ pre := by
      intro hmem
      have := (List.nodup_append.1 hL).2.2
      exact this hmem (List.mem_cons_self _ _)
    have hsuf := scanWhile_suffix c st
    have hcst : c ∉ (scanWhile c st).reverse := by
      rw [List.mem_reverse]
      intro hmem
      exact hcpre (hsub c (hsuf.subset hmem))
    obtain ⟨r2, hr2, hadd, _⟩ := PointSet.add_mkSet_of_not_mem hr1 hcst
    have hpre : pre ++ c :: cs = (pre ++ [c]) ++ cs := by simp
    have hst' : (c :: scanWhile c st).Nodup := by
      rw [List.nodup_cons]
      refine ⟨?_, hst.sublist hsuf.sublist⟩
      intro hmem
      exact hcpre (hsub c (hsuf.subset hmem))
    have hsub' : ∀ x ∈ c :: scanWhile c st, x ∈ pre ++ [c] := by
      intro x hx
      rcases List.mem_cons.1 hx with rfl | hx
      · simp
      · exact List.mem_append_left _ (hsub x (hsuf.subset hx))
    obtain ⟨r3, hr3, hfor⟩ := ih (pre ++ [c]) (by rwa [← hpre]) (c :: scanWhile c st) hst' hsub'
      r2 hr2
    refine ⟨r3, hr3, ?_⟩
    simp only [List.length_cons, getConvexHullFor, hw, Option.some_bind, hci, hadd, scanFor]
    have h1 : (scanWhile c st).reverse ++ [c] = (c :: scanWhile c st).reverse := by simp
    have hfor' := hfor
    simp only [List.length_append, List.length_singleton, List.length_cons] at hfor'
    rw [h1, hpre]
    exact hfor'

theorem getConvexHullInit_eq_addAll (k : Nat) (pre cs : List Point) (rest : List PointP)
    (hk : pre.length + k = INITIAL_RESULT_SIZE) (R : PointSet) :
    getConvexHullInit (PointSet.mkSet (pre ++ cs) rest) k pre.length R =
      (addAll (cs.take k) R).map fun R' => (R', pre.length + (cs.take k).length) := by
  induction k generalizing pre cs R with
  | zero => rfl
  | succ k ih =>
    cases cs with
    | nil =>
      have hg : ¬ (pre.length < (PointSet.mkSet (pre ++ []) rest).size ∧
          pre.length < INITIAL_RESULT_SIZE) := by
        simp [PointSet.size, PointSet.mkSet]
      simp only [getConvexHullInit, hg, if_false, List.take_nil, addAll, Option.map_some',
        List.length_nil, Nat.add_zero]
    | cons c cs =>
      have hg : pre.length < (PointSet.mkSet (pre ++ c :: cs) rest).size ∧
          pre.length < INITIAL_RESULT_SIZE := by
        refine ⟨?_, by omega⟩
        simp [PointSet.size, PointSet.mkSet]
      have hc : (pre ++ c :: cs)[pre.length]? = some c := by
        rw [List.getElem?_append_right (le_refl _), Nat.sub_self, List.getElem?_cons_zero]
      have hci : (PointSet.mkSet (pre ++ c :: cs) rest).operator_index (pre.length : Int) =
          some c := by
        rw [PointSet.operator_index_mkSet _ rest pre.length (by simp), hc]
      have hpre : pre ++ c :: cs = (pre ++ [c]) ++ cs := by simp
      have hk' : (pre ++ [c]).length + k = INITIAL_RESULT_SIZE := by
        simp only [List.length_append, List.length_singleton]; omega
      have ih' := fun R => ih (pre ++ [c]) cs hk' R
      simp only [List.length_append, List.length_singleton] at ih'
      simp only [getConvexHullInit, hg, and_self, if_true, hci, Option.some_bind,
        List.take_succ_cons, addAll, List.length_cons]
      cases hadd : R.add c with
      | none => rfl
      | some r =>
        simp only [Option.some_bind]
        rw [hpre, ih' r.2]
        cases addAll (cs.take k) r.2 with
        | none => rfl
        | some R' =>
          simp only [Option.map_some', Option.some.injEq, Prod.mk.injEq, true_and]
          omega

theorem getConvexHullInit_mkSet (L : List Point) (rest : List PointP) (hL : L.Nodup) :
    ∃ r', r' ≠ [] ∧
      getConvexHullInit (PointSet.mkSet L rest) INITIAL_RESULT_SIZE 0 PointSet.new =
        some (PointSet.mkSet (L.take 2) r', (L.take 2).length) := by
  have h := getConvexHullInit_eq_addAll INITIAL_RESULT_SIZE [] L rest (by simp) PointSet.new
  simp only [List.nil_append, List.length_nil, Nat.zero_add] at h
  obtain ⟨r', hr', hadd⟩ := addAll_mkSet (L.take INITIAL_RESULT_SIZE) [] [none] (by simp)
  refine ⟨r', hr', ?_⟩
  rw [h, PointSet.new_eq_mkSet, hadd]
  have hnd : (L.take INITIAL_RESULT_SIZE).Nodup := hL.sublist (List.take_sublist _ _)
  rw [addList_of_nodup_disjoint [] _ hnd (by simp)]
  simp [INITIAL_RESULT_SIZE]

theorem getConvexHull_mkSet (l : List Point) (rest : List PointP) (hl : l.Nodup) :
    ∃ r', r' ≠ [] ∧ getConvexHull (PointSet.mkSet l rest) =
      some (PointSet.mkSet (polarSort l) rest, PointSet.mkSet (grahamScan (polarSort l)) r') := by
  have hL : (polarSort l).Nodup := (polarSort_perm l).nodup_iff.2 hl
  obtain ⟨r1, hr1, hinit⟩ := getConvexHullInit_mkSet (polarSort l) rest hL
  have hsplit : polarSort l = (polarSort l).take 2 ++ (polarSort l).drop 2 :=
    (List.take_append_drop 2 _).symm
  have hnd2 : ((polarSort l).take 2).reverse.Nodup :=
    List.nodup_reverse.2 (hL.sublist (List.take_sublist 2 _))
  obtain ⟨r2, hr2, hfor⟩ := getConvexHullFor_mkSet ((polarSort l).take 2) ((polarSort l).drop 2)
    rest (by rwa [← hsplit]) ((polarSort l).take 2).reverse hnd2
    (fun x hx => List.mem_reverse.1 hx) r1 hr1
  refine ⟨r2, hr2, ?_⟩
  rw [← hsplit] at hfor
  simp only [List.reverse_reverse, List.length_reverse, List.length_drop] at hfor
  simp only [getConvexHull, PointSet.sortByPolar_mkSet, hinit, Option.some_bind]
  have hsz : (PointSet.mkSet (polarSort l) rest).size - INITIAL_RESULT_SIZE =
      (polarSort l).length - 2 := by
    simp [PointSet.size, PointSet.mkSet, INITIAL_RESULT_SIZE]
  rw [hsz]
  by_cases hlen : 2 ≤ (polarSort l).length
  · have ht : ((polarSort l).take 2).length = 2 := by
      rw [List.length_take]; omega
    rw [ht] at hfor ⊢
    simp only [INITIAL_RESULT_SIZE]
    rw [hfor, Option.some_bind]
    rfl
  · have hd : (polarSort l).length - 2 = 0 := by omega
    have hdrop : (polarSort l).drop 2 = [] := by
      apply List.drop_eq_nil_of_le; omega
    rw [hd]
    simp only [getConvexHullFor, Option.some_bind, grahamScan, hdrop, scanFor,
      List.reverse_reverse]
    rw [hd, hdrop] at hfor
    simp only [getConvexHullFor, scanFor, List.reverse_reverse, Option.some.injEq] at hfor
    rw [hfor]

/-! ## Cross products -/

theorem cross_self_left (a c : Point) : cross a a c = 0 := by
  simp [cross]

theorem cross_self_right (a b : Point) : cross a b b = 0 := by
  simp only [cross]; ring

theorem cross_self_mid (a b : Point) : cross a b a = 0 := by
  simp [cross]

theorem cross_rotate (a b c : Point) : cross b c a = cross a b c := by
  simp only [cross]; ring

theorem cross_swap (a b c : Point) : cross a c b = - cross a b c := by
  simp only [cross]; ring

/-- Weak transitivity of the angular order around `p0` in the half-plane above `p0`. -/
theorem cross_trans (p0 a b c : Point) (ha : above p0 a) (hb : above p0 b) (hc : above p0 c)
    (hab : 0 ≤ cross p0 a b) (hbc : 0 ≤ cross p0 b c) : 0 ≤ cross p0 a c := by
  have hid : cross p0 a c * (b.getY - p0.getY) =
      cross p0 a b * (c.getY - p0.getY) + cross p0 b c * (a.getY - p0.getY) := by
    simp only [cross]; ring
  have hay : 0 ≤ a.getY - p0.getY := by rcases ha with h | h <;> omega
  have hcy : 0 ≤ c.getY - p0.getY := by rcases hc with h | h <;> omega
  rcases hb with hb | ⟨hb1, hb2⟩
  · have hby : 0 < b.getY - p0.getY := by omega
    have h1 : 0 ≤ cross p0 a c * (b.getY - p0.getY) := by
      rw [hid]; exact add_nonneg (mul_nonneg hab hcy) (mul_nonneg hbc hay)
    exact nonneg_of_mul_nonneg_left h1 hby
  · have hby : b.getY - p0.getY = 0 := by omega
    have hbx : 0 < b.getX - p0.getX := by omega
    have h1 : cross p0 a b = - ((a.getY - p0.getY) * (b.getX - p0.getX)) := by
      simp only [cross]; rw [hby]; ring
    have h2 : (a.getY - p0.getY) * (b.getX - p0.getX) ≤ 0 := by rw [h1] at hab; linarith
    have h3 : a.getY - p0.getY ≤ 0 := by
      by_contra hcon
      push_neg at hcon
      have := mul_pos hcon hbx
      linarith
    have hay0 : a.getY - p0.getY = 0 := le_antisymm h3 hay
    have hax : 0 < a.getX - p0.getX := by rcases ha with h | h <;> omega
    have h4 : cross p0 a c = (a.getX - p0.getX) * (c.getY - p0.getY) := by
      simp only [cross]; rw [hay0]; ring
    rw [h4]
    exact mul_nonneg hax.le hcy

/-- Strict transitivity, the strict step first. -/
theorem cross_trans_lt_left (p0 a b c : Point) (ha : above p0 a) (hb : above p0 b)
    (hc : above p0 c) (hab : 0 < cross p0 a b) (hbc : 0 ≤ cross p0 b c) :
    0 < cross p0 a c := by
  have hid : cross p0 a c * (b.getY - p0.getY) =
      cross p0 a b * (c.getY - p0.getY) + cross p0 b c * (a.getY - p0.getY) := by
    simp only [cross]; ring
  have hay : 0 ≤ a.getY - p0.getY := by rcases ha with h | h <;> omega
  have hcy : 0 ≤ c.getY - p0.getY := by rcases hc with h | h <;> omega
  have hby : 0 < b.getY - p0.getY := by
    rcases hb with hb | ⟨hb1, hb2⟩
    · omega
    · exfalso
      have hby : b.getY - p0.getY = 0 := by omega
      have hbx : 0 < b.getX - p0.getX := by omega
      have h1 : cross p0 a b = - ((a.getY - p0.getY) * (b.getX - p0.getX)) := by
        simp only [cross]; rw [hby]; ring
      have := mul_nonneg hay hbx.le
      linarith
  have hcy' : 0 < c.getY - p0.getY := by
    rcases hc with hc | ⟨hc1, hc2⟩
    · omega
    · exfalso
      have hcy0 : c.getY - p0.getY = 0 := by omega
      have hcx : 0 < c.getX - p0.getX := by omega
      have h1 : cross p0 b c = - ((b.getY - p0.getY) * (c.getX - p0.getX)) := by
        simp only [cross]; rw [hcy0]; ring
      have := mul_pos hby hcx
      linarith
  have h1 : 0 < cross p0 a c * (b.getY - p0.getY) := by
    rw [hid]
    exact add_pos_of_pos_of_nonneg (mul_pos hab hcy') (mul_nonneg hbc hay)
  exact pos_of_mul_pos_left h1 hby.le

/-- Strict transitivity, the strict step second. -/
theorem cross_trans_lt_right (p0 a b c : Point) (ha : above p0 a) (hb : above p0 b)
    (hc : above p0 c) (hab : 0 ≤ cross p0 a b) (hbc : 0 < cross p0 b c) :
    0 < cross p0 a c := by
  have h1 : 0 ≤ cross p0 a c := cross_trans p0 a b c ha hb hc hab hbc.le
  rcases h1.lt_or_eq with h | h
  · exact h
  · exfalso
    have h2 : 0 ≤ cross p0 c a := by rw [cross_swap, ← h]; simp
    have h3 := cross_trans_lt_left p0 b c a hb hc ha hbc h2
    rw [cross_swap] at h3
    linarith

theorem above_ne (p0 a : Point) (ha : above p0 a) : a ≠ p0 := by
  rintro rfl
  rcases ha with h | h <;> omega

theorem ple_pivot (p0 a : Point) : ple p0 p0 a := by
  right
  refine ⟨cross_self_left p0 a, ?_⟩
  simp only [dist2, sub_self, mul_zero, add_zero]
  exact add_nonneg (mul_self_nonneg _) (mul_self_nonneg _)

theorem ple.cross_nonneg {p0 a b : Point} (h : ple p0 a b) : 0 ≤ cross p0 a b := by
  rcases h with h | h
  · exact h.le
  · exact h.1.ge

theorem ple_trans (p0 a b c : Point) (ha : above p0 a) (hb : above p0 b) (hc : above p0 c)
    (hab : ple p0 a b) (hbc : ple p0 b c) : ple p0 a c := by
  rcases hab with hab | ⟨hab, dab⟩
  · exact Or.inl (cross_trans_lt_left p0 a b c ha hb hc hab hbc.cross_nonneg)
  · rcases hbc with hbc | ⟨hbc, dbc⟩
    · exact Or.inl (cross_trans_lt_right p0 a b c ha hb hc hab.ge hbc)
    · right
      refine ⟨le_antisymm ?_ (cross_trans p0 a b c ha hb hc hab.ge hbc.ge), le_trans dab dbc⟩
      have h1 : 0 ≤ cross p0 c b := by rw [cross_swap, hbc]; simp
      have h2 : 0 ≤ cross p0 b a := by rw [cross_swap, hab]; simp
      have h3 := cross_trans p0 c b a hc hb ha h1 h2
      rw [cross_swap] at h3
      linarith

/-- Two points above `p0` on one ray from `p0`, the first at most as far as the second, are
proportional with a factor in `(0, 1]`. -/
theorem ray_proportional (p0 u w : Point) (hu : above p0 u) (hw : above p0 w)
    (hc : cross p0 u w = 0) (hd : dist2 p0 u ≤ dist2 p0 w) :
    ∃ m n : Int, 0 < m ∧ m ≤ n ∧ n * (u.getX - p0.getX) = m * (w.getX - p0.getX) ∧
      n * (u.getY - p0.getY) = m * (w.getY - p0.getY) := by
  simp only [cross] at hc
  simp only [dist2] at hd
  have huy : 0 ≤ u.getY - p0.getY := by rcases hu with h | h <;> omega
  have hwy : 0 ≤ w.getY - p0.getY := by rcases hw with h | h <;> omega
  have hux : u.getY - p0.getY = 0 → 0 < u.getX - p0.getX := by
    intro h; rcases hu with h' | h' <;> omega
  have hwx : w.getY - p0.getY = 0 → 0 < w.getX - p0.getX := by
    intro h; rcases hw with h' | h' <;> omega
  clear hu hw
  generalize u.getX - p0.getX = ux at *
  generalize w.getX - p0.getX = wx at *
  generalize u.getY - p0.getY = uy at *
  generalize w.getY - p0.getY = wy at *
  rcases huy.lt_or_eq with huy' | huy'
  · -- `u` strictly higher than `p0`
    have hwy' : 0 < wy := by
      rcases hwy.lt_or_eq with h | h
      · exact h
      · exfalso
        have hwx' := hwx h.symm
        rw [← h] at hc
        have := mul_pos huy' hwx'
        linarith
    refine ⟨uy, wy, huy', ?_, by linarith, by ring⟩
    by_contra hcon
    push_neg at hcon
    -- wy < uy, so |w|² < |u|²
    have h1 : wy * wy < uy * uy := by nlinarith
    have h2 : (ux * wy) * (ux * wy) = (uy * wx) * (uy * wx) := by
      have : ux * wy = uy * wx := by linarith
      rw [this]
    have h3 : wx * wx * (uy * uy) = ux * ux * (wy * wy) := by nlinarith
    have h4 : wx * wx * (wy * wy) ≤ wx * wx * (uy * uy) :=
      mul_le_mul_of_nonneg_left h1.le (mul_self_nonneg wx)
    nlinarith [mul_self_nonneg ux, mul_self_nonneg wx, mul_pos hwy' hwy', mul_pos huy' huy']
  · -- `u` level with `p0`
    have hux' := hux huy'.symm
    rw [← huy'] at hc hd
    have hwy0 : wy = 0 := by
      have : ux * wy = 0 := by linarith
      rcases mul_eq_zero.1 this with h | h
      · omega
      · exact h
    have hwx' := hwx hwy0
    rw [hwy0] at hd
    refine ⟨ux, wx, hux', ?_, by ring, by rw [← huy', hwy0]; ring⟩
    by_contra hcon
    push_neg at hcon
    nlinarith

/-- An affine function `cross u v ·` that is non-negative at both ends of a segment from `p0`
is non-negative at a point of the segment. -/
theorem cross_nonneg_of_ray (p0 b c u v : Point) (m n : Int) (hm : 0 < m) (hmn : m ≤ n)
    (hx : n * (b.getX - p0.getX) = m * (c.getX - p0.getX))
    (hy : n * (b.getY - p0.getY) = m * (c.getY - p0.getY))
    (h0 : 0 ≤ cross u v p0) (hc : 0 ≤ cross u v c) : 0 ≤ cross u v b := by
  have hid : n * cross u v b = (n - m) * cross u v p0 + m * cross u v c := by
    simp only [cross]
    linear_combination (v.getX - u.getX) * hy - (v.getY - u.getY) * hx
  have hn : 0 < n := lt_of_lt_of_le hm hmn
  have h1 : 0 ≤ n * cross u v b := by
    rw [hid]
    exact add_nonneg (mul_nonneg (by linarith) h0) (mul_nonneg hm.le hc)
  exact nonneg_of_mul_nonneg_right h1 hn

/-- The turn at a point `b` of the polar order is counter-clockwise only if the next point
`c` has a strictly larger polar angle than `b`. -/
theorem cross_pos_of_turn (p0 a b c : Point) (ha : a = p0 ∨ (above p0 a ∧ 0 < cross p0 a b))
    (hb : above p0 b) (hc : above p0 c) (hbc : ple p0 b c) (habc : 0 < cross a b c) :
    0 < cross p0 b c := by
  rcases ha with rfl | ⟨ha, hab⟩
  · exact habc
  · rcases hbc with hbc | ⟨hbc, dbc⟩
    · exact hbc
    · exfalso
      obtain ⟨m, n, hm, hmn, hx, hy⟩ := ray_proportional p0 b c hb hc hbc dbc
      have hsum : cross a b c = cross p0 b c - cross p0 a c + cross p0 a b := by
        simp only [cross]; ring
      have hac : m * cross p0 a c = n * cross p0 a b := by
        simp only [cross]
        linear_combination (a.getY - p0.getY) * hx - (a.getX - p0.getX) * hy
      have h1 : m * cross a b c = (m - n) * cross p0 a b := by
        rw [hsum, hbc]
        linear_combination (-1 : Int) * hac
      have h2 : (m - n) * cross p0 a b ≤ 0 :=
        mul_nonpos_of_nonpos_of_nonneg (by linarith) hab.le
      have h3 : 0 < m * cross a b c := mul_pos hm habc
      linarith

/-- A point `b` of the polar order at which the turn from `a` to `c` is not counter-clockwise
lies in the triangle `p0`, `a`, `c`: every half-plane that holds the three holds `b`. -/
theorem popped_covered (p0 a b c : Point) (ha : a = p0 ∨ above p0 a) (hb : above p0 b)
    (hc : above p0 c) (hab : ple p0 a b) (hbc : ple p0 b c) (habc : cross a b c ≤ 0)
    (u v : Point) (h0 : 0 ≤ cross u v p0) (hua : 0 ≤ cross u v a) (huc : 0 ≤ cross u v c) :
    0 ≤ cross u v b := by
  have hab0 := hab.cross_nonneg
  have hbc0 := hbc.cross_nonneg
  have key : cross p0 b c = 0 → 0 ≤ cross u v b := by
    intro hz
    have dbc : dist2 p0 b ≤ dist2 p0 c := by
      rcases hbc with h | h
      · rw [hz] at h; exact absurd h (lt_irrefl _)
      · exact h.2
    obtain ⟨m, n, hm, hmn, hx, hy⟩ := ray_proportional p0 b c hb hc hz dbc
    exact cross_nonneg_of_ray p0 b c u v m n hm hmn hx hy h0 huc
  have hid : cross u v b * cross p0 a c =
      cross u v p0 * (- cross a b c) + cross u v a * cross p0 b c +
        cross u v c * cross p0 a b := by
    simp only [cross]; ring
  rcases ha with rfl | ha
  · apply key
    have : cross a b c ≤ 0 := habc
    linarith
  · have hac0 : 0 ≤ cross p0 a c := cross_trans p0 a b c ha hb hc hab0 hbc0
    rcases hac0.lt_or_eq with hpos | hzero
    · have h1 : 0 ≤ cross u v b * cross p0 a c := by
        rw [hid]
        exact add_nonneg (add_nonneg (mul_nonneg h0 (by linarith)) (mul_nonneg hua hbc0))
          (mul_nonneg huc hab0)
      exact nonneg_of_mul_nonneg_left h1 hpos
    · apply key
      have h1 : 0 ≤ cross p0 c a := by rw [cross_swap, ← hzero]; simp
      have h2 := cross_trans p0 c a b hc ha hb h1 hab0
      rw [cross_swap] at h2
      linarith

/-- The new top `c` makes a counter-clockwise turn with the old top `b` and every element `x`
below the element `a` under the top. -/
theorem push_top (p0 x a b c : Point) (h1 : 0 ≤ cross p0 b c) (h2 : 0 < cross a b c)
    (h3 : 0 < cross p0 x b) (h4 : 0 < cross x a b) (h5 : 0 < cross p0 a b) :
    0 < cross x b c := by
  have hid : cross x b c * cross p0 a b =
      cross p0 b c * cross x a b + cross a b c * cross p0 x b := by
    simp only [cross]; ring
  have h6 : 0 < cross x b c * cross p0 a b := by
    rw [hid]
    exact add_pos_of_nonneg_of_pos (mul_nonneg h1 h4.le) (mul_pos h2 h3)
  exact pos_of_mul_pos_left h6 h5.le

/-- The new top `c` makes a counter-clockwise turn with every two elements `x`, `y` below the
old top `b`. -/
theorem push_mid (p0 x y b c : Point) (h1 : 0 < cross p0 x b) (h2 : 0 < cross p0 x c)
    (h3 : 0 < cross x y b) (h4 : 0 < cross x b c) (h5 : 0 < cross p0 x y) :
    0 < cross x y c := by
  have hid : cross x y c * cross p0 x b =
      cross p0 x c * cross x y b + cross x b c * cross p0 x y := by
    simp only [cross]; ring
  have h6 : 0 < cross x y c * cross p0 x b := by
    rw [hid]
    exact add_pos (mul_pos h2 h3) (mul_pos h4 h5)
  exact pos_of_mul_pos_left h6 h1.le

/-! ## Covering -/

theorem Covered.of_mem {st : List Point} {q : Point} (h : q ∈ st) : Covered st q :=
  fun _ _ hs => hs q h

theorem Covered.trans {st st' : List Point} {q : Point} (h : Covered st q)
    (hst : ∀ s ∈ st, Covered st' s) : Covered st' q :=
  fun u v hs => h u v fun s hsm => hst s hsm u v hs

/-! ## Strictly convex stacks -/

theorem CCWStack.tail {z : Point} {st : List Point} (h : CCWStack (z :: st)) : CCWStack st :=
  h.2

theorem CCWStack.of_append_singleton {S : List Point} {p : Point} (h : CCWStack (S ++ [p])) :
    S.Pairwise (fun y x => 0 < cross p x y) := by
  induction S with
  | nil => exact List.Pairwise.nil
  | cons z S ih =>
    have h' : CCWStack (z :: (S ++ [p])) := h
    obtain ⟨h1, h2⟩ := h'
    rw [List.pairwise_cons]
    refine ⟨?_, ih h2⟩
    intro x hx
    rw [List.pairwise_append] at h1
    exact h1.2.2 x hx p (List.mem_singleton_self p)

/-! ## The scan keeps a strictly convex stack that covers the processed points -/

/-- Pushing the candidate `c` on a stack whose top `b` makes a counter-clockwise turn with the
element `a` below it and `c`. -/
theorem push_ccw (p0 a b c : Point) (S1 rest : List Point) (hrest : S1 ++ [p0] = a :: rest)
    (hS : ∀ x ∈ b :: S1, above p0 x) (hcc : CCWStack (b :: S1 ++ [p0])) (hc : above p0 c)
    (hbc : ple p0 b c) (hturn : 0 < cross a b c) :
    CCWStack (c :: (b :: S1 ++ [p0])) := by
  have hb : above p0 b := hS b (List.mem_cons_self _ _)
  have hA := CCWStack.of_append_singleton hcc
  rw [List.pairwise_cons] at hA
  obtain ⟨hA1, hA2⟩ := hA
  have hcc' : CCWStack (b :: (S1 ++ [p0])) := hcc
  have hB := hcc'.1
  rw [List.pairwise_append] at hB
  obtain ⟨hB1, _, _⟩ := hB
  have ha : a = p0 ∨ (above p0 a ∧ 0 < cross p0 a b) := by
    cases S1 with
    | nil =>
      left
      simp only [List.nil_append, List.cons.injEq] at hrest
      exact hrest.1.symm
    | cons a' S2 =>
      right
      simp only [List.cons_append, List.cons.injEq] at hrest
      rw [← hrest.1]
      exact ⟨hS a' (by simp), hA1 a' (List.mem_cons_self _ _)⟩
  have hp0bc : 0 < cross p0 b c := cross_pos_of_turn p0 a b c ha hb hc hbc hturn
  have h1 : ∀ x ∈ S1, 0 < cross x b c := by
    cases S1 with
    | nil => intro x hx; cases hx
    | cons a' S2 =>
      simp only [List.cons_append, List.cons.injEq] at hrest
      obtain ⟨rfl, _⟩ := hrest
      rw [List.pairwise_cons] at hB1
      intro x hx
      rcases List.mem_cons.1 hx with rfl | hx
      · exact hturn
      · exact push_top p0 x a' b c hp0bc.le hturn (hA1 x (List.mem_cons_of_mem _ hx))
          (hB1.1 x hx) (hA1 a' (List.mem_cons_self _ _))
  have h2 : ∀ x ∈ S1, 0 < cross p0 x c := fun x hx =>
    cross_trans_lt_left p0 x b c (hS x (List.mem_cons_of_mem _ hx)) hb hc (hA1 x hx) hp0bc.le
  have h3 : S1.Pairwise (fun y x => 0 < cross x y c) := by
    refine List.Pairwise.imp_of_mem ?_ (hB1.and hA2)
    intro y x _ hx hyx
    exact push_mid p0 x y b c (hA1 x hx) (h2 x hx) hyx.1 (h1 x hx) hyx.2
  refine ⟨?_, hcc⟩
  show (b :: (S1 ++ [p0])).Pairwise (fun y x => 0 < cross x y c)
  rw [List.pairwise_cons]
  constructor
  · intro x hx
    rcases List.mem_append.1 hx with hx | hx
    · exact h1 x hx
    · rw [List.mem_singleton] at hx
      rw [hx]
      exact hp0bc
  · rw [List.pairwise_append]
    refine ⟨h3, List.pairwise_singleton _ _, ?_⟩
    intro y hy x hx
    rw [List.mem_singleton] at hx
    rw [hx]
    exact h2 y hy

theorem scanWhile_spec (p0 c : Point) (S : List Point) (hS : ∀ x ∈ S, above p0 x)
    (hcc : CCWStack (S ++ [p0])) (hc : above p0 c) (hle : ∀ x ∈ S, ple p0 x c)
    (hccw : ∀ a ∈ S ++ [p0], ∀ b ∈ S ++ [p0],
      counterClockwise a b c = decide (0 < cross a b c)) :
    ∃ S', scanWhile c (S ++ [p0]) = S' ++ [p0] ∧ S' <:+ S ∧ CCWStack (c :: (S' ++ [p0])) ∧
      ∀ u ∈ S ++ [p0], Covered (c :: (S' ++ [p0])) u := by
  induction S with
  | nil =>
    refine ⟨[], rfl, List.suffix_refl _, ?_, ?_⟩
    · simp [CCWStack]
    · intro u hu
      exact Covered.of_mem (List.mem_cons_of_mem _ hu)
  | cons b S1 ih =>
    have hb : above p0 b := hS b (List.mem_cons_self _ _)
    have hbc : ple p0 b c := hle b (List.mem_cons_self _ _)
    obtain ⟨a, rest, hrest⟩ : ∃ a rest, S1 ++ [p0] = a :: rest := by
      cases S1 with
      | nil => exact ⟨p0, [], rfl⟩
      | cons a' S2 => exact ⟨a', S2 ++ [p0], rfl⟩
    have hamem : a ∈ S1 ++ [p0] := by rw [hrest]; exact List.mem_cons_self _ _
    have hst : b :: S1 ++ [p0] = b :: a :: rest := by
      rw [List.cons_append, hrest]
    have hturn := hccw a (List.mem_cons_of_mem _ hamem) b (List.mem_cons_self _ _)
    by_cases hpos : 0 < cross a b c
    · refine ⟨b :: S1, ?_, List.suffix_refl _, push_ccw p0 a b c S1 rest hrest hS hcc hc hbc hpos,
        ?_⟩
      · rw [hst]
        simp only [scanWhile, hturn, hpos, decide_True, Bool.not_true, Bool.false_eq_true,
          if_false]
      · intro u hu
        exact Covered.of_mem (List.mem_cons_of_mem _ hu)
    · have hcc1 : CCWStack (S1 ++ [p0]) := CCWStack.tail hcc
      obtain ⟨S', h1, h2, h3, h4⟩ := ih (fun x hx => hS x (List.mem_cons_of_mem _ hx)) hcc1
        (fun x hx => hle x (List.mem_cons_of_mem _ hx))
        (fun x hx y hy => hccw x (List.mem_cons_of_mem _ hx) y (List.mem_cons_of_mem _ hy))
      refine ⟨S', ?_, h2.trans (List.suffix_cons b S1), h3, ?_⟩
      · rw [hst]
        simp only [scanWhile, hturn, hpos, decide_False, Bool.not_false, if_true]
        rw [← hrest]
        exact h1
      · intro u hu
        rw [List.cons_append] at hu
        rcases List.mem_cons.1 hu with rfl | hu
        · intro x y hxy
          have ha : a = p0 ∨ above p0 a := by
            rcases List.mem_append.1 hamem with h | h
            · exact Or.inr (hS a (List.mem_cons_of_mem _ h))
            · exact Or.inl (List.mem_singleton.1 h)
          have hab : ple p0 a u := by
            rcases List.mem_append.1 hamem with h | h
            · left
              have hA := CCWStack.of_append_singleton hcc
              rw [List.pairwise_cons] at hA
              exact hA.1 a h
            · rw [List.mem_singleton.1 h]
              exact ple_pivot p0 u
          refine popped_covered p0 a u c ha hb hc hab hbc (not_lt.1 hpos) x y ?_ ?_ ?_
          · exact hxy p0 (by simp)
          · exact h4 a hamem x y hxy
          · exact hxy c (List.mem_cons_self _ _)
        · exact h4 u hu

theorem scanFor_spec (p0 : Point) (good : Point → Prop)
    (hg : ∀ a b c, good a → good b → good c →
      counterClockwise a b c = decide (0 < cross a b c))
    (cs S : List Point) (hS : ∀ x ∈ S, above p0 x) (hcc : CCWStack (S ++ [p0]))
    (hcs : ∀ c ∈ cs, above p0 c) (hsorted : cs.Pairwise (ple p0))
    (hle : ∀ x ∈ S, ∀ c ∈ cs, ple p0 x c)
    (hgS : ∀ x ∈ S ++ [p0], good x) (hgcs : ∀ c ∈ cs, good c) :
    ∃ S', scanFor cs (S ++ [p0]) = S' ++ [p0] ∧ (∀ x ∈ S', x ∈ S ∨ x ∈ cs) ∧
      (∀ x ∈ S', above p0 x) ∧ CCWStack (S' ++ [p0]) ∧
      (∀ u, Covered (S ++ [p0]) u → Covered (S' ++ [p0]) u) ∧
      ∀ c ∈ cs, Covered (S' ++ [p0]) c := by
  induction cs generalizing S with
  | nil =>
    exact ⟨S, rfl, fun x hx => Or.inl hx, hS, hcc, fun u hu => hu, fun c hc => by cases hc⟩
  | cons c cs ih =>
    have hc : above p0 c := hcs c (List.mem_cons_self _ _)
    obtain ⟨S1, h1, h2, h3, h4⟩ := scanWhile_spec p0 c S hS hcc hc
      (fun x hx => hle x hx c (List.mem_cons_self _ _))
      (fun a ha b hb => hg a b c (hgS a ha) (hgS b hb) (hgcs c (List.mem_cons_self _ _)))
    rw [List.pairwise_cons] at hsorted
    have hS1 : ∀ x ∈ c :: S1, above p0 x := by
      intro x hx
      rcases List.mem_cons.1 hx with rfl | hx
      · exact hc
      · exact hS x (h2.subset hx)
    obtain ⟨S', k1, k2, k3, k4, k5, k6⟩ := ih (c :: S1) hS1 h3
      (fun x hx => hcs x (List.mem_cons_of_mem _ hx)) hsorted.2
      (by
        intro x hx d hd
        rcases List.mem_cons.1 hx with rfl | hx
        · exact hsorted.1 d hd
        · exact hle x (h2.subset hx) d (List.mem_cons_of_mem _ hd))
      (by
        intro x hx
        rw [List.cons_append] at hx
        rcases List.mem_cons.1 hx with rfl | hx
        · exact hgcs x (List.mem_cons_self _ _)
        · rcases List.mem_append.1 hx with hx | hx
          · exact hgS x (List.mem_append_left _ (h2.subset hx))
          · exact hgS x (List.mem_append_right _ hx))
      (fun x hx => hgcs x (List.mem_cons_of_mem _ hx))
    refine ⟨S', ?_, ?_, k3, k4, ?_, ?_⟩
    · simp only [scanFor, h1]
      exact k1
    · intro x hx
      rcases k2 x hx with h | h
      · rcases List.mem_cons.1 h with rfl | h
        · exact Or.inr (List.mem_cons_self _ _)
        · exact Or.inl (h2.subset h)
      · exact Or.inr (List.mem_cons_of_mem _ h)
    · intro u hu
      exact k5 u (hu.trans h4)
    · intro d hd
      rcases List.mem_cons.1 hd with rfl | hd
      · exact k5 d (Covered.of_mem (List.mem_cons_self _ _))
      · exact k6 d hd

theorem grahamScan_cons (p0 : Point) (t : List Point) :
    grahamScan (p0 :: t) = (scanFor t [p0]).reverse := by
  cases t with
  | nil => rfl
  | cons q t => rfl

/-- The scan of a sequence that starts with its pivot and continues in polar order. -/
theorem grahamScan_spec (p0 : Point) (t : List Point) (good : Point → Prop)
    (hg : ∀ a b c, good a → good b → good c →
      counterClockwise a b c = decide (0 < cross a b c))
    (hgood : ∀ x ∈ p0 :: t, good x) (ht : ∀ q ∈ t, above p0 q) (hsorted : t.Pairwise (ple p0)) :
    ∃ S, grahamScan (p0 :: t) = p0 :: S.reverse ∧ (∀ x ∈ S, x ∈ t) ∧ CCWStack (S ++ [p0]) ∧
      ∀ u ∈ p0 :: t, Covered (S ++ [p0]) u := by
  obtain ⟨S, h1, h2, _, h4, h5, h6⟩ := scanFor_spec p0 good hg t [] (by simp) (by simp [CCWStack])
    ht hsorted (by simp) (fun x hx => hgood x (by simp at hx; simp [hx]))
    (fun c hc => hgood c (List.mem_cons_of_mem _ hc))
  refine ⟨S, ?_, ?_, h4, ?_⟩
  · rw [grahamScan_cons]
    simp only [List.nil_append] at h1
    rw [h1]
    simp
  · intro x hx
    rcases h2 x hx with h | h
    · cases h
    · exact h
  · intro u hu
    rcases List.mem_cons.1 hu with rfl | hu
    · exact Covered.of_mem (by simp)
    · exact h6 u hu

/-! ## Machine arithmetic without overflow -/

theorem int32_eq_self {v : Int} (h : inInt32 v) : int32 v = v := by
  obtain ⟨h1, h2⟩ := h
  simp only [int32]
  omega

theorem counterClockwise_eq_of_fits {a b c : Point} (h : crossFits a b c) :
    counterClockwise a b c = decide (0 < cross a b c) := by
  obtain ⟨h1, h2, h3, h4, h5, h6, h7⟩ := h
  simp only [counterClockwise, int32_eq_self h1, int32_eq_self h2, int32_eq_self h3,
    int32_eq_self h4, int32_eq_self h5, int32_eq_self h6]
  have h8 : (b.getX - a.getX) * (c.getY - a.getY) - (b.getY - a.getY) * (c.getX - a.getX) =
      cross a b c := rfl
  rw [h8, int32_eq_self h7]

theorem crossFits_of_small {a b c : Point} (ha : a.small) (hb : b.small) (hc : c.small) :
    crossFits a b c := by
  obtain ⟨ha1, ha2⟩ := ha
  obtain ⟨hb1, hb2⟩ := hb
  obtain ⟨hc1, hc2⟩ := hc
  rw [abs_le] at ha1 ha2 hb1 hb2 hc1 hc2
  have e1 : -32766 ≤ b.getX - a.getX ∧ b.getX - a.getX ≤ 32766 := by omega
  have e2 : -32766 ≤ c.getY - a.getY ∧ c.getY - a.getY ≤ 32766 := by omega
  have e3 : -32766 ≤ b.getY - a.getY ∧ b.getY - a.getY ≤ 32766 := by omega
  have e4 : -32766 ≤ c.getX - a.getX ∧ c.getX - a.getX ≤ 32766 := by omega
  have key : ∀ s t : Int, -32766 ≤ s ∧ s ≤ 32766 → -32766 ≤ t ∧ t ≤ 32766 →
      -1073610756 ≤ s * t ∧ s * t ≤ 1073610756 := by
    intro s t hs ht
    constructor <;> nlinarith [hs.1, hs.2, ht.1, ht.2]
  have p1 := key _ _ e1 e2
  have p2 := key _ _ e3 e4
  refine ⟨?_, ?_, ?_, ?_, ?_, ?_, ?_⟩
  · constructor <;> omega
  · constructor <;> omega
  · constructor <;> omega
  · constructor <;> omega
  · constructor <;> omega
  · constructor <;> omega
  · simp only [cross]
    constructor <;> omega

/-! ## Sortedness of the library sort -/

theorem mem_orderedInsertBy {α : Type} (comp : α → α → Bool) (a x : α) (l : List α) :
    x ∈ orderedInsertBy comp a l ↔ x = a ∨ x ∈ l := by
  rw [(orderedInsertBy_perm comp a l).mem_iff, List.mem_cons]

theorem orderedInsertBy_sorted {α : Type} (comp : α → α → Bool) (a : α) (l : List α)
    (hs : l.Pairwise (fun x y => comp y x = false))
    (hasym : ∀ x ∈ l, comp x a = true → comp a x = false)
    (htrans : ∀ x ∈ l, ∀ y ∈ l, comp x a = false → comp y x = false → comp y a = false) :
    (orderedInsertBy comp a l).Pairwise (fun x y => comp y x = false) := by
  induction l with
  | nil => exact List.pairwise_singleton _ _
  | cons b l ih =>
    rw [List.pairwise_cons] at hs
    simp only [orderedInsertBy]
    by_cases hba : comp b a = true
    · rw [if_pos hba, List.pairwise_cons]
      constructor
      · intro y hy
        rcases (mem_orderedInsertBy comp a y l).1 hy with rfl | hy
        · exact hasym b (List.mem_cons_self _ _) hba
        · exact hs.1 y hy
      · exact ih hs.2 (fun x hx => hasym x (List.mem_cons_of_mem _ hx))
          (fun x hx y hy => htrans x (List.mem_cons_of_mem _ hx) y (List.mem_cons_of_mem _ hy))
    · rw [Bool.not_eq_true] at hba
      rw [if_neg (by simp [hba]), List.pairwise_cons]
      refine ⟨?_, List.pairwise_cons.2 hs⟩
      intro y hy
      rcases List.mem_cons.1 hy with rfl | hy
      · exact hba
      · exact htrans b (List.mem_cons_self _ _) y (List.mem_cons_of_mem _ hy) hba (hs.1 y hy)

theorem std_stable_sort_sorted {α : Type} (comp : α → α → Bool) (l : List α)
    (hasym : ∀ x ∈ l, ∀ y ∈ l, comp x y = true → comp y x = false)
    (htrans : ∀ x ∈ l, ∀ y ∈ l, ∀ z ∈ l, comp y x = false → comp z y = false →
      comp z x = false) :
    (std_stable_sort comp l).Pairwise (fun x y => comp y x = false) := by
  induction l with
  | nil => exact List.Pairwise.nil
  | cons a l ih =>
    simp only [std_stable_sort]
    have hmem : ∀ x, x ∈ std_stable_sort comp l → x ∈ a :: l := fun x hx =>
      List.mem_cons_of_mem _ ((std_stable_sort_perm comp l).mem_iff.1 hx)
    apply orderedInsertBy_sorted
    · exact ih (fun x hx y hy => hasym x (List.mem_cons_of_mem _ hx) y (List.mem_cons_of_mem _ hy))
        (fun x hx y hy z hz => htrans x (List.mem_cons_of_mem _ hx) y (List.mem_cons_of_mem _ hy)
          z (List.mem_cons_of_mem _ hz))
    · intro x hx
      exact hasym x (hmem x hx) a (List.mem_cons_self _ _)
    · intro x hx y hy h1 h2
      exact htrans a (List.mem_cons_self _ _) x (hmem x hx) y (hmem y hy) h1 h2

/-! ## The comparators -/

theorem yComparator_iff (p q : Point) :
    yComparator p q = true ↔ p.getY < q.getY ∨ (p.getY = q.getY ∧ p.getX < q.getX) := by
  simp [yComparator]

theorem yComparator_eq_false_iff (p q : Point) :
    yComparator p q = false ↔ q.getY < p.getY ∨ (q.getY = p.getY ∧ q.getX ≤ p.getX) := by
  rw [← Bool.not_eq_true, yComparator_iff]
  omega

theorem xComparator_iff (p q : Point) :
    xComparator p q = true ↔ p.getX < q.getX ∨ (p.getX = q.getX ∧ p.getY < q.getY) := by
  simp [xComparator]

theorem Point.ext_get {p q : Point} (hx : p.getX = q.getX) (hy : p.getY = q.getY) : p = q := by
  cases p; cases q
  simp only [Point.getX, Point.getY] at hx hy
  rw [hx, hy]

theorem above_of_yComparator {p0 q : Point} (h : yComparator q p0 = false) (hne : q ≠ p0) :
    above p0 q := by
  rw [yComparator_eq_false_iff] at h
  rcases h with h | ⟨h1, h2⟩
  · exact Or.inl h
  · right
    refine ⟨h1, lt_of_le_of_ne h2 ?_⟩
    intro hx
    exact hne (Point.ext_get hx.symm h1.symm)

theorem polarComparator_iff (p0 a b : Point) (ha : above p0 a) (hb : above p0 b)
    (hax : inInt32 (a.getX - p0.getX)) (hay : inInt32 (a.getY - p0.getY))
    (hbx : inInt32 (b.getX - p0.getX)) (hby : inInt32 (b.getY - p0.getY)) :
    polarComparator p0 a b = true ↔
      (0 < cross p0 a b ∨ (cross p0 a b = 0 ∧ dist2 p0 a < dist2 p0 b)) := by
  have hay0 : 0 ≤ a.getY - p0.getY := by rcases ha with h | h <;> omega
  have hby0 : 0 ≤ b.getY - p0.getY := by rcases hb with h | h <;> omega
  have hax0 : a.getY - p0.getY = 0 → 0 < a.getX - p0.getX := by
    intro h; rcases ha with h' | h' <;> omega
  have hbx0 : b.getY - p0.getY = 0 → 0 < b.getX - p0.getX := by
    intro h; rcases hb with h' | h' <;> omega
  simp only [polarComparator, Point.polarAngle, Point.distance, int32_eq_self hax,
    int32_eq_self hay, int32_eq_self hbx, int32_eq_self hby, Angle.eq, Angle.lt, Angle.sector,
    Root.lt, cross, dist2]
  clear ha hb hax hay hbx hby
  generalize a.getX - p0.getX = ax at *
  generalize a.getY - p0.getY = ay at *
  generalize b.getX - p0.getX = bx at *
  generalize b.getY - p0.getY = by' at *
  rcases hay0.lt_or_eq with hay1 | hay1
  · rcases hby0.lt_or_eq with hby1 | hby1
    · have e1 : ¬ ay < 0 := by omega
      have e2 : ¬ ay = 0 := by omega
      have e3 : ¬ by' < 0 := by omega
      have e4 : ¬ by' = 0 := by omega
      simp only [e1, e2, e3, e4, if_false]
      by_cases hz : ax * by' - ay * bx = 0
      · simp [hz]
      · simp [hz]
    · have hbx1 := hbx0 hby1.symm
      subst hby1
      have e1 : ¬ ay < 0 := by omega
      have e2 : ¬ ay = 0 := by omega
      have e5 : (0 : Int) ≤ bx := hbx1.le
      have hneg : ax * 0 - ay * bx < 0 := by
        have := mul_pos hay1 hbx1
        linarith
      have hz : ¬ (ax * 0 - ay * bx = 0) := by omega
      have hp : ¬ (0 < ax * 0 - ay * bx) := by omega
      simp [e1, e2, e5, hz, hp]
      refine ⟨mul_nonneg hay0 e5, ?_⟩
      intro h
      omega
  · have hax1 := hax0 hay1.symm
    subst hay1
    have e5 : (0 : Int) ≤ ax := hax1.le
    rcases hby0.lt_or_eq with hby1 | hby1
    · have e3 : ¬ by' < 0 := by omega
      have e4 : ¬ by' = 0 := by omega
      have hpos : 0 < ax * by' - 0 * bx := by
        have := mul_pos hax1 hby1
        linarith
      have hz : ¬ (ax * by' - 0 * bx = 0) := by omega
      simp [e3, e4, e5, hz, hpos]
      exact Or.inl (mul_pos hax1 hby1)
    · have hbx1 := hbx0 hby1.symm
      subst hby1
      have e6 : (0 : Int) ≤ bx := hbx1.le
      simp [e5, e6]

theorem polarComparator_eq_false_iff (p0 a b : Point) (ha : above p0 a) (hb : above p0 b)
    (hax : inInt32 (a.getX - p0.getX)) (hay : inInt32 (a.getY - p0.getY))
    (hbx : inInt32 (b.getX - p0.getX)) (hby : inInt32 (b.getY - p0.getY)) :
    polarComparator p0 b a = false ↔ ple p0 a b := by
  rw [← Bool.not_eq_true, polarComparator_iff p0 b a hb ha hbx hby hax hay, cross_swap]
  simp only [ple]
  generalize cross p0 a b = k
  generalize dist2 p0 a = da
  generalize dist2 p0 b = db
  omega

theorem yComparator_asymm (x y : Point) (h : yComparator x y = true) :
    yComparator y x = false := by
  rw [yComparator_iff] at h
  rw [yComparator_eq_false_iff]
  omega

theorem yComparator_negtrans (x y z : Point) (h1 : yComparator y x = false)
    (h2 : yComparator z y = false) : yComparator z x = false := by
  rw [yComparator_eq_false_iff] at h1 h2 ⊢
  omega

/-- The element sequence after `sortByPolar` of a non-empty duplicate-free sequence without
overflow: the pivot, then the other points, all after the pivot in the order of `yComparator`,
in polar order around the pivot. -/
theorem polarSort_spec (l : List Point) (hne : l ≠ []) (hnd : l.Nodup)
    (hfit : ∀ a ∈ l, ∀ b ∈ l, ∀ c ∈ l, crossFits a b c) :
    ∃ p0 t, polarSort l = p0 :: t ∧ (∀ q ∈ t, above p0 q) ∧ t.Pairwise (ple p0) := by
  have hperm := std_stable_sort_perm yComparator l
  have hsorted := std_stable_sort_sorted yComparator l
    (fun x _ y _ h => yComparator_asymm x y h)
    (fun x _ y _ z _ h1 h2 => yComparator_negtrans x y z h1 h2)
  unfold polarSort
  cases hs : std_stable_sort yComparator l with
  | nil =>
    rw [hs] at hperm
    exact absurd hperm.symm.eq_nil hne
  | cons p0 t0 =>
    rw [hs] at hperm hsorted
    have hnd' : (p0 :: t0).Nodup := hperm.nodup_iff.2 hnd
    rw [List.pairwise_cons] at hsorted
    rw [List.nodup_cons] at hnd'
    have hp0 : p0 ∈ l := hperm.mem_iff.1 (List.mem_cons_self _ _)
    have ht0 : ∀ q ∈ t0, q ∈ l := fun q hq => hperm.mem_iff.1 (List.mem_cons_of_mem _ hq)
    have habove : ∀ q ∈ t0, above p0 q := by
      intro q hq
      apply above_of_yComparator (hsorted.1 q hq)
      rintro rfl
      exact hnd'.1 hq
    have hfx : ∀ q ∈ t0, inInt32 (q.getX - p0.getX) ∧ inInt32 (q.getY - p0.getY) := by
      intro q hq
      have := hfit p0 hp0 q (ht0 q hq) q (ht0 q hq)
      exact ⟨this.1, this.2.2.1⟩
    have hpp := std_stable_sort_perm (polarComparator p0) t0
    have hmem : ∀ q, q ∈ std_stable_sort (polarComparator p0) t0 → q ∈ t0 :=
      fun q hq => hpp.mem_iff.1 hq
    have hiff : ∀ a ∈ t0, ∀ b ∈ t0, (polarComparator p0 b a = false ↔ ple p0 a b) :=
      fun a ha b hb => polarComparator_eq_false_iff p0 a b (habove a ha) (habove b hb)
        (hfx a ha).1 (hfx a ha).2 (hfx b hb).1 (hfx b hb).2
    have hsp := std_stable_sort_sorted (polarComparator p0) t0
      (by
        intro x hx y hy h
        rw [hiff x hx y hy]
        rw [polarComparator_iff p0 x y (habove x hx) (habove y hy) (hfx x hx).1 (hfx x hx).2
          (hfx y hy).1 (hfx y hy).2] at h
        rcases h with h | h
        · exact Or.inl h
        · exact Or.inr ⟨h.1, h.2.le⟩)
      (by
        intro x hx y hy z hz h1 h2
        rw [hiff x hx y hy] at h1
        rw [hiff y hy z hz] at h2
        rw [hiff x hx z hz]
        exact ple_trans p0 x y z (habove x hx) (habove y hy) (habove z hz) h1 h2)
    refine ⟨p0, _, rfl, fun q hq => habove q (hmem q hq), ?_⟩
    refine List.Pairwise.imp_of_mem ?_ hsp
    intro a b ha hb h
    exact (hiff a (hmem a ha) b (hmem b hb)).1 h

/-! ## From the stack invariant to the hull edges -/

theorem CCWStack.cross_pos {st : List Point} (h : CCWStack st) (i j k : Nat) (z y x : Point)
    (hij : i < j) (hjk : j < k) (hz : st[i]? = some z) (hy : st[j]? = some y)
    (hx : st[k]? = some x) : 0 < cross x y z := by
  induction st generalizing i j k with
  | nil => simp at hz
  | cons z0 st ih =>
    obtain ⟨h1, h2⟩ := h
    obtain ⟨j', rfl⟩ : ∃ j', j = j' + 1 := ⟨j - 1, by omega⟩
    obtain ⟨k', rfl⟩ : ∃ k', k = k' + 1 := ⟨k - 1, by omega⟩
    rw [List.getElem?_cons_succ] at hy hx
    cases i with
    | zero =>
      rw [List.getElem?_cons_zero] at hz
      cases hz
      rw [List.pairwise_iff_getElem] at h1
      have hk' : k' < st.length := by
        by_contra hc
        rw [List.getElem?_eq_none (by omega)] at hx
        cases hx
      have hj' : j' < st.length := by omega
      have := h1 j' k' hj' hk' (by omega)
      rw [List.getElem?_eq_getElem hj'] at hy
      rw [List.getElem?_eq_getElem hk'] at hx
      cases hy
      cases hx
      exact this
    | succ i' =>
      rw [List.getElem?_cons_succ] at hz
      exact ih h2 i' j' k' (by omega) (by omega) hz hy hx

theorem getElem?_reverse_some {l : List Point} {i : Nat} {a : Point}
    (h : l.reverse[i]? = some a) : i < l.length ∧ l[l.length - 1 - i]? = some a := by
  have hi : i < l.length := by
    by_contra hc
    rw [List.getElem?_eq_none (by simp; omega)] at h
    cases h
  exact ⟨hi, by rw [← List.getElem?_reverse hi]; exact h⟩

/-- In the result sequence, first element first, every three elements taken in order make a
strict counter-clockwise turn. -/
theorem cross_pos_of_CCWStack {st : List Point} (h : CCWStack st) (i j k : Nat) (a b c : Point)
    (hij : i < j) (hjk : j < k) (ha : st.reverse[i]? = some a) (hb : st.reverse[j]? = some b)
    (hc : st.reverse[k]? = some c) : 0 < cross a b c := by
  obtain ⟨hi, ha'⟩ := getElem?_reverse_some ha
  obtain ⟨hj, hb'⟩ := getElem?_reverse_some hb
  obtain ⟨hk, hc'⟩ := getElem?_reverse_some hc
  exact h.cross_pos (st.length - 1 - k) (st.length - 1 - j) (st.length - 1 - i) c b a
    (by omega) (by omega) hc' hb' ha'

/-- Every element of a strictly convex result sequence lies on the left of, or on, each of its
cyclically consecutive edges. -/
theorem edge_nonneg_of_CCWStack {st : List Point} (h : CCWStack st) (i : Nat) (a b : Point)
    (ha : st.reverse[i]? = some a) (hb : st.reverse[(i + 1) % st.reverse.length]? = some b)
    (s : Point) (hs : s ∈ st) : 0 ≤ cross a b s := by
  have hi : i < st.reverse.length := by
    by_contra hc
    rw [List.getElem?_eq_none (by omega)] at ha
    cases ha
  obtain ⟨m, hm⟩ := List.mem_iff_getElem?.1 (List.mem_reverse.2 hs)
  have hm' : m < st.reverse.length := by
    by_contra hc
    rw [List.getElem?_eq_none (by omega)] at hm
    cases hm
  by_cases hlast : i + 1 < st.reverse.length
  · rw [Nat.mod_eq_of_lt hlast] at hb
    rcases Nat.lt_trichotomy m i with hlt | heq | hgt
    · have := cross_pos_of_CCWStack h m i (i + 1) s a b hlt (by omega) hm ha hb
      rw [cross_rotate s a b]
      exact this.le
    · subst heq
      rw [ha] at hm
      cases hm
      rw [cross_self_mid]
    · rcases Nat.lt_or_ge (i + 1) m with h2 | h2
      · exact (cross_pos_of_CCWStack h i (i + 1) m a b s (by omega) h2 ha hb hm).le
      · have : m = i + 1 := by omega
        subst this
        rw [hb] at hm
        cases hm
        rw [cross_self_right]
  · have hi1 : i + 1 = st.reverse.length := by omega
    rw [hi1, Nat.mod_self] at hb
    rcases Nat.eq_zero_or_pos m with h0 | hpos
    · subst h0
      rw [hb] at hm
      cases hm
      rw [cross_self_right]
    · rcases Nat.lt_or_ge m i with h2 | h2
      · have := cross_pos_of_CCWStack h 0 m i b s a hpos h2 hb hm ha
        rw [cross_rotate a b s] at this
        exact this.le
      · have : m = i := by omega
        subst this
        rw [ha] at hm
        cases hm
        rw [cross_self_mid]

/-! ## Membership in the scan -/

theorem mem_scanFor (cs st : List Point) (x : Point) (h : x ∈ scanFor cs st) :
    x ∈ st ∨ x ∈ cs := by
  induction cs generalizing st with
  | nil => exact Or.inl h
  | cons c cs ih =>
    simp only [scanFor] at h
    rcases ih _ h with h | h
    · rcases List.mem_cons.1 h with rfl | h
      · exact Or.inr (List.mem_cons_self _ _)
      · exact Or.inl ((scanWhile_suffix c st).subset h)
    · exact Or.inr (List.mem_cons_of_mem _ h)

theorem mem_grahamScan (L : List Point) (x : Point) (h : x ∈ grahamScan L) : x ∈ L := by
  simp only [grahamScan, List.mem_reverse] at h
  rcases mem_scanFor _ _ x h with h | h
  · exact List.mem_of_mem_take (List.mem_reverse.1 h)
  · exact List.mem_of_mem_drop h

theorem grahamScan_of_length_le (L : List Point) (h : L.length ≤ 2) : grahamScan L = L := by
  have hd : L.drop 2 = [] := List.drop_eq_nil_of_le h
  have ht : L.take 2 = L := List.take_of_length_le h
  simp only [grahamScan, hd, scanFor, List.reverse_reverse, ht]

/-- For a duplicate-free sequence without overflow, every three elements of the scan of its
polar sort, taken in the order of the result, make a strict counter-clockwise turn. -/
theorem grahamScan_strictly_convex (l : List Point) (hnd : l.Nodup)
    (hfit : ∀ a ∈ l, ∀ b ∈ l, ∀ c ∈ l, crossFits a b c) (i j k : Nat) (a b c : Point)
    (hij : i < j) (hjk : j < k) (ha : (grahamScan (polarSort l))[i]? = some a)
    (hb : (grahamScan (polarSort l))[j]? = some b)
    (hc : (grahamScan (polarSort l))[k]? = some c) : 0 < cross a b c := by
  by_cases hne : l = []
  · subst hne
    simp [polarSort, std_stable_sort, grahamScan, scanFor] at ha
  · obtain ⟨p0, t, hsort, habove, hsorted⟩ := polarSort_spec l hne hnd hfit
    have hmem : ∀ x, x ∈ p0 :: t ↔ x ∈ l := fun x => by
      rw [← hsort]; exact (polarSort_perm l).mem_iff
    obtain ⟨S, hS, _, hcc, _⟩ := grahamScan_spec p0 t (fun x => x ∈ l)
      (fun x y z hx hy hz => counterClockwise_eq_of_fits (hfit x hx y hy z hz))
      (fun x hx => (hmem x).1 hx) habove hsorted
    have hrev : grahamScan (polarSort l) = (S ++ [p0]).reverse := by
      rw [hsort, hS]; simp
    rw [hrev] at ha hb hc
    exact cross_pos_of_CCWStack hcc i j k a b c hij hjk ha hb hc

/-! ## The exact comparisons of `Angle` and `Root` are those of the real values -/

theorem arg_lt_arg_iff_cross (z w : ℂ) (h : 0 < z.im * w.im) :
    z.arg < w.arg ↔ 0 < z.re * w.im - z.im * w.re := by
  have hz : z ≠ 0 := by
    rintro rfl
    simp at h
  have hw : w ≠ 0 := by
    rintro rfl
    simp at h
  have haz : 0 < Complex.abs z := AbsoluteValue.pos Complex.abs hz
  have haw : 0 < Complex.abs w := AbsoluteValue.pos Complex.abs hw
  have hsin : Real.sin (w.arg - z.arg) * (Complex.abs z * Complex.abs w) =
      z.re * w.im - z.im * w.re := by
    rw [Real.sin_sub, Complex.sin_arg, Complex.sin_arg, Complex.cos_arg hz, Complex.cos_arg hw]
    field_simp
    ring
  have hbound : -Real.pi < w.arg - z.arg ∧ w.arg - z.arg < Real.pi := by
    rcases lt_or_gt_of_ne (show z.im ≠ 0 by rintro h0; rw [h0] at h; simp at h) with hneg | hpos
    · have hwneg : w.im < 0 := by
        by_contra hc
        push_neg at hc
        have := mul_nonpos_of_nonpos_of_nonneg hneg.le hc
        linarith
      have h1 := Complex.arg_neg_iff.2 hneg
      have h2 := Complex.arg_neg_iff.2 hwneg
      have h3 := Complex.neg_pi_lt_arg z
      have h4 := Complex.neg_pi_lt_arg w
      constructor <;> linarith
    · have hwpos : 0 < w.im := by
        by_contra hc
        push_neg at hc
        have := mul_nonpos_of_nonneg_of_nonpos hpos.le hc
        linarith
      have h1 := Complex.arg_nonneg_iff.2 hpos.le
      have h2 := Complex.arg_nonneg_iff.2 hwpos.le
      have h3 : z.arg < Real.pi := Complex.arg_lt_pi_iff.2 (Or.inr hpos.ne')
      have h4 : w.arg < Real.pi := Complex.arg_lt_pi_iff.2 (Or.inr hwpos.ne')
      constructor <;> linarith
  have hprod : 0 < Complex.abs z * Complex.abs w := mul_pos haz haw
  constructor
  · intro hlt
    have := Real.sin_pos_of_pos_of_lt_pi (sub_pos.2 hlt) hbound.2
    rw [← hsin]
    exact mul_pos this hprod
  · intro hpos
    by_contra hc
    push_neg at hc
    rw [← hsin] at hpos
    have hs : 0 < Real.sin (w.arg - z.arg) := pos_of_mul_pos_left hpos hprod.le
    rcases hc.lt_or_eq with hlt | heq
    · have := Real.sin_neg_of_neg_of_neg_pi_lt (sub_neg.2 hlt) hbound.1
      linarith
    · rw [heq, sub_self, Real.sin_zero] at hs
      exact lt_irrefl _ hs

/-- The sector of an angle says where the real value `atan2(deltaY, deltaX)` lies. -/
theorem Angle.sector_spec (a : Angle) :
    (a.sector = 0 ∧ a.deltaY < 0 ∧ (Complex.mk a.deltaX a.deltaY).arg < 0) ∨
    (a.sector = 1 ∧ (Complex.mk a.deltaX a.deltaY).arg = 0) ∨
    (a.sector = 2 ∧ 0 < a.deltaY ∧ 0 < (Complex.mk a.deltaX a.deltaY).arg ∧
      (Complex.mk a.deltaX a.deltaY).arg < Real.pi) ∨
    (a.sector = 3 ∧ (Complex.mk a.deltaX a.deltaY).arg = Real.pi) := by
  rcases lt_trichotomy a.deltaY 0 with hneg | hzero | hpos
  · left
    refine ⟨by simp [Angle.sector, hneg], hneg, Complex.arg_neg_iff.2 ?_⟩
    show ((a.deltaY : ℤ) : ℝ) < 0
    exact_mod_cast hneg
  · rcases le_or_lt 0 a.deltaX with hx | hx
    · right; left
      refine ⟨by simp [Angle.sector, hzero, hx], Complex.arg_eq_zero_iff.2 ⟨?_, ?_⟩⟩
      · show (0 : ℝ) ≤ ((a.deltaX : ℤ) : ℝ)
        exact_mod_cast hx
      · show ((a.deltaY : ℤ) : ℝ) = 0
        exact_mod_cast hzero
    · right; right; right
      refine ⟨by simp [Angle.sector, hzero, not_le.2 hx], Complex.arg_eq_pi_iff.2 ⟨?_, ?_⟩⟩
      · show ((a.deltaX : ℤ) : ℝ) < 0
        exact_mod_cast hx
      · show ((a.deltaY : ℤ) : ℝ) = 0
        exact_mod_cast hzero
  · right; right; left
    have him : (0 : ℝ) < (Complex.mk a.deltaX a.deltaY).im := by
      show (0 : ℝ) < ((a.deltaY : ℤ) : ℝ)
      exact_mod_cast hpos
    have h1 : 0 ≤ (Complex.mk a.deltaX a.deltaY).arg := Complex.arg_nonneg_iff.2 him.le
    have h2 : (Complex.mk a.deltaX a.deltaY).arg ≠ 0 := by
      intro h0
      have := (Complex.arg_eq_zero_iff.1 h0).2
      linarith
    refine ⟨?_, hpos, lt_of_le_of_ne h1 (Ne.symm h2), Complex.arg_lt_pi_iff.2 (Or.inr him.ne')⟩
    have e1 : ¬ a.deltaY < 0 := by omega
    have e2 : ¬ a.deltaY = 0 := by omega
    simp [Angle.sector, e1, e2]

theorem Angle.cross_cast (a b : Angle) :
    (0 < (Complex.mk a.deltaX a.deltaY).re * (Complex.mk b.deltaX b.deltaY).im -
      (Complex.mk a.deltaX a.deltaY).im * (Complex.mk b.deltaX b.deltaY).re) ↔
    0 < a.deltaX * b.deltaY - a.deltaY * b.deltaX := by
  show (0 : ℝ) < ((a.deltaX : ℤ) : ℝ) * ((b.deltaY : ℤ) : ℝ) -
    ((a.deltaY : ℤ) : ℝ) * ((b.deltaX : ℤ) : ℝ) ↔ _
  constructor
  · intro h; exact_mod_cast h
  · intro h; exact_mod_cast h

/-- The comparison `Angle.lt` is the comparison `<` of the real values
`atan2(deltaY, deltaX)`. -/
theorem Angle.lt_iff_arg (a b : Angle) :
    a.lt b = true ↔
      (Complex.mk a.deltaX a.deltaY).arg < (Complex.mk b.deltaX b.deltaY).arg := by
  have hpi := Real.pi_pos
  simp only [Angle.lt, decide_eq_true_eq]
  rcases Angle.sector_spec a with ⟨sa, ya, ha⟩ | ⟨sa, ha⟩ | ⟨sa, ya, ha, ha'⟩ | ⟨sa, ha⟩ <;>
    rcases Angle.sector_spec b with ⟨sb, yb, hb⟩ | ⟨sb, hb⟩ | ⟨sb, yb, hb, hb'⟩ | ⟨sb, hb⟩ <;>
    rw [sa, sb]
  · have hprod : 0 < (Complex.mk a.deltaX a.deltaY).im * (Complex.mk b.deltaX b.deltaY).im := by
      show (0 : ℝ) < ((a.deltaY : ℤ) : ℝ) * ((b.deltaY : ℤ) : ℝ)
      have : 0 < a.deltaY * b.deltaY := mul_pos_of_neg_of_neg ya yb
      exact_mod_cast this
    rw [arg_lt_arg_iff_cross _ _ hprod, Angle.cross_cast]
    simp
  · simp; linarith
  · simp; linarith
  · simp; linarith
  · simp; linarith
  · simp; linarith
  · simp; linarith
  · simp; linarith
  · simp; linarith
  · simp; linarith
  · have hprod : 0 < (Complex.mk a.deltaX a.deltaY).im * (Complex.mk b.deltaX b.deltaY).im := by
      show (0 : ℝ) < ((a.deltaY : ℤ) : ℝ) * ((b.deltaY : ℤ) : ℝ)
      have : 0 < a.deltaY * b.deltaY := mul_pos ya yb
      exact_mod_cast this
    rw [arg_lt_arg_iff_cross _ _ hprod, Angle.cross_cast]
    simp
  · simp; linarith
  · simp; linarith
  · simp; linarith
  · simp; linarith
  · simp; linarith

theorem Angle.sector_le (a : Angle) : a.sector ≤ 3 := by
  simp only [Angle.sector]
  split
  · omega
  · split
    · split <;> omega
    · omega

theorem Angle.eq_iff_not_lt (a b : Angle) :
    a.eq b = true ↔ a.lt b = false ∧ b.lt a = false := by
  have h1 := Angle.sector_le a
  have h2 := Angle.sector_le b
  have hk : b.deltaX * a.deltaY - b.deltaY * a.deltaX =
      - (a.deltaX * b.deltaY - a.deltaY * b.deltaX) := by ring
  simp only [Angle.eq, Angle.lt, decide_eq_true_eq, decide_eq_false_iff_not, hk]
  generalize a.deltaX * b.deltaY - a.deltaY * b.deltaX = k
  generalize a.sector = sa at *
  generalize b.sector = sb at *
  omega

/-- The comparison `Angle.eq` is the comparison `==` of the real values
`atan2(deltaY, deltaX)`. -/
theorem Angle.eq_iff_arg (a b : Angle) :
    a.eq b = true ↔
      (Complex.mk a.deltaX a.deltaY).arg = (Complex.mk b.deltaX b.deltaY).arg := by
  rw [Angle.eq_iff_not_lt, ← Bool.not_eq_true, ← Bool.not_eq_true, Angle.lt_iff_arg,
    Angle.lt_iff_arg]
  constructor
  · rintro ⟨h1, h2⟩
    exact le_antisymm (not_lt.1 h2) (not_lt.1 h1)
  · intro h
    rw [h]
    exact ⟨lt_irrefl _, lt_irrefl _⟩

/-- The comparison `Angle.lt` is the comparison `<` of the real values of
`atan2(deltaY, deltaX) * ANGLE_FACTOR / PI`. -/
theorem Angle.lt_iff_degrees (a b : Angle) :
    a.lt b = true ↔
      (Complex.mk a.deltaX a.deltaY).arg * 180 / 3.141592 <
        (Complex.mk b.deltaX b.deltaY).arg * 180 / 3.141592 := by
  rw [Angle.lt_iff_arg]
  constructor
  · intro h
    have : (0 : ℝ) < 180 / 3.141592 := by norm_num
    have h2 := mul_lt_mul_of_pos_right h this
    calc (Complex.mk a.deltaX a.deltaY).arg * 180 / 3.141592
        = (Complex.mk a.deltaX a.deltaY).arg * (180 / 3.141592) := by ring
      _ < (Complex.mk b.deltaX b.deltaY).arg * (180 / 3.141592) := h2
      _ = (Complex.mk b.deltaX b.deltaY).arg * 180 / 3.141592 := by ring
  · intro h
    have hpos : (0 : ℝ) < 180 / 3.141592 := by norm_num
    have e1 : (Complex.mk a.deltaX a.deltaY).arg * 180 / 3.141592 =
        (Complex.mk a.deltaX a.deltaY).arg * (180 / 3.141592) := by ring
    have e2 : (Complex.mk b.deltaX b.deltaY).arg * 180 / 3.141592 =
        (Complex.mk b.deltaX b.deltaY).arg * (180 / 3.141592) := by ring
    rw [e1, e2] at h
    exact lt_of_mul_lt_mul_right h hpos.le

/-- The comparison `Angle.eq` is the comparison `==` of the real values of
`atan2(deltaY, deltaX) * ANGLE_FACTOR / PI`. -/
theorem Angle.eq_iff_degrees (a b : Angle) :
    a.eq b = true ↔
      (Complex.mk a.deltaX a.deltaY).arg * 180 / 3.141592 =
        (Complex.mk b.deltaX b.deltaY).arg * 180 / 3.141592 := by
  rw [Angle.eq_iff_arg]
  constructor
  · intro h
    rw [h]
  · intro h
    have hne : (180 / 3.141592 : ℝ) ≠ 0 := by norm_num
    have e1 : (Complex.mk a.deltaX a.deltaY).arg * 180 / 3.141592 =
        (Complex.mk a.deltaX a.deltaY).arg * (180 / 3.141592) := by ring
    have e2 : (Complex.mk b.deltaX b.deltaY).arg * 180 / 3.141592 =
        (Complex.mk b.deltaX b.deltaY).arg * (180 / 3.141592) := by ring
    rw [e1, e2] at h
    exact mul_right_cancel₀ hne h

/-- The comparison `Root.lt` is the comparison `<` of the real square roots, for the
non-negative radicands that `distance` produces. -/
theorem Root.lt_iff_sqrt (a b : Root) (ha : 0 ≤ a.radicand) :
    a.lt b = true ↔ Real.sqrt a.radicand < Real.sqrt b.radicand := by
  have h0 : (0 : ℝ) ≤ ((a.radicand : ℤ) : ℝ) := by exact_mod_cast ha
  rw [Real.sqrt_lt_sqrt_iff h0]
  simp only [Root.lt, decide_eq_true_eq]
  constructor
  · intro h; exact_mod_cast h
  · intro h; exact_mod_cast h

theorem Point.distance_radicand_nonneg (p other : Point) : 0 ≤ (p.distance other).radicand := by
  simp only [Point.distance]
  exact add_nonneg (mul_self_nonneg _) (mul_self_nonneg _)

/-! ## Sorted sequences -/

theorem xComparator_eq_false_iff (p q : Point) : xComparator p q = false ↔ xle q p := by
  rw [← Bool.not_eq_true, xComparator_iff]
  simp only [xle]
  omega

theorem xComparator_asymm (x y : Point) (h : xComparator x y = true) :
    xComparator y x = false := by
  rw [xComparator_iff] at h
  rw [xComparator_eq_false_iff]
  simp only [xle]
  omega

theorem xComparator_negtrans (x y z : Point) (h1 : xComparator y x = false)
    (h2 : xComparator z y = false) : xComparator z x = false := by
  rw [xComparator_eq_false_iff] at h1 h2 ⊢
  simp only [xle] at *
  omega

theorem xle_antisymm (a b : Point) (h1 : xle a b) (h2 : xle b a) : a = b := by
  simp only [xle] at h1 h2
  apply Point.ext_get <;> omega

theorem std_stable_sort_of_sorted {α : Type} (comp : α → α → Bool) (l : List α)
    (h : l.Pairwise (fun x y => comp y x = false)) : std_stable_sort comp l = l := by
  induction l with
  | nil => rfl
  | cons a l ih =>
    rw [List.pairwise_cons] at h
    simp only [std_stable_sort, ih h.2]
    cases l with
    | nil => rfl
    | cons b l =>
      simp only [orderedInsertBy, h.1 b (List.mem_cons_self _ _), Bool.false_eq_true, if_false]

theorem std_sort_xComparator_sorted (l : List Point) :
    (std_sort xComparator l).Pairwise xle := by
  have h := std_stable_sort_sorted xComparator l
    (fun x _ y _ h => xComparator_asymm x y h)
    (fun x _ y _ z _ h1 h2 => xComparator_negtrans x y z h1 h2)
  refine List.Pairwise.imp ?_ h
  intro a b hab
  exact (xComparator_eq_false_iff b a).1 hab

/-- A sequence in the order of `xComparator` is determined by its elements: two such
sequences that are permutations of each other are equal. -/
theorem eq_of_perm_of_xle {l1 l2 : List Point} (hp : l1.Perm l2) (h1 : l1.Pairwise xle)
    (h2 : l2.Pairwise xle) : l1 = l2 := by
  haveI : IsAntisymm Point xle := ⟨xle_antisymm⟩
  exact List.eq_of_perm_of_sorted hp h1 h2

theorem polarSort_head (l : List Point) (hne : l ≠ []) :
    ∃ p0 t0, std_stable_sort yComparator l = p0 :: t0 ∧
      polarSort l = p0 :: std_stable_sort (polarComparator p0) t0 ∧ p0 ∈ l ∧
      ∀ q ∈ l, yComparator q p0 = false := by
  have hperm := std_stable_sort_perm yComparator l
  have hsorted := std_stable_sort_sorted yComparator l
    (fun x _ y _ h => yComparator_asymm x y h)
    (fun x _ y _ z _ h1 h2 => yComparator_negtrans x y z h1 h2)
  cases hs : std_stable_sort yComparator l with
  | nil =>
    rw [hs] at hperm
    exact absurd hperm.symm.eq_nil hne
  | cons p0 t0 =>
    rw [hs] at hperm hsorted
    rw [List.pairwise_cons] at hsorted
    refine ⟨p0, t0, rfl, ?_, hperm.mem_iff.1 (List.mem_cons_self _ _), ?_⟩
    · simp only [polarSort, hs]
    · intro q hq
      rcases List.mem_cons.1 (hperm.mem_iff.2 hq) with rfl | hq'
      · rw [yComparator_eq_false_iff]
        omega
      · exact hsorted.1 q hq'

theorem getElem?_adjacent_of_pairwise {R : Point → Point → Prop} {l : List Point}
    (h : l.Pairwise R) (i j : Nat) (a b : Point) (hij : i < j) (ha : l[i]? = some a)
    (hb : l[j]? = some b) : R a b := by
  have hj : j < l.length := by
    by_contra hc
    rw [List.getElem?_eq_none (by omega)] at hb
    cases hb
  have hi : i < l.length := by omega
  rw [List.getElem?_eq_getElem hi] at ha
  rw [List.getElem?_eq_getElem hj] at hb
  cases ha
  cases hb
  exact (List.pairwise_iff_getElem.1 h) i j hi hj hij

/-- The element sequence after `sortByPolar` of a non-empty duplicate-free sequence whose
coordinate differences do not overflow: the pivot, then the other points, all after the pivot
in the order of `yComparator`, in polar order around the pivot. -/
theorem polarSort_spec_of_deltaFits (l : List Point) (hne : l ≠ []) (hnd : l.Nodup)
    (hfit : ∀ a ∈ l, ∀ b ∈ l, deltaFits a b) :
    ∃ p0 t, polarSort l = p0 :: t ∧ p0 ∈ l ∧ (∀ q ∈ t, above p0 q) ∧ t.Pairwise (ple p0) := by
  obtain ⟨p0, t0, hs, hsort, hp0, hmin⟩ := polarSort_head l hne
  have hperm := std_stable_sort_perm yComparator l
  rw [hs] at hperm
  have hnd' : (p0 :: t0).Nodup := hperm.nodup_iff.2 hnd
  rw [List.nodup_cons] at hnd'
  have ht0 : ∀ q ∈ t0, q ∈ l := fun q hq => hperm.mem_iff.1 (List.mem_cons_of_mem _ hq)
  have habove : ∀ q ∈ t0, above p0 q := by
    intro q hq
    apply above_of_yComparator (hmin q (ht0 q hq))
    rintro rfl
    exact hnd'.1 hq
  have hfx : ∀ q ∈ t0, inInt32 (q.getX - p0.getX) ∧ inInt32 (q.getY - p0.getY) :=
    fun q hq => hfit p0 hp0 q (ht0 q hq)
  have hpp := std_stable_sort_perm (polarComparator p0) t0
  have hmem : ∀ q, q ∈ std_stable_sort (polarComparator p0) t0 → q ∈ t0 :=
    fun q hq => hpp.mem_iff.1 hq
  have hiff : ∀ a ∈ t0, ∀ b ∈ t0, (polarComparator p0 b a = false ↔ ple p0 a b) :=
    fun a ha b hb => polarComparator_eq_false_iff p0 a b (habove a ha) (habove b hb)
      (hfx a ha).1 (hfx a ha).2 (hfx b hb).1 (hfx b hb).2
  have hsp := std_stable_sort_sorted (polarComparator p0) t0
    (by
      intro x hx y hy h
      rw [hiff x hx y hy]
      rw [polarComparator_iff p0 x y (habove x hx) (habove y hy) (hfx x hx).1 (hfx x hx).2
        (hfx y hy).1 (hfx y hy).2] at h
      rcases h with h | h
      · exact Or.inl h
      · exact Or.inr ⟨h.1, h.2.le⟩)
    (by
      intro x hx y hy z hz h1 h2
      rw [hiff x hx y hy] at h1
      rw [hiff y hy z hz] at h2
      rw [hiff x hx z hz]
      exact ple_trans p0 x y z (habove x hx) (habove y hy) (habove z hz) h1 h2)
  refine ⟨p0, _, hsort, hp0, fun q hq => habove q (hmem q hq), ?_⟩
  refine List.Pairwise.imp_of_mem ?_ hsp
  intro a b ha hb h
  exact (hiff a (hmem a ha) b (hmem b hb)).1 h

/-! ## Set operators on element sequences -/

namespace PointSet

theorem operator_eqLoop_mkSet (l1 l2 : List Point) (rest : List PointP) (other : PointSet) :
    operator_eqLoop (mkSet (l1 ++ l2) rest) other l2.length l1.length =
      l2.all fun q => decide (other._findPoint q ≠ INVALID_INDEX) := by
  induction l2 generalizing l1 with
  | nil => rfl
  | cons q l2 ih =>
    have hq : (mkSet (l1 ++ q :: l2) rest)._pointSet.getD l1.length none = some q := by
      apply getD_mkSet
      rw [List.getElem?_append_right (le_refl _), Nat.sub_self, List.getElem?_cons_zero]
    have ih' := ih (l1 ++ [q])
    simp only [List.append_assoc, List.singleton_append, List.length_append,
      List.length_singleton] at ih'
    simp only [List.length_cons, operator_eqLoop, hq, List.all_cons, ih']
    by_cases hc : other._findPoint q = INVALID_INDEX
    · simp [hc]
    · simp [hc]

theorem operator_eq_mkSet (l m : List Point) (rest rest2 : List PointP) :
    operator_eq (mkSet l rest) (mkSet m rest2) = true ↔
      l.length = m.length ∧ ∀ q ∈ l, q ∈ m := by
  have h := operator_eqLoop_mkSet [] l rest (mkSet m rest2)
  simp only [List.nil_append, List.length_nil] at h
  simp only [operator_eq]
  show (if l.length ≠ m.length then false
    else operator_eqLoop (mkSet l rest) (mkSet m rest2) l.length 0) = true ↔ _
  by_cases hlen : l.length = m.length
  · simp only [hlen, ne_eq, not_true_eq_false, if_false, true_and]
    rw [← hlen, h, List.all_eq_true]
    constructor
    · intro hq q hmem
      have := hq q hmem
      rw [decide_eq_true_eq, _findPoint_mkSet_ne_invalid] at this
      exact this
    · intro hq q hmem
      rw [decide_eq_true_eq, _findPoint_mkSet_ne_invalid]
      exact hq q hmem
  · simp [hlen]

end PointSet

/-- Two duplicate-free sequences of the same length, the first contained in the second, have
the same elements. -/
theorem mem_iff_of_subset_of_length {l m : List Point} (hl : l.Nodup)
    (hlen : l.length = m.length) (hsub : ∀ q ∈ l, q ∈ m) (q : Point) : q ∈ l ↔ q ∈ m := by
  have hsp : l.Subperm m := List.subperm_of_subset hl hsub
  have hperm : l.Perm m := hsp.perm_of_length_le (by omega)
  exact hperm.mem_iff

/-- Two duplicate-free sequences with the same elements have the same length. -/
theorem length_eq_of_mem_iff {l m : List Point} (hl : l.Nodup) (hm : m.Nodup)
    (h : ∀ q, q ∈ l ↔ q ∈ m) : l.length = m.length :=
  ((List.perm_ext_iff_of_nodup hl hm).2 h).length_eq

theorem addList_nil_of_nodup (l : List Point) (h : l.Nodup) : addList [] l = l := by
  rw [addList_of_nodup_disjoint [] l h (by simp)]
  rfl


/-! ## Capacity of the backing array -/

theorem addAll_mkSet_of_room (ps : List Point) :
    ∀ (l : List Point) (rest : List PointP), (l ++ ps).Nodup → ps.length < rest.length →
      ∃ rest', addAll ps (PointSet.mkSet l rest) = some (PointSet.mkSet (l ++ ps) rest') ∧
        rest'.length + ps.length = rest.length := by
  induction ps with
  | nil =>
    intro l rest _ _
    exact ⟨rest, by simp [addAll], by simp⟩
  | cons p ps ih =>
    intro l rest hnd hroom
    have hrest : rest ≠ [] := by
      rintro rfl
      simp at hroom
    have hp : p ∉ l := by
      intro hp
      have := (List.nodup_append.1 hnd).2.2
      exact this hp (List.mem_cons_self p ps) 
    obtain ⟨r1, _, hadd, hcap⟩ := PointSet.add_mkSet_of_not_mem hrest hp
    have h1 : rest.length ≠ 1 := by
      simp only [List.length_cons] at hroom
      omega
    rw [if_neg h1] at hcap
    simp only [PointSet.mkSet, List.length_append, List.length_singleton] at hcap
    have hnd' : ((l ++ [p]) ++ ps).Nodup := by
      rw [List.append_assoc]
      exact hnd
    simp only [List.length_cons] at hroom
    obtain ⟨r2, h2, hlen⟩ := ih (l ++ [p]) r1 hnd' (by omega)
    refine ⟨r2, ?_, ?_⟩
    · rw [addAll, hadd, Option.some_bind, h2, List.append_assoc]
      rfl
    · simp only [List.length_cons]
      omega

theorem PointSet.copy_mkSet_of_nodup (l : List Point) (rest : List PointP) (hrest : rest ≠ [])
    (hl : l.Nodup) :
    PointSet.copy (PointSet.mkSet l rest) =
      some (PointSet.mkSet l (List.replicate rest.length none)) := by
  have h := PointSet.copyLoop_mkSet [] l rest
  simp only [List.nil_append, List.length_nil] at h
  have hroom : l.length < (List.replicate (l.length + rest.length) (none : PointP)).length := by
    have : 0 < rest.length := List.length_pos.2 hrest
    simp only [List.length_replicate]
    omega
  obtain ⟨r1, h2, hlen⟩ := addAll_mkSet_of_room l [] _ (by simpa using hl) hroom
  simp only [List.length_replicate, List.nil_append] at hlen h2
  have hr1 : r1.length = rest.length := by omega
  simp only [PointSet.copy]
  have h3 : (⟨EMPTY_SET_SIZE, (PointSet.mkSet l rest)._capacity,
      List.replicate (PointSet.mkSet l rest)._capacity none⟩ : PointSet) =
      PointSet.mkSet [] (List.replicate (l.length + rest.length) none) := by
    simp [PointSet.mkSet, EMPTY_SET_SIZE]
  rw [h3]
  show (PointSet.copyLoop (PointSet.mkSet l rest) l.length 0 _).bind _ = _
  rw [h, h2, Option.some_bind, ← hr1]
  exact PointSet._initializeSet_mkSet _ _

theorem PointSet.toStringLoop_mkSet (l2 : List Point) :
    ∀ (l1 : List Point) (rest : List PointP) (result : String),
      PointSet.toStringLoop (PointSet.mkSet (l1 ++ l2) rest) l2.length l1.length result =
        l2.foldl (fun acc q => acc ++ (q.toString ++ "\n")) result := by
  induction l2 with
  | nil =>
    intro l1 rest result
    rfl
  | cons q l2 ih =>
    intro l1 rest result
    have hget : (PointSet.mkSet (l1 ++ q :: l2) rest)._pointSet.getD l1.length none = some q :=
      PointSet.getD_mkSet _ rest l1.length q
        (by rw [List.getElem?_append_right (le_refl _), Nat.sub_self, List.getElem?_cons_zero])
    have hstep := ih (l1 ++ [q]) rest (result ++ (q.toString ++ "\n"))
    simp only [List.append_assoc, List.singleton_append, List.length_append,
      List.length_singleton] at hstep
    simp only [List.length_cons, PointSet.toStringLoop, hget, List.foldl_cons]
    exact hstep

theorem PointSet.toString_mkSet (l : List Point) (rest : List PointP) :
    (PointSet.mkSet l rest).toString =
      l.foldl (fun acc q => acc ++ (q.toString ++ "\n")) "" :=
  PointSet.toStringLoop_mkSet l [] rest ""

theorem PointSet.add_capacity_pow2 {l : List Point} {rest : List PointP} {p : Point} {b : Bool}
    {S' : PointSet} (hrest : rest ≠ []) (h : (PointSet.mkSet l rest).add p = some (b, S'))
    (hk : ∃ k, (PointSet.mkSet l rest)._capacity = 2 ^ k) :
    ∃ k, S'._capacity = 2 ^ k ∧ ∃ l' rest', rest' ≠ [] ∧ S' = PointSet.mkSet l' rest' := by
  obtain ⟨k, hk⟩ := hk
  by_cases hp : p ∈ l
  · rw [PointSet.add_mkSet_of_mem rest hp] at h
    cases h
    exact ⟨k, hk, l, rest, hrest, rfl⟩
  · obtain ⟨r1, hr1, h1, hcap⟩ := PointSet.add_mkSet_of_not_mem hrest hp
    rw [h1] at h
    cases h
    by_cases hone : rest.length = 1
    · rw [if_pos hone, hk] at hcap
      exact ⟨k + 1, by rw [hcap, RESIZE_FACTOR, pow_succ], _, r1, hr1, rfl⟩
    · rw [if_neg hone, hk] at hcap
      exact ⟨k, hcap, _, r1, hr1, rfl⟩

theorem addAll_capacity_pow2 (ps : List Point) :
    ∀ (l : List Point) (rest : List PointP) (R : PointSet), rest ≠ [] →
      (∃ k, (PointSet.mkSet l rest)._capacity = 2 ^ k) →
      addAll ps (PointSet.mkSet l rest) = some R → ∃ k, R._capacity = 2 ^ k := by
  induction ps with
  | nil =>
    intro l rest R _ hk h
    simp only [addAll, Option.some.injEq] at h
    subst h
    exact hk
  | cons p ps ih =>
    intro l rest R hrest hk h
    rw [addAll] at h
    cases hadd : (PointSet.mkSet l rest).add p with
    | none =>
      rw [hadd] at h
      cases h
    | some r =>
      rw [hadd, Option.some_bind] at h
      obtain ⟨b, S'⟩ := r
      obtain ⟨k, hk', l', rest', hrest', rfl⟩ := PointSet.add_capacity_pow2 hrest hadd hk
      exact ih l' rest' R hrest' ⟨k, hk'⟩ h

theorem Reachable.capacity_pow2 {S : PointSet} (h : Reachable S) :
    ∃ k, S._capacity = 2 ^ k := by
  induction h with
  | new => exact ⟨0, rfl⟩
  | @add S S' p b hS hadd ih =>
    obtain ⟨l, rest, hrest, _, rfl⟩ := hS.eq_mkSet
    obtain ⟨k, hk, _⟩ := PointSet.add_capacity_pow2 hrest hadd ih
    exact ⟨k, hk⟩
  | @remove S S' p b hS hrem ih =>
    obtain ⟨l, rest, hrest, _, rfl⟩ := hS.eq_mkSet
    obtain ⟨k, hk⟩ := ih
    refine ⟨k, ?_⟩
    by_cases hp : p ∈ l
    · obtain ⟨l1, l2, _, hl, h1⟩ := PointSet.remove_mkSet_of_mem rest hp
      rw [h1] at hrem
      cases hrem
      subst hl
      rw [← hk]
      simp only [PointSet.mkSet, List.length_append, List.length_cons]
      omega
    · rw [PointSet.remove_mkSet_of_not_mem rest hp] at hrem
      cases hrem
      exact hk
  | @sortSet S hS ih =>
    obtain ⟨l, rest, hrest, _, rfl⟩ := hS.eq_mkSet
    obtain ⟨k, hk⟩ := ih
    refine ⟨k, ?_⟩
    rw [PointSet.sortSet_mkSet, ← hk]
    show (std_sort xComparator l).length + rest.length = l.length + rest.length
    rw [std_sort, std_stable_sort_length]
  | @sortByPolar S hS ih =>
    obtain ⟨l, rest, hrest, _, rfl⟩ := hS.eq_mkSet
    obtain ⟨k, hk⟩ := ih
    refine ⟨k, ?_⟩
    rw [PointSet.sortByPolar_mkSet, ← hk]
    show (polarSort l).length + rest.length = l.length + rest.length
    rw [(polarSort_perm l).length_eq]
  | @copy S S' hS hcopy ih =>
    obtain ⟨l, rest, hrest, hnd, rfl⟩ := hS.eq_mkSet
    obtain ⟨k, hk⟩ := ih
    rw [PointSet.copy_mkSet_of_nodup l rest hrest hnd] at hcopy
    cases hcopy
    refine ⟨k, ?_⟩
    rw [← hk]
    simp [PointSet.mkSet]
  | @assign S T S' hS hT hassign ihS ihT =>
    obtain ⟨m, rest2, hrest2, hnd2, rfl⟩ := hT.eq_mkSet
    unfold PointSet.operator_assign at hassign
    split at hassign
    · rw [PointSet.copy_mkSet_of_nodup m rest2 hrest2 hnd2] at hassign
      simp only [Option.some_bind, PointSet._swapData, Option.some.injEq] at hassign
      subst hassign
      obtain ⟨k, hk⟩ := ihT
      refine ⟨k, ?_⟩
      rw [← hk]
      simp [PointSet.mkSet]
    · cases hassign
      exact ihS
  | @sub S T R hS hT hsub _ _ =>
    obtain ⟨l, rest, hrest, _, rfl⟩ := hS.eq_mkSet
    have h := PointSet.selectLoop_mkSet [] l rest T true PointSet.new
    simp only [List.nil_append, List.length_nil] at h
    unfold PointSet.operator_sub at hsub
    rw [show (PointSet.mkSet l rest)._size = l.length from rfl, h, PointSet.new_eq_mkSet] at hsub
    exact addAll_capacity_pow2 _ [] [none] R (by simp) ⟨0, rfl⟩ hsub
  | @and S T R hS hT hand _ _ =>
    obtain ⟨l, rest, hrest, _, rfl⟩ := hS.eq_mkSet
    have h := PointSet.selectLoop_mkSet [] l rest T false PointSet.new
    simp only [List.nil_append, List.length_nil] at h
    unfold PointSet.operator_and at hand
    rw [show (PointSet.mkSet l rest)._size = l.length from rfl, h, PointSet.new_eq_mkSet] at hand
    exact addAll_capacity_pow2 _ [] [none] R (by simp) ⟨0, rfl⟩ hand

/-! ## The states of the scan -/

theorem getConvexHullWhile_scanState (P : PointSet) (i : Nat) (hi : i < P.size) (c : Point)
    (hc : P.operator_index i = some c) :
    ∀ (j : Nat) (R : PointSet) (res : PointSet × Nat), ScanState P i j R →
      getConvexHullWhile P i j R = some res →
      ScanState P i res.2 res.1 ∧
        (res.2 < INITIAL_RESULT_SIZE ∨
          ∃ a b, res.1.operator_index ((res.2 : Int) - 2) = some a ∧
            res.1.operator_index ((res.2 : Int) - 1) = some b ∧
            counterClockwise a b c = true) := by
  intro j
  induction j with
  | zero =>
    intro R res hst h
    rw [getConvexHullWhile] at h
    cases h
    exact ⟨hst, Or.inl (Nat.zero_lt_succ 1)⟩
  | succ j ih =>
    intro R res hst h
    rw [getConvexHullWhile] at h
    split at h
    · rename_i hj
      cases ha : R.operator_index (((j + 1 : Nat) : Int) - 2) with
      | none =>
        rw [ha] at h
        cases h
      | some a =>
        cases hb : R.operator_index (((j + 1 : Nat) : Int) - 1) with
        | none =>
          rw [ha, hb] at h
          cases h
        | some b =>
          rw [ha, hb, hc] at h
          simp only [Option.some_bind] at h
          cases hccw : counterClockwise a b c with
          | true =>
            rw [hccw] at h
            simp only [Bool.not_true, Bool.false_eq_true, if_false, Option.some.injEq] at h
            subst h
            exact ⟨hst, Or.inr ⟨a, b, ha, hb, hccw⟩⟩
          | false =>
            rw [hccw] at h
            simp only [Bool.not_false, if_true] at h
            cases hr : R.remove b with
            | none =>
              rw [hr] at h
              cases h
            | some r =>
              rw [hr, Option.some_bind] at h
              exact ih r.2 res (ScanState.pop hst hi hj ha hb hc hccw hr) h
    · rename_i hj
      cases h
      exact ⟨hst, Or.inl (by omega)⟩

theorem getConvexHullFor_scanState (P : PointSet) :
    ∀ (k i j : Nat) (R Rf : PointSet), ScanState P i j R → k ≤ P.size - i →
      getConvexHullFor P k i j R = some Rf → ∃ j', ScanState P (i + k) j' Rf := by
  intro k
  induction k with
  | zero =>
    intro i j R Rf hst _ h
    rw [getConvexHullFor] at h
    cases h
    exact ⟨j, hst⟩
  | succ k ih =>
    intro i j R Rf hst hk h
    have hi : i < P.size := by omega
    rw [getConvexHullFor] at h
    cases hw : getConvexHullWhile P i j R with
    | none =>
      rw [hw] at h
      cases h
    | some w =>
      cases hc : P.operator_index i with
      | none =>
        rw [hw, hc] at h
        cases h
      | some c =>
        rw [hw, hc] at h
        simp only [Option.some_bind] at h
        cases hr : w.1.add c with
        | none =>
          rw [hr] at h
          cases h
        | some r =>
          rw [hr, Option.some_bind] at h
          obtain ⟨hst', hexit⟩ := getConvexHullWhile_scanState P i hi c hc j R w hst hw
          have hnext := ScanState.push hst' hi hexit hc hr
          obtain ⟨j', hj'⟩ := ih (i + 1) (w.2 + 1) r.2 Rf hnext (by omega) h
          exact ⟨j', by rwa [Nat.add_assoc, Nat.add_comm 1 k] at hj'⟩

theorem getConvexHull_scanState (S P R : PointSet) (h : getConvexHull S = some (P, R)) :
    P = S.sortByPolar ∧
      ∃ j, ScanState P (INITIAL_RESULT_SIZE + (P.size - INITIAL_RESULT_SIZE)) j R := by
  unfold getConvexHull at h
  simp only at h
  cases hinit : getConvexHullInit S.sortByPolar INITIAL_RESULT_SIZE 0 PointSet.new with
  | none =>
    rw [hinit] at h
    cases h
  | some r0 =>
    rw [hinit, Option.some_bind] at h
    cases hfor : getConvexHullFor S.sortByPolar (S.sortByPolar.size - INITIAL_RESULT_SIZE)
        INITIAL_RESULT_SIZE r0.2 r0.1 with
    | none =>
      rw [hfor] at h
      cases h
    | some Rf =>
      rw [hfor, Option.some_bind] at h
      cases h
      refine ⟨rfl, ?_⟩
      exact getConvexHullFor_scanState S.sortByPolar _ _ _ _ _ (ScanState.init hinit)
        (by simp only [INITIAL_RESULT_SIZE]; omega) hfor

theorem not_mem_take_of_nodup {L : List Point} (hL : L.Nodup) {i : Nat} {c : Point}
    (hc : L[i]? = some c) : c ∉ L.take i := by
  have hi : i < L.length := by
    by_contra hcon
    rw [List.getElem?_eq_none (by omega)] at hc
    cases hc
  rw [List.getElem?_eq_getElem hi] at hc
  have hsplit : L = L.take i ++ c :: L.drop (i + 1) := by
    rw [← Option.some.inj hc, ← List.drop_eq_getElem_cons hi, List.take_append_drop]
  rw [hsplit] at hL
  have := (List.nodup_append.1 hL).2.2
  intro hmem
  exact this hmem (List.mem_cons_self _ _) 

theorem take_succ_of_getElem? {L : List Point} {i : Nat} {c : Point} (hc : L[i]? = some c) :
    L.take (i + 1) = L.take i ++ [c] := by
  rw [List.take_succ, hc]
  rfl

theorem operator_index_last (m : List Point) (r : List PointP) (b : Point)
    (h : (PointSet.mkSet m r).operator_index ((m.length : Int) - 1) = some b) :
    m = m.dropLast ++ [b] := by
  have hpos : 0 < m.length := by
    by_contra hcon
    rw [PointSet.operator_index_mkSet_of_not m r _ (by omega)] at h
    cases h
  have hcast : ((m.length : Int) - 1) = ((m.length - 1 : Nat) : Int) := by omega
  rw [hcast, PointSet.operator_index_mkSet m r (m.length - 1) (by omega),
    List.getElem?_eq_getElem (by omega)] at h
  have hne : m ≠ [] := List.length_pos.1 hpos
  have hlast : m.getLast hne = b := by
    rw [List.getLast_eq_getElem]
    exact Option.some.inj h
  rw [← hlast, List.dropLast_append_getLast]

/-- What holds in every state of the scan of a duplicate-free container with element
sequence `L`: the result set is well formed, `j` is its size, and its element sequence is a
subsequence of the first `i` elements of `L`. -/
theorem scanState_inv (L : List Point) (rest : List PointP) (hL : L.Nodup) (i j : Nat)
    (R : PointSet) (h : ScanState (PointSet.mkSet L rest) i j R) :
    ∃ m r, r ≠ [] ∧ R = PointSet.mkSet m r ∧ j = m.length ∧ m.Sublist (L.take i) := by
  induction h with
  | @init R j hinit =>
    obtain ⟨r', hr', h⟩ := getConvexHullInit_mkSet L rest hL
    rw [h] at hinit
    cases hinit
    exact ⟨L.take 2, r', hr', rfl, rfl, List.Sublist.refl _⟩
  | @pop i j R a b c r _ hi hj ha hb hc hccw hr ih =>
    obtain ⟨m, r0, hr0, rfl, rfl, hsub⟩ := ih
    have hm := operator_index_last m r0 b hb
    have hnd : m.Nodup := (hL.sublist (List.take_sublist i L)).sublist hsub
    have hb' : b ∉ m.dropLast := by
      rw [hm] at hnd
      have := (List.nodup_append.1 hnd).2.2
      intro hmem
      exact this hmem (List.mem_singleton_self b)
    have hrem := PointSet.remove_mkSet_split m.dropLast [] b r0 hb'
    rw [← hm, hr] at hrem
    cases hrem
    refine ⟨m.dropLast, none :: r0, by simp, by rw [List.append_nil], ?_,
      (List.dropLast_sublist m).trans hsub⟩
    rw [List.length_dropLast]
  | @push i j R c r _ hi _ hc hr ih =>
    obtain ⟨m, r0, hr0, rfl, rfl, hsub⟩ := ih
    have hi' : i < L.length := hi
    rw [PointSet.operator_index_mkSet L rest i hi'] at hc
    have hc' : c ∉ m := fun hmem => not_mem_take_of_nodup hL hc (hsub.subset hmem)
    obtain ⟨r1, hr1, hadd, _⟩ := PointSet.add_mkSet_of_not_mem hr0 hc'
    rw [hadd] at hr
    cases hr
    refine ⟨m ++ [c], r1, hr1, rfl, by simp, ?_⟩
    rw [take_succ_of_getElem? hc]
    exact List.Sublist.append hsub (List.Sublist.refl _)

/-- In a state of the scan with a candidate left, the candidate is read, is not held by the
result set, and `add` appends it. -/
theorem scanState_add (L : List Point) (rest : List PointP) (hL : L.Nodup) (i j : Nat)
    (R : PointSet) (h : ScanState (PointSet.mkSet L rest) i j R) (hi : i < L.length) :
    ∃ c R', (PointSet.mkSet L rest).operator_index i = some c ∧ c ∉ R.toList ∧
      R.add c = some (true, R') ∧ R'.toList = R.toList ++ [c] ∧ R'.size = j + 1 := by
  obtain ⟨m, r0, hr0, rfl, rfl, hsub⟩ := scanState_inv L rest hL i j R h
  have hc : L[i]? = some L[i] := List.getElem?_eq_getElem hi
  have hc' : L[i] ∉ m := fun hmem => not_mem_take_of_nodup hL hc (hsub.subset hmem)
  obtain ⟨r1, hr1, hadd, _⟩ := PointSet.add_mkSet_of_not_mem hr0 hc'
  refine ⟨L[i], _, ?_, ?_, hadd, ?_, ?_⟩
  · rw [PointSet.operator_index_mkSet L rest i hi, hc]
  · rwa [PointSet.toList_mkSet]
  · rw [PointSet.toList_mkSet, PointSet.toList_mkSet]
  · show (m ++ [L[i]]).length = m.length + 1
    simp

/-- In a state of the scan with `j ≥ 2` the two last elements of the result set are read,
and `remove` of the last one deletes exactly the last element. -/
theorem scanState_remove (L : List Point) (rest : List PointP) (hL : L.Nodup) (i j : Nat)
    (R : PointSet) (h : ScanState (PointSet.mkSet L rest) i j R) (hj : 2 ≤ j) :
    ∃ a b R', R.operator_index ((j : Int) - 2) = some a ∧
      R.operator_index ((j : Int) - 1) = some b ∧
      R.remove b = some (true, R') ∧ R'.toList = R.toList.dropLast ∧ R'.size = j - 1 := by
  obtain ⟨m, r0, hr0, rfl, rfl, hsub⟩ := scanState_inv L rest hL i j R h
  have h2 : ((m.length : Int) - 2) = ((m.length - 2 : Nat) : Int) := by omega
  have h1 : ((m.length : Int) - 1) = ((m.length - 1 : Nat) : Int) := by omega
  have hb : (PointSet.mkSet m r0).operator_index ((m.length : Int) - 1) =
      some m[m.length - 1] := by
    have e := PointSet.operator_index_mkSet m r0 (m.length - 1) (by omega)
    rw [← h1] at e
    rw [e]
    exact List.getElem?_eq_getElem _
  have hm := operator_index_last m r0 _ hb
  have hnd : m.Nodup := (hL.sublist (List.take_sublist i L)).sublist hsub
  have hb' : m[m.length - 1] ∉ m.dropLast := by
    intro hmem
    rw [hm] at hnd
    exact (List.nodup_append.1 hnd).2.2 hmem (List.mem_singleton_self _)
  have hrem := PointSet.remove_mkSet_split m.dropLast [] _ r0 hb'
  rw [← hm, List.append_nil] at hrem
  refine ⟨m[m.length - 2], m[m.length - 1], _, ?_, hb, hrem, ?_, ?_⟩
  · have e := PointSet.operator_index_mkSet m r0 (m.length - 2) (by omega)
    rw [← h2] at e
    rw [e]
    exact List.getElem?_eq_getElem _
  · rw [PointSet.toList_mkSet, PointSet.toList_mkSet]
  · show m.dropLast.length = m.length - 1
    rw [List.length_dropLast]

/-! ## Turns and end points of the scan -/

theorem TurnChain.of_cons {x : Point} {s : List Point} (h : TurnChain (x :: s)) : TurnChain s := by
  cases s with
  | nil => trivial
  | cons b s =>
    cases s with
    | nil => trivial
    | cons a s => exact h.2

theorem scanWhile_turn (c : Point) (st : List Point) (h : TurnChain st) :
    TurnChain (c :: scanWhile c st) := by
  induction st with
  | nil => trivial
  | cons b s ih =>
    cases s with
    | nil => trivial
    | cons a s =>
      rw [scanWhile]
      by_cases hccw : counterClockwise a b c = true
      · simp only [hccw, Bool.not_true, Bool.false_eq_true, if_false]
        exact ⟨hccw, h⟩
      · rw [Bool.not_eq_true] at hccw
        simp only [hccw, Bool.not_false, if_true]
        exact ih h.of_cons

theorem scanFor_turn (cs : List Point) :
    ∀ st : List Point, TurnChain st → TurnChain (scanFor cs st) := by
  induction cs with
  | nil =>
    intro st h
    exact h
  | cons c cs ih =>
    intro st h
    rw [scanFor]
    exact ih _ (scanWhile_turn c st h)

theorem TurnChain.turn_at {st : List Point} (h : TurnChain st) :
    ∀ (k : Nat) (a b c : Point), st[k]? = some c → st[k + 1]? = some b →
      st[k + 2]? = some a → counterClockwise a b c = true := by
  induction st with
  | nil =>
    intro k a b c hc _ _
    simp at hc
  | cons x s ih =>
    intro k a b c hc hb ha
    cases k with
    | zero =>
      cases s with
      | nil => simp at hb
      | cons y s =>
        cases s with
        | nil => simp at ha
        | cons z s =>
          simp only [List.getElem?_cons_zero, List.getElem?_cons_succ, Option.some.injEq] at hc hb ha
          subst hc
          subst hb
          subst ha
          exact h.1
    | succ k =>
      simp only [List.getElem?_cons_succ] at hc hb ha
      exact ih h.of_cons k a b c hc hb ha

theorem grahamScan_turn (L : List Point) (k : Nat) (a b c : Point)
    (ha : (grahamScan L)[k]? = some a) (hb : (grahamScan L)[k + 1]? = some b)
    (hc : (grahamScan L)[k + 2]? = some c) : counterClockwise a b c = true := by
  have h0 : TurnChain (L.take 2).reverse := by
    cases L with
    | nil => trivial
    | cons x L =>
      cases L with
      | nil => trivial
      | cons y L => trivial
  have hchain := scanFor_turn (L.drop 2) _ h0
  unfold grahamScan at ha hb hc
  generalize scanFor (L.drop 2) (L.take 2).reverse = st at ha hb hc hchain
  obtain ⟨_, ha'⟩ := getElem?_reverse_some ha
  obtain ⟨_, hb'⟩ := getElem?_reverse_some hb
  obtain ⟨hlen, hc'⟩ := getElem?_reverse_some hc
  have e1 : st.length - 1 - (k + 1) = st.length - 1 - (k + 2) + 1 := by omega
  have e2 : st.length - 1 - k = st.length - 1 - (k + 2) + 2 := by omega
  rw [e1] at hb'
  rw [e2] at ha'
  exact hchain.turn_at _ a b c hc' hb' ha'

theorem scanWhile_getLast? (c : Point) (st : List Point) :
    (scanWhile c st).getLast? = st.getLast? := by
  induction st with
  | nil => rfl
  | cons b s ih =>
    cases s with
    | nil => rfl
    | cons a s =>
      rw [scanWhile]
      split
      · rw [ih, List.getLast?_cons_cons]
      · rfl

theorem scanFor_getLast? (cs : List Point) :
    ∀ st : List Point, st ≠ [] → (scanFor cs st).getLast? = st.getLast? := by
  induction cs with
  | nil =>
    intro st _
    rfl
  | cons c cs ih =>
    intro st hst
    rw [scanFor, ih _ (List.cons_ne_nil _ _)]
    obtain ⟨x, s, hs⟩ := List.exists_cons_of_ne_nil (scanWhile_ne_nil c st hst)
    rw [hs, List.getLast?_cons_cons, ← hs, scanWhile_getLast?]

theorem scanFor_head? (cs : List Point) :
    ∀ st : List Point, cs ≠ [] → (scanFor cs st).head? = cs.getLast? := by
  induction cs with
  | nil =>
    intro st h
    exact absurd rfl h
  | cons c cs ih =>
    intro st _
    rw [scanFor]
    cases cs with
    | nil => rfl
    | cons d cs =>
      rw [ih _ (List.cons_ne_nil _ _), List.getLast?_cons_cons]

theorem scanFor_length (cs : List Point) :
    ∀ st : List Point, st ≠ [] → min 2 (st.length + cs.length) ≤ (scanFor cs st).length := by
  induction cs with
  | nil =>
    intro st _
    simp [scanFor]
  | cons c cs ih =>
    intro st hst
    rw [scanFor]
    have h := ih (c :: scanWhile c st) (List.cons_ne_nil _ _)
    have hpos : 0 < (scanWhile c st).length := List.length_pos.2 (scanWhile_ne_nil c st hst)
    simp only [List.length_cons] at h ⊢
    omega

/-- The result of the scan starts with the first element of the sorted sequence, ends with
its last element, and has at least two elements when the sorted sequence has. -/
theorem grahamScan_ends (L : List Point) :
    (grahamScan L).head? = L.head? ∧ (grahamScan L).getLast? = L.getLast? ∧
      (2 ≤ L.length → 2 ≤ (grahamScan L).length) := by
  by_cases hle : L.length ≤ 2
  · rw [grahamScan_of_length_le L hle]
    exact ⟨rfl, rfl, fun h => h⟩
  · obtain ⟨x, y, z, t, rfl⟩ : ∃ x y z t, L = x :: y :: z :: t := by
      cases L with
      | nil => simp at hle
      | cons x L =>
        cases L with
        | nil => simp at hle
        | cons y L =>
          cases L with
          | nil => simp at hle
          | cons z t => exact ⟨x, y, z, t, rfl⟩
    unfold grahamScan
    have hst : ([y, x] : List Point) ≠ [] := List.cons_ne_nil _ _
    refine ⟨?_, ?_, ?_⟩
    · rw [List.head?_reverse]
      show (scanFor (z :: t) [y, x]).getLast? = _
      rw [scanFor_getLast? _ _ hst]
      rfl
    · rw [List.getLast?_reverse]
      show (scanFor (z :: t) [y, x]).head? = _
      rw [scanFor_head? _ _ (List.cons_ne_nil _ _), List.getLast?_cons_cons,
        List.getLast?_cons_cons]
    · intro _
      rw [List.length_reverse]
      have := scanFor_length (z :: t) [y, x] hst
      simp only [List.length_cons, List.length_nil] at this
      show 2 ≤ (scanFor (z :: t) [y, x]).length
      omega


/-! ## Independence of the insertion order -/

theorem yle_antisymm (a b : Point) (h1 : yle a b) (h2 : yle b a) : a = b := by
  simp only [yle] at h1 h2
  apply Point.ext_get <;> omega

theorem std_stable_sort_yComparator_sorted (l : List Point) :
    (std_stable_sort yComparator l).Pairwise yle := by
  have h := std_stable_sort_sorted yComparator l
    (fun x _ y _ h => yComparator_asymm x y h)
    (fun x _ y _ z _ h1 h2 => yComparator_negtrans x y z h1 h2)
  refine List.Pairwise.imp ?_ h
  intro a b hab
  rw [yComparator_eq_false_iff] at hab
  simp only [yle]
  omega

theorem std_stable_sort_yComparator_congr {l1 l2 : List Point} (hp : l1.Perm l2) :
    std_stable_sort yComparator l1 = std_stable_sort yComparator l2 := by
  haveI : IsAntisymm Point yle := ⟨yle_antisymm⟩
  have hperm : (std_stable_sort yComparator l1).Perm (std_stable_sort yComparator l2) :=
    ((std_stable_sort_perm yComparator l1).trans hp).trans
      (std_stable_sort_perm yComparator l2).symm
  exact List.eq_of_perm_of_sorted hperm (std_stable_sort_yComparator_sorted l1)
    (std_stable_sort_yComparator_sorted l2)

/-- The polar sort of a sequence is that of every permutation of it: the first sort, by
`yComparator`, has one result for all of them, and the second sort starts from it. -/
theorem polarSort_congr {l1 l2 : List Point} (hp : l1.Perm l2) :
    polarSort l1 = polarSort l2 := by
  unfold polarSort
  rw [std_stable_sort_yComparator_congr hp]

/-! ## The algorithm with exact comparisons -/

/-- Exact comparisons: when angles and distances are compared as exact reals, as the embedding
does and the source does not, then for a well-formed duplicate-free input container in which
no cross product of three of its points overflows, `getConvexHull` returns a result whose
every cyclically consecutive pair of points `a`, `b` has every input point `p` on its left
or on it: `cross a b p ≥ 0`. -/
theorem hull_encloses (P : PointSet) (hwf : P.WF) (hnd : P.toList.Nodup)
    (hfit : ∀ a ∈ P.toList, ∀ b ∈ P.toList, ∀ c ∈ P.toList, crossFits a b c) :
    ∃ P' R, getConvexHull P = some (P', R) ∧
      ∀ (i : Nat) (a b : Point), R.toList[i]? = some a →
        R.toList[(i + 1) % R.toList.length]? = some b → ∀ p ∈ P.toList, 0 ≤ cross a b p := by
  obtain ⟨rest, hrest, hP⟩ := hwf.exists_mkSet
  generalize P.toList = l at hP hnd hfit
  subst hP
  obtain ⟨r', _, hhull⟩ := getConvexHull_mkSet l rest hnd
  refine ⟨_, _, hhull, ?_⟩
  rw [PointSet.toList_mkSet]
  intro i a b ha hb p hp
  by_cases hne : l = []
  · subst hne
    cases hp
  · obtain ⟨p0, t, hsort, habove, hsorted⟩ := polarSort_spec l hne hnd hfit
    have hmem : ∀ x, x ∈ p0 :: t ↔ x ∈ l := fun x => by
      rw [← hsort]; exact (polarSort_perm l).mem_iff
    obtain ⟨S, hS, _, hcc, hcov⟩ := grahamScan_spec p0 t (fun x => x ∈ l)
      (fun x y z hx hy hz => counterClockwise_eq_of_fits (hfit x hx y hy z hz))
      (fun x hx => (hmem x).1 hx) habove hsorted
    have hrev : grahamScan (polarSort l) = (S ++ [p0]).reverse := by
      rw [hsort, hS]; simp
    rw [hrev] at ha hb
    exact hcov p ((hmem p).2 hp) a b
      (fun s hs => edge_nonneg_of_CCWStack hcc i a b ha hb s hs)

/-- Instance of `hull_encloses` on the container holding `(0,0)`, `(1,1)`, `(2,2)`, `(0,2)`,
`(2,0)`. -/
theorem hull_encloses_witness :
    (PointSet.mk 5 8 [some ⟨0, 0⟩, some ⟨1, 1⟩, some ⟨2, 2⟩, some ⟨0, 2⟩, some ⟨2, 0⟩,
      none, none, none]).WF ∧
    (PointSet.mk 5 8 [some ⟨0, 0⟩, some ⟨1, 1⟩, some ⟨2, 2⟩, some ⟨0, 2⟩, some ⟨2, 0⟩,
      none, none, none]).toList.Nodup ∧
    (∀ a ∈ (PointSet.mk 5 8 [some ⟨0, 0⟩, some ⟨1, 1⟩, some ⟨2, 2⟩, some ⟨0, 2⟩, some ⟨2, 0⟩,
      none, none, none]).toList,
      ∀ b ∈ (PointSet.mk 5 8 [some ⟨0, 0⟩, some ⟨1, 1⟩, some ⟨2, 2⟩, some ⟨0, 2⟩, some ⟨2, 0⟩,
        none, none, none]).toList,
      ∀ c ∈ (PointSet.mk 5 8 [some ⟨0, 0⟩, some ⟨1, 1⟩, some ⟨2, 2⟩, some ⟨0, 2⟩, some ⟨2, 0⟩,
        none, none, none]).toList, crossFits a b c) ∧
    ∃ P' R, getConvexHull (PointSet.mk 5 8 [some ⟨0, 0⟩, some ⟨1, 1⟩, some ⟨2, 2⟩,
        some ⟨0, 2⟩, some ⟨2, 0⟩, none, none, none]) = some (P', R) ∧
      ∀ (i : Nat) (a b : Point), R.toList[i]? = some a →
        R.toList[(i + 1) % R.toList.length]? = some b →
        ∀ p ∈ (PointSet.mk 5 8 [some ⟨0, 0⟩, some ⟨1, 1⟩, some ⟨2, 2⟩, some ⟨0, 2⟩,
          some ⟨2, 0⟩, none, none, none]).toList, 0 ≤ cross a b p :=
  ⟨by decide, by decide, by decide, hull_encloses _ (by decide) (by decide) (by decide)⟩

/-- Exact comparisons: when angles and distances are compared as exact reals, as the embedding
does and the source does not, then on a well-formed non-empty duplicate-free container in
which the coordinate differences of any two points fit a 32-bit `int`, after `sortByPolar`
the element sequence is
the pivot followed by a permutation of the other points, in which for positions `i < j` the
points `a`, `b` satisfy `cross pivot a b ≥ 0` (ascending polar angle), and, when the polar
angle is the same (`cross pivot a b = 0`), `a` is at most as far from the pivot as `b`. -/
theorem sortByPolar_polar_order (S : PointSet) (hwf : S.WF) (hnd : S.toList.Nodup)
    (hne : S.size ≠ 0) (hfit : ∀ a ∈ S.toList, ∀ b ∈ S.toList, deltaFits a b) :
    ∃ p0 t, S.sortByPolar.toList = p0 :: t ∧ t.Perm (S.toList.erase p0) ∧
      (∀ q ∈ t, above p0 q) ∧
      ∀ (i j : Nat) (a b : Point), i < j → t[i]? = some a → t[j]? = some b →
        0 ≤ cross p0 a b ∧ (cross p0 a b = 0 → dist2 p0 a ≤ dist2 p0 b) := by
  obtain ⟨rest, hrest, hS⟩ := hwf.exists_mkSet
  generalize S.toList = l at hS hnd hfit
  subst hS
  have hl : l ≠ [] := by
    rintro rfl
    exact hne rfl
  obtain ⟨p0, t, hsort, hp0, habove, hsorted⟩ := polarSort_spec_of_deltaFits l hl hnd hfit
  refine ⟨p0, t, ?_, ?_, habove, ?_⟩
  · rw [PointSet.sortByPolar_mkSet, PointSet.toList_mkSet, hsort]
  · have hperm := polarSort_perm l
    rw [hsort] at hperm
    exact (List.cons_perm_iff_perm_erase.1 hperm).2
  · intro i j a b hij ha hb
    have h := getElem?_adjacent_of_pairwise hsorted i j a b hij ha hb
    refine ⟨h.cross_nonneg, ?_⟩
    intro h0
    rcases h with h | h
    · rw [h0] at h
      exact absurd h (lt_irrefl _)
    · exact h.2

/-- Instance of `sortByPolar_polar_order` on the container holding `(0,2)`, `(2,0)`, `(0,0)`,
`(1,1)`, `(2,2)`. -/
theorem sortByPolar_polar_order_witness :
    (PointSet.mk 5 8 [some ⟨0, 2⟩, some ⟨2, 0⟩, some ⟨0, 0⟩, some ⟨1, 1⟩, some ⟨2, 2⟩,
      none, none, none]).WF ∧
    (PointSet.mk 5 8 [some ⟨0, 2⟩, some ⟨2, 0⟩, some ⟨0, 0⟩, some ⟨1, 1⟩, some ⟨2, 2⟩,
      none, none, none]).toList.Nodup ∧
    (PointSet.mk 5 8 [some ⟨0, 2⟩, some ⟨2, 0⟩, some ⟨0, 0⟩, some ⟨1, 1⟩, some ⟨2, 2⟩,
      none, none, none]).size ≠ 0 ∧
    (∀ a ∈ (PointSet.mk 5 8 [some ⟨0, 2⟩, some ⟨2, 0⟩, some ⟨0, 0⟩, some ⟨1, 1⟩, some ⟨2, 2⟩,
      none, none, none]).toList,
      ∀ b ∈ (PointSet.mk 5 8 [some ⟨0, 2⟩, some ⟨2, 0⟩, some ⟨0, 0⟩, some ⟨1, 1⟩,
        some ⟨2, 2⟩, none, none, none]).toList, deltaFits a b) ∧
    ∃ p0 t, (PointSet.mk 5 8 [some ⟨0, 2⟩, some ⟨2, 0⟩, some ⟨0, 0⟩, some ⟨1, 1⟩,
        some ⟨2, 2⟩, none, none, none]).sortByPolar.toList = p0 :: t ∧
      t.Perm ((PointSet.mk 5 8 [some ⟨0, 2⟩, some ⟨2, 0⟩, some ⟨0, 0⟩, some ⟨1, 1⟩,
        some ⟨2, 2⟩, none, none, none]).toList.erase p0) ∧
      (∀ q ∈ t, above p0 q) ∧
      ∀ (i j : Nat) (a b : Point), i < j → t[i]? = some a → t[j]? = some b →
        0 ≤ cross p0 a b ∧ (cross p0 a b = 0 → dist2 p0 a ≤ dist2 p0 b) :=
  ⟨by decide, by decide, by decide, by decide,
    sortByPolar_polar_order _ (by decide) (by decide) (by decide) (by decide)⟩

/-! ## Claims on the hull -/

/-- C1, evaluation at the failing input `(0,0)`, `(-1,1000000000)`, `(-1,1000000001)`: the
container built from these points by `add` is well formed and duplicate-free, and no `int`
operation of `counterClockwise` overflows on three of its points.  The `sortByPolar` of the
source leaves it in this order: around the pivot `(0,0)` the two polar angles are the same
`double`, so `polarComparator` decides by the distance and the nearer point comes first.  On
the container in this order the two loops of `getConvexHull` remove `(-1,1000000000)` and
return `(0,0)`, `(-1,1000000001)`.  The input point `(-1,1000000000)` is strictly on the right
of the result pair `(-1,1000000001)`, `(0,0)`: the cross product is `-1`. -/
theorem hull_misses_input_point :
    addAll [⟨0, 0⟩, ⟨-1, 1000000000⟩, ⟨-1, 1000000001⟩] PointSet.new =
      some (PointSet.mk 3 4 [some ⟨0, 0⟩, some ⟨-1, 1000000000⟩, some ⟨-1, 1000000001⟩, none]) ∧
    (PointSet.mk 3 4 [some ⟨0, 0⟩, some ⟨-1, 1000000000⟩, some ⟨-1, 1000000001⟩, none]).WF ∧
    (PointSet.mk 3 4 [some ⟨0, 0⟩, some ⟨-1, 1000000000⟩, some ⟨-1, 1000000001⟩, none]).toList.Nodup ∧
    (∀ a ∈ (PointSet.mk 3 4 [some ⟨0, 0⟩, some ⟨-1, 1000000000⟩, some ⟨-1, 1000000001⟩, none]).toList,
      ∀ b ∈ (PointSet.mk 3 4 [some ⟨0, 0⟩, some ⟨-1, 1000000000⟩, some ⟨-1, 1000000001⟩, none]).toList,
      ∀ c ∈ (PointSet.mk 3 4 [some ⟨0, 0⟩, some ⟨-1, 1000000000⟩, some ⟨-1, 1000000001⟩, none]).toList,
        crossFits a b c) ∧
    counterClockwise ⟨0, 0⟩ ⟨-1, 1000000000⟩ ⟨-1, 1000000001⟩ = false ∧
    getConvexHullInit (PointSet.mk 3 4 [some ⟨0, 0⟩, some ⟨-1, 1000000000⟩, some ⟨-1, 1000000001⟩, none])
        INITIAL_RESULT_SIZE 0 PointSet.new =
      some (PointSet.mk 2 4 [some ⟨0, 0⟩, some ⟨-1, 1000000000⟩, none, none], 2) ∧
    getConvexHullFor (PointSet.mk 3 4 [some ⟨0, 0⟩, some ⟨-1, 1000000000⟩, some ⟨-1, 1000000001⟩, none])
        ((PointSet.mk 3 4 [some ⟨0, 0⟩, some ⟨-1, 1000000000⟩, some ⟨-1, 1000000001⟩, none]).size -
          INITIAL_RESULT_SIZE)
        INITIAL_RESULT_SIZE 2
        (PointSet.mk 2 4 [some ⟨0, 0⟩, some ⟨-1, 1000000000⟩, none, none]) =
      some (PointSet.mk 2 4 [some ⟨0, 0⟩, some ⟨-1, 1000000001⟩, none, none]) ∧
    (PointSet.mk 2 4 [some ⟨0, 0⟩, some ⟨-1, 1000000001⟩, none, none]).toList =
      [⟨0, 0⟩, ⟨-1, 1000000001⟩] ∧
    cross ⟨-1, 1000000001⟩ ⟨0, 0⟩ ⟨-1, 1000000000⟩ = -1 := by
  decide

/-- C2, evaluation at the failing input `(0,0)`, `(0,10000)`, `(0,50000)`, `(60000,20000)`:
the difference `-1800000000 - 600000000` of `counterClockwise` wraps to a positive `int`, and
the result of `getConvexHull` keeps `(0,10000)`, which is collinear with the result points
`(0,0)` and `(0,50000)`. -/
theorem hull_keeps_collinear_point :
    counterClockwise ⟨60000, 20000⟩ ⟨0, 10000⟩ ⟨0, 50000⟩ = true ∧
    cross ⟨60000, 20000⟩ ⟨0, 10000⟩ ⟨0, 50000⟩ = -2400000000 ∧
    ((addAll [⟨0, 0⟩, ⟨0, 10000⟩, ⟨0, 50000⟩, ⟨60000, 20000⟩] PointSet.new).bind
        getConvexHull).map (fun r => r.2.toList) =
      some [⟨0, 0⟩, ⟨60000, 20000⟩, ⟨0, 10000⟩, ⟨0, 50000⟩] ∧
    cross ⟨0, 0⟩ ⟨0, 10000⟩ ⟨0, 50000⟩ = 0 := by
  decide

/-- C3: for a well-formed duplicate-free input container `getConvexHull` returns a result
whose every point equals a point of the input. -/
theorem hull_subset_input (P : PointSet) (hwf : P.WF) (hnd : P.toList.Nodup) :
    ∃ P' R, getConvexHull P = some (P', R) ∧
      ∀ h ∈ R.toList, ∃ p ∈ P.toList, p.operator_eq h = true := by
  obtain ⟨rest, hrest, hP⟩ := hwf.exists_mkSet
  generalize P.toList = l at hP hnd
  subst hP
  obtain ⟨r', _, hhull⟩ := getConvexHull_mkSet l rest hnd
  refine ⟨_, _, hhull, ?_⟩
  rw [PointSet.toList_mkSet]
  intro h hh
  rw [PointSet.mem_iff_exists_operator_eq]
  exact (polarSort_perm l).mem_iff.1 (mem_grahamScan _ h hh)

/-- Witness of C3 on the container holding `(0,0)`, `(1,1)`, `(2,2)`, `(0,2)`, `(2,0)`. -/
theorem hull_subset_input_witness :
    (PointSet.mk 5 8 [some ⟨0, 0⟩, some ⟨1, 1⟩, some ⟨2, 2⟩, some ⟨0, 2⟩, some ⟨2, 0⟩,
      none, none, none]).WF ∧
    (PointSet.mk 5 8 [some ⟨0, 0⟩, some ⟨1, 1⟩, some ⟨2, 2⟩, some ⟨0, 2⟩, some ⟨2, 0⟩,
      none, none, none]).toList.Nodup ∧
    ∃ P' R, getConvexHull (PointSet.mk 5 8 [some ⟨0, 0⟩, some ⟨1, 1⟩, some ⟨2, 2⟩,
        some ⟨0, 2⟩, some ⟨2, 0⟩, none, none, none]) = some (P', R) ∧
      ∀ h ∈ R.toList, ∃ p ∈ (PointSet.mk 5 8 [some ⟨0, 0⟩, some ⟨1, 1⟩, some ⟨2, 2⟩,
        some ⟨0, 2⟩, some ⟨2, 0⟩, none, none, none]).toList, p.operator_eq h = true :=
  ⟨by decide, by decide, hull_subset_input _ (by decide) (by decide)⟩

/-- C4: for a well-formed duplicate-free input container of at most two points
`getConvexHull` returns a result that holds exactly the points of the input: its element
sequence is a permutation of the input's and has the same size; it is empty for the empty
input. -/
theorem hull_of_at_most_two (P : PointSet) (hwf : P.WF) (hnd : P.toList.Nodup)
    (hsize : P.size ≤ 2) :
    ∃ P' R, getConvexHull P = some (P', R) ∧ R.toList.Perm P.toList ∧ R.size = P.size ∧
      (P.size = 0 → R.toList = []) := by
  obtain ⟨rest, hrest, hP⟩ := hwf.exists_mkSet
  generalize P.toList = l at hP hnd
  subst hP
  obtain ⟨r', _, hhull⟩ := getConvexHull_mkSet l rest hnd
  have hlen : (polarSort l).length = l.length := (polarSort_perm l).length_eq
  have hl : l.length ≤ 2 := by simpa [PointSet.size, PointSet.mkSet] using hsize
  have hg : grahamScan (polarSort l) = polarSort l :=
    grahamScan_of_length_le _ (by omega)
  refine ⟨_, _, hhull, ?_, ?_, ?_⟩
  · rw [PointSet.toList_mkSet, hg]
    exact polarSort_perm l
  · simp only [PointSet.size, PointSet.mkSet, hg, hlen]
  · intro h0
    have : l = [] := by
      apply List.eq_nil_of_length_eq_zero
      simpa [PointSet.size, PointSet.mkSet] using h0
    subst this
    rw [PointSet.toList_mkSet]
    rfl

/-- Witness of C4 on the container holding `(1,1)`, `(0,0)`. -/
theorem hull_of_at_most_two_witness :
    (PointSet.mk 2 4 [some ⟨1, 1⟩, some ⟨0, 0⟩, none, none]).WF ∧
    (PointSet.mk 2 4 [some ⟨1, 1⟩, some ⟨0, 0⟩, none, none]).toList.Nodup ∧
    (PointSet.mk 2 4 [some ⟨1, 1⟩, some ⟨0, 0⟩, none, none]).size ≤ 2 ∧
    ∃ P' R, getConvexHull (PointSet.mk 2 4 [some ⟨1, 1⟩, some ⟨0, 0⟩, none, none]) =
        some (P', R) ∧
      R.toList.Perm (PointSet.mk 2 4 [some ⟨1, 1⟩, some ⟨0, 0⟩, none, none]).toList ∧
      R.size = (PointSet.mk 2 4 [some ⟨1, 1⟩, some ⟨0, 0⟩, none, none]).size ∧
      ((PointSet.mk 2 4 [some ⟨1, 1⟩, some ⟨0, 0⟩, none, none]).size = 0 → R.toList = []) :=
  ⟨by decide, by decide, by decide, hull_of_at_most_two _ (by decide) (by decide) (by decide)⟩

/-- C5: for the input built by adding `(0,0)`, `(1,1)`, `(2,2)`, `(0,2)`, `(2,0)`,
`getConvexHull` followed by the coordinate sort of `processResult` gives exactly
`(0,0)`, `(0,2)`, `(2,0)`, `(2,2)`; the point `(1,1)` is not in the result. -/
theorem hull_example :
    ((addAll [⟨0, 0⟩, ⟨1, 1⟩, ⟨2, 2⟩, ⟨0, 2⟩, ⟨2, 0⟩] PointSet.new).bind getConvexHull).map
        (fun r => (processResult r.2).toList) =
      some [⟨0, 0⟩, ⟨0, 2⟩, ⟨2, 0⟩, ⟨2, 2⟩] ∧
    ((addAll [⟨0, 0⟩, ⟨1, 1⟩, ⟨2, 2⟩, ⟨0, 2⟩, ⟨2, 0⟩] PointSet.new).bind getConvexHull).map
        (fun r => r.2.toList) =
      some [⟨0, 0⟩, ⟨2, 0⟩, ⟨2, 2⟩, ⟨0, 2⟩] ∧
    (⟨1, 1⟩ : Point) ∉ [(⟨0, 0⟩ : Point), ⟨0, 2⟩, ⟨2, 0⟩, ⟨2, 2⟩] := by
  decide

/-! ## Claims on `add` and `remove` -/

/-- C6: on a well-formed container `add(p)` returns false and changes nothing when a point
equal to `p` is held; otherwise it returns true, the new element sequence is the old one with
`p` appended, and the size grows by exactly one. -/
theorem add_contract (S : PointSet) (p : Point) (h : S.WF) :
    ((∃ q ∈ S.toList, q.operator_eq p = true) → S.add p = some (false, S)) ∧
    ((¬ ∃ q ∈ S.toList, q.operator_eq p = true) →
      ∃ S', S.add p = some (true, S') ∧ S'.toList = S.toList ++ [p] ∧
        S'.size = S.size + 1 ∧ S'.WF) := by
  obtain ⟨rest, hrest, hS⟩ := h.exists_mkSet
  rw [PointSet.mem_iff_exists_operator_eq]
  generalize S.toList = l at hS
  subst hS
  constructor
  · intro hp
    exact PointSet.add_mkSet_of_mem rest hp
  · intro hp
    obtain ⟨r1, hr1, h1, _⟩ := PointSet.add_mkSet_of_not_mem hrest hp
    refine ⟨_, h1, ?_, ?_, (PointSet.WF_mkSet _ _).2 hr1⟩
    · simp [PointSet.toList_mkSet]
    · simp [PointSet.size, PointSet.mkSet]

/-- Witness of C6 on the container holding `(1,1)` in a backing array of two cells, for the
point `(2,3)`. -/
theorem add_contract_witness :
    (PointSet.mk 1 2 [some ⟨1, 1⟩, none]).WF ∧
    (((∃ q ∈ (PointSet.mk 1 2 [some ⟨1, 1⟩, none]).toList, q.operator_eq ⟨2, 3⟩ = true) →
        (PointSet.mk 1 2 [some ⟨1, 1⟩, none]).add ⟨2, 3⟩ =
          some (false, PointSet.mk 1 2 [some ⟨1, 1⟩, none])) ∧
      ((¬ ∃ q ∈ (PointSet.mk 1 2 [some ⟨1, 1⟩, none]).toList, q.operator_eq ⟨2, 3⟩ = true) →
        ∃ S', (PointSet.mk 1 2 [some ⟨1, 1⟩, none]).add ⟨2, 3⟩ = some (true, S') ∧
          S'.toList = (PointSet.mk 1 2 [some ⟨1, 1⟩, none]).toList ++ [⟨2, 3⟩] ∧
          S'.size = (PointSet.mk 1 2 [some ⟨1, 1⟩, none]).size + 1 ∧ S'.WF)) :=
  ⟨by decide, add_contract _ _ (by decide)⟩

/-- C7: adding a sequence of points to the empty container succeeds; the final size is the
number of distinct points of the sequence and the final element sequence is that of the first
occurrences. -/
theorem addAll_distinct :
    (∀ ps : List Point, ∃ S, addAll ps PointSet.new = some S ∧ S.size = ps.toFinset.card ∧
      S.toList = firstOccurrences ps ∧ S.WF) ∧
    (addAll [⟨7, 12⟩, ⟨1, 1⟩, ⟨2, 0⟩, ⟨-4, -4⟩, ⟨1, 1⟩, ⟨0, 0⟩, ⟨7, 12⟩] PointSet.new).map
        (fun S => (S.size, S.toList)) =
      some (5, [⟨7, 12⟩, ⟨1, 1⟩, ⟨2, 0⟩, ⟨-4, -4⟩, ⟨0, 0⟩]) := by
  refine ⟨?_, by decide⟩
  intro ps
  obtain ⟨rest, hrest, h⟩ := addAll_mkSet ps [] [none] (by simp)
  refine ⟨_, h, ?_, ?_, (PointSet.WF_mkSet _ _).2 hrest⟩
  · simp only [PointSet.size, PointSet.mkSet]
    rw [addList_nil_left, firstOccurrences_length]
  · rw [PointSet.toList_mkSet, addList_nil_left]

/-- C8: in a container built from the empty one by the public operations, two different
positions never hold equal points. -/
theorem reachable_distinct (S : PointSet) (h : Reachable S) :
    S.toList.Nodup ∧
    ∀ (i j : Int) (p q : Point), i ≠ j → S.operator_index i = some p →
      S.operator_index j = some q → p.operator_eq q = false := by
  obtain ⟨l, rest, hrest, hnd, rfl⟩ := h.eq_mkSet
  refine ⟨by rwa [PointSet.toList_mkSet], ?_⟩
  intro i j p q hij hi hj
  have key : ∀ (k : Int) (r : Point), (PointSet.mkSet l rest).operator_index k = some r →
      ∃ n : Nat, k = n ∧ n < l.length ∧ l[n]? = some r := by
    intro k r hk
    by_cases hr : 0 ≤ k ∧ k < l.length
    · obtain ⟨n, rfl⟩ := Int.eq_ofNat_of_zero_le hr.1
      have hn : n < l.length := by omega
      rw [PointSet.operator_index_mkSet l rest n hn] at hk
      exact ⟨n, rfl, hn, hk⟩
    · rw [PointSet.operator_index_mkSet_of_not l rest k hr] at hk
      cases hk
  obtain ⟨n, rfl, hn, hn'⟩ := key i p hi
  obtain ⟨m, rfl, hm, hm'⟩ := key j q hj
  rw [← Bool.not_eq_true, Point.operator_eq_iff]
  intro hpq
  subst hpq
  rw [List.getElem?_eq_getElem hn] at hn'
  rw [List.getElem?_eq_getElem hm] at hm'
  have := (List.Nodup.getElem_inj_iff hnd).1 ((Option.some.inj hn').trans (Option.some.inj hm').symm)
  exact hij (by exact_mod_cast this)

/-- Witness of C8 on the container obtained from the empty one by adding `(1,1)` and then
`(2,3)`. -/
theorem reachable_distinct_witness :
    Reachable (PointSet.mk 2 4 [some ⟨1, 1⟩, some ⟨2, 3⟩, none, none]) ∧
    ((PointSet.mk 2 4 [some ⟨1, 1⟩, some ⟨2, 3⟩, none, none]).toList.Nodup ∧
      ∀ (i j : Int) (p q : Point), i ≠ j →
        (PointSet.mk 2 4 [some ⟨1, 1⟩, some ⟨2, 3⟩, none, none]).operator_index i = some p →
        (PointSet.mk 2 4 [some ⟨1, 1⟩, some ⟨2, 3⟩, none, none]).operator_index j = some q →
        p.operator_eq q = false) :=
  have hr : Reachable (PointSet.mk 2 4 [some ⟨1, 1⟩, some ⟨2, 3⟩, none, none]) :=
    @Reachable.add (PointSet.mk 1 2 [some ⟨1, 1⟩, none]) _ ⟨2, 3⟩ true
      (@Reachable.add PointSet.new _ ⟨1, 1⟩ true Reachable.new (by decide)) (by decide)
  ⟨hr, reachable_distinct _ hr⟩

/-- C9: on a well-formed container `remove(p)` returns true and deletes the first element
equal to `p`, keeping all others in order and decreasing the size by one, when such an element
is held; otherwise it returns false and changes nothing. -/
theorem remove_contract (S : PointSet) (p : Point) (h : S.WF) :
    ((∃ q ∈ S.toList, q.operator_eq p = true) →
      ∃ S' l1 l2, S.remove p = some (true, S') ∧ S.toList = l1 ++ p :: l2 ∧
        (∀ q ∈ l1, q.operator_eq p = false) ∧ S'.toList = l1 ++ l2 ∧
        S'.size + 1 = S.size ∧ S'.WF) ∧
    ((¬ ∃ q ∈ S.toList, q.operator_eq p = true) → S.remove p = some (false, S)) := by
  obtain ⟨rest, hrest, hS⟩ := h.exists_mkSet
  rw [PointSet.mem_iff_exists_operator_eq]
  generalize S.toList = l at hS
  subst hS
  constructor
  · intro hp
    obtain ⟨l1, l2, hl1, hl, hrem⟩ := PointSet.remove_mkSet_of_mem rest hp
    refine ⟨_, l1, l2, hrem, ?_, ?_, ?_, ?_, (PointSet.WF_mkSet _ _).2 (by simp)⟩
    · exact hl
    · intro q hq
      rw [← Bool.not_eq_true, Point.operator_eq_iff]
      rintro rfl
      exact hl1 hq
    · rw [PointSet.toList_mkSet]
    · subst hl
      simp [PointSet.size, PointSet.mkSet]
      omega
  · intro hp
    exact PointSet.remove_mkSet_of_not_mem rest hp

/-- Witness of C9 on the container holding `(1,1)`, `(2,3)`, for the point `(1,1)`. -/
theorem remove_contract_witness :
    (PointSet.mk 2 4 [some ⟨1, 1⟩, some ⟨2, 3⟩, none, none]).WF ∧
    (((∃ q ∈ (PointSet.mk 2 4 [some ⟨1, 1⟩, some ⟨2, 3⟩, none, none]).toList,
          q.operator_eq ⟨1, 1⟩ = true) →
        ∃ S' l1 l2, (PointSet.mk 2 4 [some ⟨1, 1⟩, some ⟨2, 3⟩, none, none]).remove ⟨1, 1⟩ =
            some (true, S') ∧
          (PointSet.mk 2 4 [some ⟨1, 1⟩, some ⟨2, 3⟩, none, none]).toList = l1 ++ ⟨1, 1⟩ :: l2 ∧
          (∀ q ∈ l1, q.operator_eq ⟨1, 1⟩ = false) ∧ S'.toList = l1 ++ l2 ∧
          S'.size + 1 = (PointSet.mk 2 4 [some ⟨1, 1⟩, some ⟨2, 3⟩, none, none]).size ∧ S'.WF) ∧
      ((¬ ∃ q ∈ (PointSet.mk 2 4 [some ⟨1, 1⟩, some ⟨2, 3⟩, none, none]).toList,
          q.operator_eq ⟨1, 1⟩ = true) →
        (PointSet.mk 2 4 [some ⟨1, 1⟩, some ⟨2, 3⟩, none, none]).remove ⟨1, 1⟩ =
          some (false, PointSet.mk 2 4 [some ⟨1, 1⟩, some ⟨2, 3⟩, none, none]))) :=
  ⟨by decide, remove_contract _ _ (by decide)⟩

/-- C10: in a container built from the empty one, after `remove(p)` has returned true the
lookup of `p` fails: `_findPoint` gives `INVALID_INDEX`, a second `remove(p)` returns false and
`add(p)` returns true. -/
theorem remove_then_lookup_fails (S S' : PointSet) (p : Point) (hS : Reachable S)
    (hr : S.remove p = some (true, S')) :
    S'._findPoint p = INVALID_INDEX ∧ S'.remove p = some (false, S') ∧
      ∃ S'', S'.add p = some (true, S'') := by
  obtain ⟨l, rest, hrest, hnd, rfl⟩ := hS.eq_mkSet
  by_cases hp : p ∈ l
  · obtain ⟨l1, l2, hl1, hl, h1⟩ := PointSet.remove_mkSet_of_mem rest hp
    rw [h1] at hr
    cases hr
    subst hl
    have hp' : p ∉ l1 ++ l2 := by
      rw [List.mem_append, not_or]
      refine ⟨hl1, ?_⟩
      have h2 := (List.nodup_append.1 hnd).2.1
      exact (List.nodup_cons.1 h2).1
    refine ⟨PointSet._findPoint_mkSet_of_not_mem _ hp', PointSet.remove_mkSet_of_not_mem _ hp', ?_⟩
    obtain ⟨r1, _, h3, _⟩ := @PointSet.add_mkSet_of_not_mem (l1 ++ l2) p (none :: rest)
      (by simp) hp'
    exact ⟨_, h3⟩
  · rw [PointSet.remove_mkSet_of_not_mem rest hp] at hr
    cases hr

/-- Witness of C10 on the container obtained from the empty one by adding `(1,1)` and then
`(2,3)`, for the point `(1,1)`. -/
theorem remove_then_lookup_fails_witness :
    Reachable (PointSet.mk 2 4 [some ⟨1, 1⟩, some ⟨2, 3⟩, none, none]) ∧
    (PointSet.mk 2 4 [some ⟨1, 1⟩, some ⟨2, 3⟩, none, none]).remove ⟨1, 1⟩ =
      some (true, PointSet.mk 1 4 [some ⟨2, 3⟩, none, none, none]) ∧
    ((PointSet.mk 1 4 [some ⟨2, 3⟩, none, none, none])._findPoint ⟨1, 1⟩ = INVALID_INDEX ∧
      (PointSet.mk 1 4 [some ⟨2, 3⟩, none, none, none]).remove ⟨1, 1⟩ =
        some (false, PointSet.mk 1 4 [some ⟨2, 3⟩, none, none, none]) ∧
      ∃ S'', (PointSet.mk 1 4 [some ⟨2, 3⟩, none, none, none]).add ⟨1, 1⟩ = some (true, S'')) :=
  have hr : Reachable (PointSet.mk 2 4 [some ⟨1, 1⟩, some ⟨2, 3⟩, none, none]) :=
    @Reachable.add (PointSet.mk 1 2 [some ⟨1, 1⟩, none]) _ ⟨2, 3⟩ true
      (@Reachable.add PointSet.new _ ⟨1, 1⟩ true Reachable.new (by decide)) (by decide)
  ⟨hr, by decide, remove_then_lookup_fails _ _ _ hr (by decide)⟩

/-! ## Claims on indexing and sorting -/

/-- C11: on a well-formed container `operator[](index)` returns the element at position
`index` of the element sequence when `0 ≤ index < size()`, and fails for every other index. -/
theorem operator_index_contract (S : PointSet) (index : Int) (hwf : S.WF) :
    ((0 ≤ index ∧ index < (S.size : Int)) →
      ∃ p, S.operator_index index = some p ∧ S.toList[index.toNat]? = some p) ∧
    (¬ (0 ≤ index ∧ index < (S.size : Int)) → S.operator_index index = none) := by
  obtain ⟨rest, hrest, hS⟩ := hwf.exists_mkSet
  generalize S.toList = l at hS
  subst hS
  have hsz : (PointSet.mkSet l rest).size = l.length := rfl
  rw [hsz]
  constructor
  · intro h
    obtain ⟨n, rfl⟩ := Int.eq_ofNat_of_zero_le h.1
    have hn : n < l.length := by omega
    refine ⟨l[n], ?_, ?_⟩
    · rw [PointSet.operator_index_mkSet l rest n hn, List.getElem?_eq_getElem hn]
    · rw [Int.toNat_ofNat, List.getElem?_eq_getElem hn]
  · intro h
    exact PointSet.operator_index_mkSet_of_not l rest index h

/-- Witness of C11 on the container holding `(1,1)`, `(2,3)`, at index `1`. -/
theorem operator_index_contract_witness :
    (PointSet.mk 2 4 [some ⟨1, 1⟩, some ⟨2, 3⟩, none, none]).WF ∧
    (((0 ≤ (1 : Int) ∧ (1 : Int) <
          ((PointSet.mk 2 4 [some ⟨1, 1⟩, some ⟨2, 3⟩, none, none]).size : Int)) →
        ∃ p, (PointSet.mk 2 4 [some ⟨1, 1⟩, some ⟨2, 3⟩, none, none]).operator_index 1 = some p ∧
          (PointSet.mk 2 4 [some ⟨1, 1⟩, some ⟨2, 3⟩, none, none]).toList[(1 : Int).toNat]? =
            some p) ∧
      (¬ (0 ≤ (1 : Int) ∧ (1 : Int) <
          ((PointSet.mk 2 4 [some ⟨1, 1⟩, some ⟨2, 3⟩, none, none]).size : Int)) →
        (PointSet.mk 2 4 [some ⟨1, 1⟩, some ⟨2, 3⟩, none, none]).operator_index 1 = none)) :=
  ⟨by decide, operator_index_contract _ 1 (by decide)⟩

/-- C12: on a well-formed container `sortSet` leaves a permutation of the element sequence in
ascending order of `x`, ties by ascending `y` (every two elements in order, in particular
every adjacent pair); this sequence is the only permutation in that order; on an empty
container it changes nothing. -/
theorem sortSet_contract (S : PointSet) (hwf : S.WF) :
    S.sortSet.WF ∧ S.sortSet.toList.Perm S.toList ∧ S.sortSet.toList.Pairwise xle ∧
    (∀ (i : Nat) (a b : Point), S.sortSet.toList[i]? = some a →
      S.sortSet.toList[i + 1]? = some b →
      a.getX < b.getX ∨ (a.getX = b.getX ∧ a.getY ≤ b.getY)) ∧
    (∀ l : List Point, l.Perm S.toList → l.Pairwise xle → l = S.sortSet.toList) ∧
    (S.size = 0 → S.sortSet = S) := by
  obtain ⟨rest, hrest, hS⟩ := hwf.exists_mkSet
  generalize S.toList = l at hS
  subst hS
  rw [PointSet.sortSet_mkSet, PointSet.toList_mkSet]
  have hsorted := std_sort_xComparator_sorted l
  have hperm : (std_sort xComparator l).Perm l := std_stable_sort_perm xComparator l
  refine ⟨(PointSet.WF_mkSet _ _).2 hrest, hperm, hsorted, ?_, ?_, ?_⟩
  · intro i a b ha hb
    exact getElem?_adjacent_of_pairwise hsorted i (i + 1) a b (by omega) ha hb
  · intro l' hp hs
    exact eq_of_perm_of_xle (hp.trans hperm.symm) hs hsorted
  · intro h0
    have : l = [] := List.eq_nil_of_length_eq_zero h0
    subst this
    rfl

/-- Witness of C12 on the container holding `(2,3)`, `(1,1)`. -/
theorem sortSet_contract_witness :
    (PointSet.mk 2 4 [some ⟨2, 3⟩, some ⟨1, 1⟩, none, none]).WF ∧
    ((PointSet.mk 2 4 [some ⟨2, 3⟩, some ⟨1, 1⟩, none, none]).sortSet.WF ∧
      (PointSet.mk 2 4 [some ⟨2, 3⟩, some ⟨1, 1⟩, none, none]).sortSet.toList.Perm
        (PointSet.mk 2 4 [some ⟨2, 3⟩, some ⟨1, 1⟩, none, none]).toList ∧
      (PointSet.mk 2 4 [some ⟨2, 3⟩, some ⟨1, 1⟩, none, none]).sortSet.toList.Pairwise xle ∧
      (∀ (i : Nat) (a b : Point),
        (PointSet.mk 2 4 [some ⟨2, 3⟩, some ⟨1, 1⟩, none, none]).sortSet.toList[i]? = some a →
        (PointSet.mk 2 4 [some ⟨2, 3⟩, some ⟨1, 1⟩, none, none]).sortSet.toList[i + 1]? =
          some b →
        a.getX < b.getX ∨ (a.getX = b.getX ∧ a.getY ≤ b.getY)) ∧
      (∀ l : List Point,
        l.Perm (PointSet.mk 2 4 [some ⟨2, 3⟩, some ⟨1, 1⟩, none, none]).toList →
        l.Pairwise xle →
        l = (PointSet.mk 2 4 [some ⟨2, 3⟩, some ⟨1, 1⟩, none, none]).sortSet.toList) ∧
      ((PointSet.mk 2 4 [some ⟨2, 3⟩, some ⟨1, 1⟩, none, none]).size = 0 →
        (PointSet.mk 2 4 [some ⟨2, 3⟩, some ⟨1, 1⟩, none, none]).sortSet =
          PointSet.mk 2 4 [some ⟨2, 3⟩, some ⟨1, 1⟩, none, none])) :=
  ⟨by decide, sortSet_contract _ (by decide)⟩

/-- C13: on a well-formed container whose element sequence is already in ascending order of
`x`, ties by ascending `y`, `sortSet` changes nothing; hence `sortSet` applied twice gives what
`sortSet` applied once gives. -/
theorem sortSet_idempotent (S : PointSet) (hwf : S.WF) :
    (S.toList.Pairwise xle → S.sortSet = S) ∧ S.sortSet.sortSet = S.sortSet := by
  obtain ⟨rest, hrest, hS⟩ := hwf.exists_mkSet
  generalize S.toList = l at hS
  subst hS
  have key : ∀ m : List Point, m.Pairwise xle →
      (PointSet.mkSet m rest).sortSet = PointSet.mkSet m rest := by
    intro m hm
    rw [PointSet.sortSet_mkSet]
    congr 1
    apply std_stable_sort_of_sorted
    refine List.Pairwise.imp ?_ hm
    intro a b hab
    exact (xComparator_eq_false_iff b a).2 hab
  refine ⟨key l, ?_⟩
  rw [PointSet.sortSet_mkSet]
  exact key _ (std_sort_xComparator_sorted l)

/-- Witness of C13 on the container holding `(1,1)`, `(2,3)`. -/
theorem sortSet_idempotent_witness :
    (PointSet.mk 2 4 [some ⟨1, 1⟩, some ⟨2, 3⟩, none, none]).WF ∧
    (((PointSet.mk 2 4 [some ⟨1, 1⟩, some ⟨2, 3⟩, none, none]).toList.Pairwise xle →
        (PointSet.mk 2 4 [some ⟨1, 1⟩, some ⟨2, 3⟩, none, none]).sortSet =
          PointSet.mk 2 4 [some ⟨1, 1⟩, some ⟨2, 3⟩, none, none]) ∧
      (PointSet.mk 2 4 [some ⟨1, 1⟩, some ⟨2, 3⟩, none, none]).sortSet.sortSet =
        (PointSet.mk 2 4 [some ⟨1, 1⟩, some ⟨2, 3⟩, none, none]).sortSet) :=
  ⟨by decide, sortSet_idempotent _ (by decide)⟩

/-- C14: on a well-formed non-empty container, after `sortByPolar` the element at position `0`
is a point of the container with minimal `y` and, among those, minimal `x`: no point of the
container has a smaller `y`, or an equal `y` and a smaller `x`. -/
theorem sortByPolar_pivot_first (S : PointSet) (hwf : S.WF) (hne : S.size ≠ 0) :
    ∃ p0, S.sortByPolar.operator_index 0 = some p0 ∧ p0 ∈ S.toList ∧
      ∀ q ∈ S.toList, ¬ (q.getY < p0.getY ∨ (q.getY = p0.getY ∧ q.getX < p0.getX)) := by
  obtain ⟨rest, hrest, hS⟩ := hwf.exists_mkSet
  generalize S.toList = l at hS
  subst hS
  have hl : l ≠ [] := by
    rintro rfl
    exact hne rfl
  obtain ⟨p0, t0, _, hsort, hmem, hmin⟩ := polarSort_head l hl
  refine ⟨p0, ?_, hmem, ?_⟩
  · rw [PointSet.sortByPolar_mkSet, hsort]
    have := PointSet.operator_index_mkSet (p0 :: std_stable_sort (polarComparator p0) t0) rest 0
      (by simp)
    simpa using this
  · intro q hq
    have := hmin q hq
    rw [← Bool.not_eq_true, yComparator_iff] at this
    exact this

/-- Witness of C14 on the container holding `(0,2)`, `(2,0)`, `(0,0)`. -/
theorem sortByPolar_pivot_first_witness :
    (PointSet.mk 3 4 [some ⟨0, 2⟩, some ⟨2, 0⟩, some ⟨0, 0⟩, none]).WF ∧
    (PointSet.mk 3 4 [some ⟨0, 2⟩, some ⟨2, 0⟩, some ⟨0, 0⟩, none]).size ≠ 0 ∧
    ∃ p0, (PointSet.mk 3 4 [some ⟨0, 2⟩, some ⟨2, 0⟩, some ⟨0, 0⟩, none]).sortByPolar.operator_index
        0 = some p0 ∧
      p0 ∈ (PointSet.mk 3 4 [some ⟨0, 2⟩, some ⟨2, 0⟩, some ⟨0, 0⟩, none]).toList ∧
      ∀ q ∈ (PointSet.mk 3 4 [some ⟨0, 2⟩, some ⟨2, 0⟩, some ⟨0, 0⟩, none]).toList,
        ¬ (q.getY < p0.getY ∨ (q.getY = p0.getY ∧ q.getX < p0.getX)) :=
  ⟨by decide, by decide, sortByPolar_pivot_first _ (by decide) (by decide)⟩

/-- C15, evaluation at the failing input `(-2000000000,0)`, `(0,1)`, `(2000000000,1)`: the
container built from these points by `add` is well formed and duplicate-free, and its pivot
is `(-2000000000,0)`.  In `polarAngle` the difference `0 - (-2000000000)` fits, and the
difference `2000000000 - (-2000000000)` wraps to the `int` `-294967296`, so `(2000000000,1)`
gets an angle near 180 degrees.  `sortByPolar` leaves the container in this order, and the
points at positions `1` and `2` make a clockwise turn with the pivot: they are not in
ascending polar angle. -/
theorem sortByPolar_wraps_delta :
    addAll [⟨-2000000000, 0⟩, ⟨0, 1⟩, ⟨2000000000, 1⟩] PointSet.new =
      some (PointSet.mk 3 4 [some ⟨-2000000000, 0⟩, some ⟨0, 1⟩, some ⟨2000000000, 1⟩, none]) ∧
    (PointSet.mk 3 4 [some ⟨-2000000000, 0⟩, some ⟨0, 1⟩, some ⟨2000000000, 1⟩, none]).WF ∧
    (PointSet.mk 3 4 [some ⟨-2000000000, 0⟩, some ⟨0, 1⟩, some ⟨2000000000, 1⟩, none]).toList.Nodup ∧
    (⟨0, 1⟩ : Point).polarAngle ⟨-2000000000, 0⟩ = ⟨1, 2000000000⟩ ∧
    (⟨2000000000, 1⟩ : Point).polarAngle ⟨-2000000000, 0⟩ = ⟨1, -294967296⟩ ∧
    (PointSet.mk 3 4 [some ⟨-2000000000, 0⟩, some ⟨0, 1⟩, some ⟨2000000000, 1⟩, none]).sortByPolar.toList =
      [⟨-2000000000, 0⟩, ⟨0, 1⟩, ⟨2000000000, 1⟩] ∧
    cross ⟨-2000000000, 0⟩ ⟨0, 1⟩ ⟨2000000000, 1⟩ = -2000000000 ∧
    ¬ (0 ≤ cross ⟨-2000000000, 0⟩ ⟨0, 1⟩ ⟨2000000000, 1⟩) := by
  decide

/-! ## Claims on the set operators -/

/-- C16: for well-formed duplicate-free containers `A == B` is true exactly when `A` and `B`
hold the same points, whatever their order; hence `A == B` and `B == A` agree. -/
theorem operator_eq_iff_same_points (A B : PointSet) (hA : A.WF) (hB : B.WF)
    (hAn : A.toList.Nodup) (hBn : B.toList.Nodup) :
    (A.operator_eq B = true ↔ ∀ p, p ∈ A.toList ↔ p ∈ B.toList) ∧
    A.operator_eq B = B.operator_eq A := by
  obtain ⟨rest, hrest, hS⟩ := hA.exists_mkSet
  obtain ⟨rest2, hrest2, hS2⟩ := hB.exists_mkSet
  generalize A.toList = l at hS hAn
  generalize B.toList = m at hS2 hBn
  subst hS
  subst hS2
  have key : ∀ (l m : List Point) (r1 r2 : List PointP), l.Nodup → m.Nodup →
      ((PointSet.mkSet l r1).operator_eq (PointSet.mkSet m r2) = true ↔
        ∀ p, p ∈ l ↔ p ∈ m) := by
    intro l m r1 r2 hl hm
    rw [PointSet.operator_eq_mkSet]
    constructor
    · rintro ⟨hlen, hsub⟩ p
      exact mem_iff_of_subset_of_length hl hlen hsub p
    · intro h
      exact ⟨length_eq_of_mem_iff hl hm h, fun q hq => (h q).1 hq⟩
  refine ⟨key l m rest rest2 hAn hBn, ?_⟩
  rw [Bool.eq_iff_iff, key l m rest rest2 hAn hBn, key m l rest2 rest hBn hAn]
  constructor
  · intro h p
    exact (h p).symm
  · intro h p
    exact (h p).symm

/-- Witness of C16 on the containers built from `(7,12)`, `(1,1)`, `(2,0)`, `(-4,-4)`, `(0,0)`
and from `(1,1)`, `(0,0)`, `(7,12)`, `(-4,-4)`, `(2,0)`, which are equal in both directions. -/
theorem operator_eq_iff_same_points_witness :
    (PointSet.mk 5 8 [some ⟨7, 12⟩, some ⟨1, 1⟩, some ⟨2, 0⟩, some ⟨-4, -4⟩, some ⟨0, 0⟩,
      none, none, none]).WF ∧
    (PointSet.mk 5 8 [some ⟨1, 1⟩, some ⟨0, 0⟩, some ⟨7, 12⟩, some ⟨-4, -4⟩, some ⟨2, 0⟩,
      none, none, none]).WF ∧
    (PointSet.mk 5 8 [some ⟨7, 12⟩, some ⟨1, 1⟩, some ⟨2, 0⟩, some ⟨-4, -4⟩, some ⟨0, 0⟩,
      none, none, none]).toList.Nodup ∧
    (PointSet.mk 5 8 [some ⟨1, 1⟩, some ⟨0, 0⟩, some ⟨7, 12⟩, some ⟨-4, -4⟩, some ⟨2, 0⟩,
      none, none, none]).toList.Nodup ∧
    (((PointSet.mk 5 8 [some ⟨7, 12⟩, some ⟨1, 1⟩, some ⟨2, 0⟩, some ⟨-4, -4⟩, some ⟨0, 0⟩,
        none, none, none]).operator_eq
        (PointSet.mk 5 8 [some ⟨1, 1⟩, some ⟨0, 0⟩, some ⟨7, 12⟩, some ⟨-4, -4⟩,
          some ⟨2, 0⟩, none, none, none]) = true ↔
      ∀ p, p ∈ (PointSet.mk 5 8 [some ⟨7, 12⟩, some ⟨1, 1⟩, some ⟨2, 0⟩, some ⟨-4, -4⟩,
          some ⟨0, 0⟩, none, none, none]).toList ↔
        p ∈ (PointSet.mk 5 8 [some ⟨1, 1⟩, some ⟨0, 0⟩, some ⟨7, 12⟩, some ⟨-4, -4⟩,
          some ⟨2, 0⟩, none, none, none]).toList) ∧
      (PointSet.mk 5 8 [some ⟨7, 12⟩, some ⟨1, 1⟩, some ⟨2, 0⟩, some ⟨-4, -4⟩, some ⟨0, 0⟩,
        none, none, none]).operator_eq
        (PointSet.mk 5 8 [some ⟨1, 1⟩, some ⟨0, 0⟩, some ⟨7, 12⟩, some ⟨-4, -4⟩,
          some ⟨2, 0⟩, none, none, none]) =
      (PointSet.mk 5 8 [some ⟨1, 1⟩, some ⟨0, 0⟩, some ⟨7, 12⟩, some ⟨-4, -4⟩, some ⟨2, 0⟩,
        none, none, none]).operator_eq
        (PointSet.mk 5 8 [some ⟨7, 12⟩, some ⟨1, 1⟩, some ⟨2, 0⟩, some ⟨-4, -4⟩,
          some ⟨0, 0⟩, none, none, none])) ∧
    (PointSet.mk 5 8 [some ⟨7, 12⟩, some ⟨1, 1⟩, some ⟨2, 0⟩, some ⟨-4, -4⟩, some ⟨0, 0⟩,
      none, none, none]).operator_eq
      (PointSet.mk 5 8 [some ⟨1, 1⟩, some ⟨0, 0⟩, some ⟨7, 12⟩, some ⟨-4, -4⟩, some ⟨2, 0⟩,
        none, none, none]) = true :=
  ⟨by decide, by decide, by decide, by decide,
    operator_eq_iff_same_points _ _ (by decide) (by decide) (by decide) (by decide),
    by decide⟩

/-- C17: for well-formed containers `A`, `B`, with `A` duplicate-free, `A - B` returns a
container whose element sequence is the subsequence of the elements of `A` that are not held
by `B`, in the order of `A`.  The operands are values of the embedding and stay what they
are. -/
theorem operator_sub_contract (A B : PointSet) (hA : A.WF) (hB : B.WF)
    (hAn : A.toList.Nodup) :
    ∃ R, A.operator_sub B = some R ∧ R.WF ∧
      R.toList = A.toList.filter fun p => decide (p ∉ B.toList) := by
  obtain ⟨rest, hrest, hS⟩ := hA.exists_mkSet
  obtain ⟨rest2, hrest2, hS2⟩ := hB.exists_mkSet
  generalize A.toList = l at hS hAn
  generalize B.toList = m at hS2
  subst hS
  subst hS2
  obtain ⟨r', hr', h⟩ := PointSet.operator_sub_mkSet l m rest rest2
  refine ⟨_, h, (PointSet.WF_mkSet _ _).2 hr', ?_⟩
  rw [PointSet.toList_mkSet]
  exact addList_nil_of_nodup _ (hAn.sublist (List.filter_sublist l))

/-- Witness of C17 on the containers holding `(1,1)`, `(2,3)`, `(0,0)` and `(2,3)`. -/
theorem operator_sub_contract_witness :
    (PointSet.mk 3 4 [some ⟨1, 1⟩, some ⟨2, 3⟩, some ⟨0, 0⟩, none]).WF ∧
    (PointSet.mk 1 2 [some ⟨2, 3⟩, none]).WF ∧
    (PointSet.mk 3 4 [some ⟨1, 1⟩, some ⟨2, 3⟩, some ⟨0, 0⟩, none]).toList.Nodup ∧
    ∃ R, (PointSet.mk 3 4 [some ⟨1, 1⟩, some ⟨2, 3⟩, some ⟨0, 0⟩, none]).operator_sub
        (PointSet.mk 1 2 [some ⟨2, 3⟩, none]) = some R ∧ R.WF ∧
      R.toList = (PointSet.mk 3 4 [some ⟨1, 1⟩, some ⟨2, 3⟩, some ⟨0, 0⟩, none]).toList.filter
        fun p => decide (p ∉ (PointSet.mk 1 2 [some ⟨2, 3⟩, none]).toList) :=
  ⟨by decide, by decide, by decide, operator_sub_contract _ _ (by decide) (by decide) (by decide)⟩

/-- C18: for well-formed containers `A`, `B`, with `A` duplicate-free, `A & B` returns a
container whose element sequence is the subsequence of the elements of `A` that are held by
`B`, in the order of `A`; in particular `A & A` has the element sequence of `A`. -/
theorem operator_and_contract (A B : PointSet) (hA : A.WF) (hB : B.WF)
    (hAn : A.toList.Nodup) :
    (∃ R, A.operator_and B = some R ∧ R.WF ∧
      R.toList = A.toList.filter fun p => decide (p ∈ B.toList)) ∧
    (∃ R, A.operator_and A = some R ∧ R.toList = A.toList) := by
  obtain ⟨rest, hrest, hS⟩ := hA.exists_mkSet
  obtain ⟨rest2, hrest2, hS2⟩ := hB.exists_mkSet
  generalize A.toList = l at hS hAn
  generalize B.toList = m at hS2
  subst hS
  subst hS2
  constructor
  · obtain ⟨r', hr', h⟩ := PointSet.operator_and_mkSet l m rest rest2
    refine ⟨_, h, (PointSet.WF_mkSet _ _).2 hr', ?_⟩
    rw [PointSet.toList_mkSet]
    exact addList_nil_of_nodup _ (hAn.sublist (List.filter_sublist l))
  · obtain ⟨r', hr', h⟩ := PointSet.operator_and_mkSet l l rest rest
    refine ⟨_, h, ?_⟩
    rw [PointSet.toList_mkSet]
    have hf : (l.filter fun q => decide (q ∈ l)) = l := by
      rw [List.filter_eq_self]
      intro q hq
      simpa using hq
    rw [hf]
    exact addList_nil_of_nodup l hAn

/-- Witness of C18 on the containers holding `(1,1)`, `(2,3)`, `(0,0)` and `(2,3)`. -/
theorem operator_and_contract_witness :
    (PointSet.mk 3 4 [some ⟨1, 1⟩, some ⟨2, 3⟩, some ⟨0, 0⟩, none]).WF ∧
    (PointSet.mk 1 2 [some ⟨2, 3⟩, none]).WF ∧
    (PointSet.mk 3 4 [some ⟨1, 1⟩, some ⟨2, 3⟩, some ⟨0, 0⟩, none]).toList.Nodup ∧
    ((∃ R, (PointSet.mk 3 4 [some ⟨1, 1⟩, some ⟨2, 3⟩, some ⟨0, 0⟩, none]).operator_and
        (PointSet.mk 1 2 [some ⟨2, 3⟩, none]) = some R ∧ R.WF ∧
      R.toList = (PointSet.mk 3 4 [some ⟨1, 1⟩, some ⟨2, 3⟩, some ⟨0, 0⟩, none]).toList.filter
        fun p => decide (p ∈ (PointSet.mk 1 2 [some ⟨2, 3⟩, none]).toList)) ∧
    (∃ R, (PointSet.mk 3 4 [some ⟨1, 1⟩, some ⟨2, 3⟩, some ⟨0, 0⟩, none]).operator_and
        (PointSet.mk 3 4 [some ⟨1, 1⟩, some ⟨2, 3⟩, some ⟨0, 0⟩, none]) = some R ∧
      R.toList = (PointSet.mk 3 4 [some ⟨1, 1⟩, some ⟨2, 3⟩, some ⟨0, 0⟩, none]).toList)) :=
  ⟨by decide, by decide, by decide, operator_and_contract _ _ (by decide) (by decide) (by decide)⟩

/-- C19: for well-formed containers `A`, `B` the difference `A - B` and its intersection with
`B` are returned, and the intersection is the empty container. -/
theorem sub_and_empty (A B : PointSet) (hA : A.WF) (hB : B.WF) :
    ∃ D R, A.operator_sub B = some D ∧ D.operator_and B = some R ∧ R.size = 0 ∧
      R.toList = [] := by
  obtain ⟨rest, hrest, hS⟩ := hA.exists_mkSet
  obtain ⟨rest2, hrest2, hS2⟩ := hB.exists_mkSet
  generalize A.toList = l at hS
  generalize B.toList = m at hS2
  subst hS
  subst hS2
  obtain ⟨r1, hr1, h1⟩ := PointSet.operator_sub_mkSet l m rest rest2
  obtain ⟨r2, hr2, h2⟩ := PointSet.operator_and_mkSet
    (addList [] (l.filter fun q => decide (q ∉ m))) m r1 rest2
  have hf : ((addList [] (l.filter fun q => decide (q ∉ m))).filter fun q => decide (q ∈ m)) =
      [] := by
    rw [List.filter_eq_nil_iff]
    intro q hq
    rw [mem_addList] at hq
    rcases hq with hq | hq
    · cases hq
    · have := (List.mem_filter.1 hq).2
      simpa using this
  rw [hf] at h2
  exact ⟨_, _, h1, h2, rfl, PointSet.toList_mkSet _ _⟩

/-- Witness of C19 on the containers holding `(1,1)`, `(2,3)`, `(0,0)` and `(2,3)`. -/
theorem sub_and_empty_witness :
    (PointSet.mk 3 4 [some ⟨1, 1⟩, some ⟨2, 3⟩, some ⟨0, 0⟩, none]).WF ∧
    (PointSet.mk 1 2 [some ⟨2, 3⟩, none]).WF ∧
    ∃ D R, (PointSet.mk 3 4 [some ⟨1, 1⟩, some ⟨2, 3⟩, some ⟨0, 0⟩, none]).operator_sub
        (PointSet.mk 1 2 [some ⟨2, 3⟩, none]) = some D ∧
      D.operator_and (PointSet.mk 1 2 [some ⟨2, 3⟩, none]) = some R ∧ R.size = 0 ∧
      R.toList = [] :=
  ⟨by decide, by decide, sub_and_empty _ _ (by decide) (by decide)⟩

/-- C20: for well-formed duplicate-free containers `A`, `B` both intersections are returned
and `(A & B) == (B & A)` is true. -/
theorem operator_and_comm (A B : PointSet) (hA : A.WF) (hB : B.WF) (hAn : A.toList.Nodup)
    (hBn : B.toList.Nodup) :
    ∃ R1 R2, A.operator_and B = some R1 ∧ B.operator_and A = some R2 ∧
      R1.operator_eq R2 = true := by
  obtain ⟨rest, hrest, hS⟩ := hA.exists_mkSet
  obtain ⟨rest2, hrest2, hS2⟩ := hB.exists_mkSet
  generalize A.toList = l at hS hAn
  generalize B.toList = m at hS2 hBn
  subst hS
  subst hS2
  obtain ⟨r1, hr1, h1⟩ := PointSet.operator_and_mkSet l m rest rest2
  obtain ⟨r2, hr2, h2⟩ := PointSet.operator_and_mkSet m l rest2 rest
  refine ⟨_, _, h1, h2, ?_⟩
  have hn1 : (l.filter fun q => decide (q ∈ m)).Nodup := hAn.sublist (List.filter_sublist l)
  have hn2 : (m.filter fun q => decide (q ∈ l)).Nodup := hBn.sublist (List.filter_sublist m)
  rw [addList_nil_of_nodup _ hn1, addList_nil_of_nodup _ hn2, PointSet.operator_eq_mkSet]
  have hmem : ∀ q, q ∈ (l.filter fun q => decide (q ∈ m)) ↔
      q ∈ (m.filter fun q => decide (q ∈ l)) := by
    intro q
    simp only [List.mem_filter, decide_eq_true_eq]
    tauto
  exact ⟨length_eq_of_mem_iff hn1 hn2 hmem, fun q hq => (hmem q).1 hq⟩

/-- Witness of C20 on the containers holding `(1,1)`, `(2,3)`, `(0,0)` and `(0,0)`,
`(5,5)`, `(1,1)`. -/
theorem operator_and_comm_witness :
    (PointSet.mk 3 4 [some ⟨1, 1⟩, some ⟨2, 3⟩, some ⟨0, 0⟩, none]).WF ∧
    (PointSet.mk 3 4 [some ⟨0, 0⟩, some ⟨5, 5⟩, some ⟨1, 1⟩, none]).WF ∧
    (PointSet.mk 3 4 [some ⟨1, 1⟩, some ⟨2, 3⟩, some ⟨0, 0⟩, none]).toList.Nodup ∧
    (PointSet.mk 3 4 [some ⟨0, 0⟩, some ⟨5, 5⟩, some ⟨1, 1⟩, none]).toList.Nodup ∧
    ∃ R1 R2, (PointSet.mk 3 4 [some ⟨1, 1⟩, some ⟨2, 3⟩, some ⟨0, 0⟩, none]).operator_and
        (PointSet.mk 3 4 [some ⟨0, 0⟩, some ⟨5, 5⟩, some ⟨1, 1⟩, none]) = some R1 ∧
      (PointSet.mk 3 4 [some ⟨0, 0⟩, some ⟨5, 5⟩, some ⟨1, 1⟩, none]).operator_and
        (PointSet.mk 3 4 [some ⟨1, 1⟩, some ⟨2, 3⟩, some ⟨0, 0⟩, none]) = some R2 ∧
      R1.operator_eq R2 = true :=
  ⟨by decide, by decide, by decide, by decide,
    operator_and_comm _ _ (by decide) (by decide) (by decide) (by decide)⟩

/-! ## Claims on difference with itself and on assignment -/

/-- C21: for a well-formed container `A` the difference `A - A` is returned and is the empty
container: its size is `0` and its element sequence is empty. -/
theorem operator_sub_self (A : PointSet) (hA : A.WF) :
    ∃ R, A.operator_sub A = some R ∧ R.size = 0 ∧ R.toList = [] := by
  obtain ⟨rest, hrest, hS⟩ := hA.exists_mkSet
  generalize A.toList = l at hS
  subst hS
  obtain ⟨r1, hr1, h1⟩ := PointSet.operator_sub_mkSet l l rest rest
  have hf : (l.filter fun q => decide (q ∉ l)) = [] := by
    rw [List.filter_eq_nil_iff]
    intro q hq
    simpa using hq
  rw [hf] at h1
  exact ⟨_, h1, rfl, PointSet.toList_mkSet _ _⟩

/-- Witness of C21 on the container holding `(1,1)`, `(2,3)`, `(0,0)`. -/
theorem operator_sub_self_witness :
    (PointSet.mk 3 4 [some ⟨1, 1⟩, some ⟨2, 3⟩, some ⟨0, 0⟩, none]).WF ∧
    ∃ R, (PointSet.mk 3 4 [some ⟨1, 1⟩, some ⟨2, 3⟩, some ⟨0, 0⟩, none]).operator_sub
        (PointSet.mk 3 4 [some ⟨1, 1⟩, some ⟨2, 3⟩, some ⟨0, 0⟩, none]) = some R ∧
      R.size = 0 ∧ R.toList = [] :=
  ⟨by decide, operator_sub_self _ (by decide)⟩

/-- C22, counterexample: the containers built by `add` of `(0,0)`, `(1,1)` and of `(1,1)`,
`(0,0)` are well formed and duplicate-free and hold the same points, so `operator=` finds them
equal and copies nothing: after `A = B` the container `A` is what it was, and its element
sequence is not that of `B`. -/
theorem operator_assign_order_counterexample :
    addAll [⟨0, 0⟩, ⟨1, 1⟩] PointSet.new =
      some (PointSet.mk 2 4 [some ⟨0, 0⟩, some ⟨1, 1⟩, none, none]) ∧
    addAll [⟨1, 1⟩, ⟨0, 0⟩] PointSet.new =
      some (PointSet.mk 2 4 [some ⟨1, 1⟩, some ⟨0, 0⟩, none, none]) ∧
    (PointSet.mk 2 4 [some ⟨0, 0⟩, some ⟨1, 1⟩, none, none]).WF ∧
    (PointSet.mk 2 4 [some ⟨1, 1⟩, some ⟨0, 0⟩, none, none]).WF ∧
    (PointSet.mk 2 4 [some ⟨0, 0⟩, some ⟨1, 1⟩, none, none]).toList.Nodup ∧
    (PointSet.mk 2 4 [some ⟨1, 1⟩, some ⟨0, 0⟩, none, none]).toList.Nodup ∧
    (PointSet.mk 2 4 [some ⟨0, 0⟩, some ⟨1, 1⟩, none, none]).operator_assign
        (PointSet.mk 2 4 [some ⟨1, 1⟩, some ⟨0, 0⟩, none, none]) =
      some (PointSet.mk 2 4 [some ⟨0, 0⟩, some ⟨1, 1⟩, none, none]) ∧
    (PointSet.mk 2 4 [some ⟨0, 0⟩, some ⟨1, 1⟩, none, none]).toList ≠
      (PointSet.mk 2 4 [some ⟨1, 1⟩, some ⟨0, 0⟩, none, none]).toList := by
  decide

/-- C22, amended: for well-formed containers `A` and `B`, with `B` duplicate-free, the
assignment `A = B` returns.  When `A == B` was false, `A` becomes a copy of `B`: same size, same
element sequence, same text of `toString`, same capacity.  When `A == B` was true, `A` is left
as it was.  In both cases `A == B` is true afterwards.  `B` is a value of the embedding and
stays what it is. -/
theorem operator_assign_contract (A B : PointSet) (hA : A.WF) (hB : B.WF)
    (hBn : B.toList.Nodup) :
    ∃ A', A.operator_assign B = some A' ∧ A'.WF ∧ A'.operator_eq B = true ∧
      (A.operator_eq B = false →
        A'.size = B.size ∧ A'.toList = B.toList ∧ A'.toString = B.toString ∧
          A'._capacity = B._capacity) ∧
      (A.operator_eq B = true → A' = A) := by
  obtain ⟨rest, hrest, hS⟩ := hA.exists_mkSet
  obtain ⟨rest2, hrest2, hS2⟩ := hB.exists_mkSet
  generalize A.toList = l at hS
  generalize B.toList = m at hS2 hBn
  subst hS
  subst hS2
  have hself : ∀ r : List PointP,
      (PointSet.mkSet m r).operator_eq (PointSet.mkSet m rest2) = true := by
    intro r
    rw [PointSet.operator_eq_mkSet]
    exact ⟨rfl, fun q hq => hq⟩
  cases heq : (PointSet.mkSet l rest).operator_eq (PointSet.mkSet m rest2) with
  | true =>
    refine ⟨PointSet.mkSet l rest, ?_, (PointSet.WF_mkSet _ _).2 hrest, heq, ?_, ?_⟩
    · simp [PointSet.operator_assign, PointSet.operator_ne, heq]
    · intro h
      cases h
    · intro _
      rfl
  | false =>
    have hcopy := PointSet.copy_mkSet_of_nodup m rest2 hrest2 hBn
    have hne : List.replicate rest2.length (none : PointP) ≠ [] := by
      cases rest2 with
      | nil => exact absurd rfl hrest2
      | cons a r => simp [List.replicate_succ]
    refine ⟨PointSet.mkSet m (List.replicate rest2.length none), ?_,
      (PointSet.WF_mkSet _ _).2 hne, hself _, ?_, ?_⟩
    · simp [PointSet.operator_assign, PointSet.operator_ne, heq, hcopy, PointSet._swapData]
    · intro _
      refine ⟨rfl, ?_, ?_, ?_⟩
      · rw [PointSet.toList_mkSet]
      · rw [PointSet.toString_mkSet, PointSet.toString_mkSet]
      · simp [PointSet.mkSet]
    · intro h
      cases h

/-- Witness of C22 on the containers holding `(0,0)`, `(1,1)` and `(2,3)`. -/
theorem operator_assign_contract_witness :
    (PointSet.mk 2 4 [some ⟨0, 0⟩, some ⟨1, 1⟩, none, none]).WF ∧
    (PointSet.mk 1 2 [some ⟨2, 3⟩, none]).WF ∧
    (PointSet.mk 1 2 [some ⟨2, 3⟩, none]).toList.Nodup ∧
    ∃ A', (PointSet.mk 2 4 [some ⟨0, 0⟩, some ⟨1, 1⟩, none, none]).operator_assign
        (PointSet.mk 1 2 [some ⟨2, 3⟩, none]) = some A' ∧ A'.WF ∧
      A'.operator_eq (PointSet.mk 1 2 [some ⟨2, 3⟩, none]) = true ∧
      ((PointSet.mk 2 4 [some ⟨0, 0⟩, some ⟨1, 1⟩, none, none]).operator_eq
          (PointSet.mk 1 2 [some ⟨2, 3⟩, none]) = false →
        A'.size = (PointSet.mk 1 2 [some ⟨2, 3⟩, none]).size ∧
        A'.toList = (PointSet.mk 1 2 [some ⟨2, 3⟩, none]).toList ∧
        A'.toString = (PointSet.mk 1 2 [some ⟨2, 3⟩, none]).toString ∧
        A'._capacity = (PointSet.mk 1 2 [some ⟨2, 3⟩, none])._capacity) ∧
      ((PointSet.mk 2 4 [some ⟨0, 0⟩, some ⟨1, 1⟩, none, none]).operator_eq
          (PointSet.mk 1 2 [some ⟨2, 3⟩, none]) = true →
        A' = PointSet.mk 2 4 [some ⟨0, 0⟩, some ⟨1, 1⟩, none, none]) :=
  ⟨by decide, by decide, by decide, operator_assign_contract _ _ (by decide) (by decide)
    (by decide)⟩

/-- C23: for a well-formed container `A` the assignment `A = A` returns `A` as it was: size,
capacity, backing array and element sequence are what they were. -/
theorem operator_assign_self (A : PointSet) (hA : A.WF) :
    ∃ A', A.operator_assign A = some A' ∧ A' = A ∧ A'.size = A.size ∧
      A'._capacity = A._capacity ∧ A'.toList = A.toList := by
  obtain ⟨rest, hrest, hS⟩ := hA.exists_mkSet
  have heq : A.operator_eq A = true := by
    rw [hS, PointSet.operator_eq_mkSet]
    exact ⟨rfl, fun q hq => hq⟩
  refine ⟨A, ?_, rfl, rfl, rfl, rfl⟩
  simp [PointSet.operator_assign, PointSet.operator_ne, heq]

/-- Witness of C23 on the container holding `(1,1)`, `(2,3)`, `(0,0)`. -/
theorem operator_assign_self_witness :
    (PointSet.mk 3 4 [some ⟨1, 1⟩, some ⟨2, 3⟩, some ⟨0, 0⟩, none]).WF ∧
    ∃ A', (PointSet.mk 3 4 [some ⟨1, 1⟩, some ⟨2, 3⟩, some ⟨0, 0⟩, none]).operator_assign
        (PointSet.mk 3 4 [some ⟨1, 1⟩, some ⟨2, 3⟩, some ⟨0, 0⟩, none]) = some A' ∧
      A' = PointSet.mk 3 4 [some ⟨1, 1⟩, some ⟨2, 3⟩, some ⟨0, 0⟩, none] ∧
      A'.size = (PointSet.mk 3 4 [some ⟨1, 1⟩, some ⟨2, 3⟩, some ⟨0, 0⟩, none]).size ∧
      A'._capacity =
        (PointSet.mk 3 4 [some ⟨1, 1⟩, some ⟨2, 3⟩, some ⟨0, 0⟩, none])._capacity ∧
      A'.toList = (PointSet.mk 3 4 [some ⟨1, 1⟩, some ⟨2, 3⟩, some ⟨0, 0⟩, none]).toList :=
  ⟨by decide, operator_assign_self _ (by decide)⟩

/-! ## Claims on `counterClockwise` -/

/-- C24: for points whose coordinates have absolute value at most `16383` every intermediate
value of `counterClockwise` fits a 32-bit `int`, and `counterClockwise` is true exactly when the
exact cross product is strictly positive. -/
theorem counterClockwise_small (A B C : Point) (hA : A.small) (hB : B.small) (hC : C.small) :
    crossFits A B C ∧
    (counterClockwise A B C = true ↔
      0 < (B.getX - A.getX) * (C.getY - A.getY) - (B.getY - A.getY) * (C.getX - A.getX)) := by
  have hfit := crossFits_of_small hA hB hC
  refine ⟨hfit, ?_⟩
  rw [counterClockwise_eq_of_fits hfit, decide_eq_true_eq]
  rfl

/-- Witness of C24 on the points `(16383,-16383)`, `(-16383,16383)`, `(16383,16383)`. -/
theorem counterClockwise_small_witness :
    (⟨16383, -16383⟩ : Point).small ∧ (⟨-16383, 16383⟩ : Point).small ∧
    (⟨16383, 16383⟩ : Point).small ∧
    (crossFits ⟨16383, -16383⟩ ⟨-16383, 16383⟩ ⟨16383, 16383⟩ ∧
    (counterClockwise ⟨16383, -16383⟩ ⟨-16383, 16383⟩ ⟨16383, 16383⟩ = true ↔
      0 < ((⟨-16383, 16383⟩ : Point).getX - (⟨16383, -16383⟩ : Point).getX) *
            ((⟨16383, 16383⟩ : Point).getY - (⟨16383, -16383⟩ : Point).getY) -
          ((⟨-16383, 16383⟩ : Point).getY - (⟨16383, -16383⟩ : Point).getY) *
            ((⟨16383, 16383⟩ : Point).getX - (⟨16383, -16383⟩ : Point).getX))) :=
  ⟨by decide, by decide, by decide, counterClockwise_small _ _ _ (by decide) (by decide)
    (by decide)⟩

/-- C25: on the points `(60000,20000)`, `(0,10000)`, `(0,50000)`, whose coordinates are 32-bit
`int` values, the products `-1800000000` and `600000000` fit but their difference does not: the
exact cross product is `-2400000000`, a clockwise turn, and `counterClockwise` answers true. -/
theorem counterClockwise_wraps :
    inInt32 (((⟨0, 10000⟩ : Point).getX - (⟨60000, 20000⟩ : Point).getX) *
      ((⟨0, 50000⟩ : Point).getY - (⟨60000, 20000⟩ : Point).getY)) ∧
    inInt32 (((⟨0, 10000⟩ : Point).getY - (⟨60000, 20000⟩ : Point).getY) *
      ((⟨0, 50000⟩ : Point).getX - (⟨60000, 20000⟩ : Point).getX)) ∧
    cross ⟨60000, 20000⟩ ⟨0, 10000⟩ ⟨0, 50000⟩ = -2400000000 ∧
    ¬ inInt32 (cross ⟨60000, 20000⟩ ⟨0, 10000⟩ ⟨0, 50000⟩) ∧
    counterClockwise ⟨60000, 20000⟩ ⟨0, 10000⟩ ⟨0, 50000⟩ = true := by
  decide

/-! ## Claims on the capacity -/

/-- C26, counterexample: the empty container of the default constructor has size `0` and
capacity `1`, so it is not full; `add` of a point doubles its capacity. -/
theorem add_doubles_capacity_counterexample :
    PointSet.new.WF ∧ (⟨0, 0⟩ : Point) ∉ PointSet.new.toList ∧
    PointSet.new._size ≠ PointSet.new._capacity ∧
    ∃ S', PointSet.new.add ⟨0, 0⟩ = some (true, S') ∧
      S'._capacity = 2 * PointSet.new._capacity := by
  refine ⟨by decide, by decide, by decide, PointSet.mk 1 2 [some ⟨0, 0⟩, none], by decide,
    by decide⟩

/-- C26, amended: on a well-formed container `add` of a point that is not held doubles the
capacity exactly when one free cell is left, that is when the size equals the capacity minus
one before the insertion, and leaves the capacity as it is otherwise; `add` of a point that is
held changes nothing. -/
theorem add_doubles_capacity (S : PointSet) (p : Point) (hwf : S.WF) :
    (p ∈ S.toList → S.add p = some (false, S)) ∧
    (p ∉ S.toList → ∃ S', S.add p = some (true, S') ∧
      (S._size = S._capacity - 1 → S'._capacity = 2 * S._capacity) ∧
      (S._size ≠ S._capacity - 1 → S'._capacity = S._capacity)) := by
  obtain ⟨rest, hrest, hS⟩ := hwf.exists_mkSet
  generalize S.toList = l at hS
  subst hS
  constructor
  · intro h
    exact PointSet.add_mkSet_of_mem rest h
  · intro h
    obtain ⟨r1, _, hadd, hcap⟩ := PointSet.add_mkSet_of_not_mem hrest h
    have hpos : 0 < rest.length := List.length_pos.2 hrest
    refine ⟨_, hadd, ?_, ?_⟩
    · intro hfull
      have hfull' : l.length = l.length + rest.length - 1 := hfull
      have h1 : rest.length = 1 := by omega
      rw [if_pos h1] at hcap
      rw [hcap, RESIZE_FACTOR, Nat.mul_comm]
    · intro hfree
      have h1 : rest.length ≠ 1 := by
        intro h1
        apply hfree
        show l.length = l.length + rest.length - 1
        omega
      rw [if_neg h1] at hcap
      exact hcap

/-- Witness of C26 on the container holding `(1,1)` with capacity `2`, and the point
`(2,3)`. -/
theorem add_doubles_capacity_witness :
    (PointSet.mk 1 2 [some ⟨1, 1⟩, none]).WF ∧
    ((⟨2, 3⟩ ∈ (PointSet.mk 1 2 [some ⟨1, 1⟩, none]).toList →
      (PointSet.mk 1 2 [some ⟨1, 1⟩, none]).add ⟨2, 3⟩ =
        some (false, PointSet.mk 1 2 [some ⟨1, 1⟩, none])) ∧
    (⟨2, 3⟩ ∉ (PointSet.mk 1 2 [some ⟨1, 1⟩, none]).toList →
      ∃ S', (PointSet.mk 1 2 [some ⟨1, 1⟩, none]).add ⟨2, 3⟩ = some (true, S') ∧
        ((PointSet.mk 1 2 [some ⟨1, 1⟩, none])._size =
            (PointSet.mk 1 2 [some ⟨1, 1⟩, none])._capacity - 1 →
          S'._capacity = 2 * (PointSet.mk 1 2 [some ⟨1, 1⟩, none])._capacity) ∧
        ((PointSet.mk 1 2 [some ⟨1, 1⟩, none])._size ≠
            (PointSet.mk 1 2 [some ⟨1, 1⟩, none])._capacity - 1 →
          S'._capacity = (PointSet.mk 1 2 [some ⟨1, 1⟩, none])._capacity))) :=
  ⟨by decide, add_doubles_capacity _ _ (by decide)⟩

/-- C27: every container built from the empty one by the public operations (`add`, `remove`,
copy construction and assignment among them) has a size below its capacity and a capacity
that is a power of two; so the cell of index `size`, which `add` writes, is inside the backing
array, and copy construction returns a container of the same capacity. -/
theorem reachable_capacity (S : PointSet) (h : Reachable S) :
    0 ≤ S.size ∧ S.size < S._capacity ∧ (∃ k, S._capacity = 2 ^ k) ∧
    S._size < S._pointSet.length ∧
    ∃ S', PointSet.copy S = some S' ∧ S'._capacity = S._capacity := by
  obtain ⟨k, hk⟩ := h.capacity_pow2
  obtain ⟨l, rest, hrest, hnd, rfl⟩ := h.eq_mkSet
  have hpos : 0 < rest.length := List.length_pos.2 hrest
  refine ⟨Nat.zero_le _, ?_, ⟨k, hk⟩, ?_, _, PointSet.copy_mkSet_of_nodup l rest hrest hnd, ?_⟩
  · show l.length < l.length + rest.length
    omega
  · show l.length < (l.map some ++ rest).length
    rw [List.length_append, List.length_map]
    omega
  · simp [PointSet.mkSet]

/-- Witness of C27 on the container obtained from the empty one by adding `(1,1)` and then
`(2,3)`. -/
theorem reachable_capacity_witness :
    Reachable (PointSet.mk 2 4 [some ⟨1, 1⟩, some ⟨2, 3⟩, none, none]) ∧
    (0 ≤ (PointSet.mk 2 4 [some ⟨1, 1⟩, some ⟨2, 3⟩, none, none]).size ∧
    (PointSet.mk 2 4 [some ⟨1, 1⟩, some ⟨2, 3⟩, none, none]).size <
      (PointSet.mk 2 4 [some ⟨1, 1⟩, some ⟨2, 3⟩, none, none])._capacity ∧
    (∃ k, (PointSet.mk 2 4 [some ⟨1, 1⟩, some ⟨2, 3⟩, none, none])._capacity = 2 ^ k) ∧
    (PointSet.mk 2 4 [some ⟨1, 1⟩, some ⟨2, 3⟩, none, none])._size <
      (PointSet.mk 2 4 [some ⟨1, 1⟩, some ⟨2, 3⟩, none, none])._pointSet.length ∧
    ∃ S', PointSet.copy (PointSet.mk 2 4 [some ⟨1, 1⟩, some ⟨2, 3⟩, none, none]) = some S' ∧
      S'._capacity = (PointSet.mk 2 4 [some ⟨1, 1⟩, some ⟨2, 3⟩, none, none])._capacity) :=
  have hr : Reachable (PointSet.mk 2 4 [some ⟨1, 1⟩, some ⟨2, 3⟩, none, none]) :=
    @Reachable.add (PointSet.mk 1 2 [some ⟨1, 1⟩, none]) _ ⟨2, 3⟩ true
      (@Reachable.add PointSet.new _ ⟨1, 1⟩ true Reachable.new (by decide)) (by decide)
  ⟨hr, reachable_capacity _ hr⟩

/-! ## Claims on the scan -/

/-- C28: for a well-formed duplicate-free container `getConvexHull` returns (no assertion
fails), and its result set is that of a state of the scan.  In every state `(i, j, resultSet)`
of the scan the counter `j` is the size of the result set; with a candidate left
(`i < size`), `pointSet[i]` is read, is not held by the result set, and `add` appends it; with
`j ≥ 2`, `resultSet[j-2]` and `resultSet[j-1]` are read and `remove` of `resultSet[j-1]`
deletes exactly the last element.  Every index below the size is read in the sorted
container. -/
theorem scan_counter_is_size (S : PointSet) (hwf : S.WF) (hnd : S.toList.Nodup) :
    (∃ R j, getConvexHull S = some (S.sortByPolar, R) ∧
      ScanState S.sortByPolar
        (INITIAL_RESULT_SIZE + (S.sortByPolar.size - INITIAL_RESULT_SIZE)) j R) ∧
    (∀ k : Nat, k < S.sortByPolar.size → ∃ p, S.sortByPolar.operator_index k = some p) ∧
    ∀ (i j : Nat) (R : PointSet), ScanState S.sortByPolar i j R →
      j = R.size ∧
      (i < S.sortByPolar.size →
        ∃ c R', S.sortByPolar.operator_index i = some c ∧ c ∉ R.toList ∧
          R.add c = some (true, R') ∧ R'.toList = R.toList ++ [c] ∧ R'.size = j + 1) ∧
      (2 ≤ j →
        ∃ a b R', R.operator_index ((j : Int) - 2) = some a ∧
          R.operator_index ((j : Int) - 1) = some b ∧
          R.remove b = some (true, R') ∧ R'.toList = R.toList.dropLast ∧
          R'.size = j - 1) := by
  obtain ⟨rest, hrest, hS⟩ := hwf.exists_mkSet
  generalize S.toList = l at hS hnd
  subst hS
  have hL : (polarSort l).Nodup := (polarSort_perm l).nodup_iff.2 hnd
  obtain ⟨r', hr', hhull⟩ := getConvexHull_mkSet l rest hnd
  rw [PointSet.sortByPolar_mkSet]
  refine ⟨?_, ?_, ?_⟩
  · obtain ⟨hP, j, hj⟩ := getConvexHull_scanState _ _ _ hhull
    exact ⟨_, j, hhull, hj⟩
  · intro k hk
    have hk' : k < (polarSort l).length := hk
    exact ⟨(polarSort l)[k], by
      rw [PointSet.operator_index_mkSet _ rest k hk']
      exact List.getElem?_eq_getElem _⟩
  · intro i j R hst
    obtain ⟨m, r0, _, hR, hj, _⟩ := scanState_inv (polarSort l) rest hL i j R hst
    refine ⟨?_, ?_, ?_⟩
    · rw [hR, hj]
      rfl
    · intro hi
      exact scanState_add (polarSort l) rest hL i j R hst hi
    · intro hj2
      exact scanState_remove (polarSort l) rest hL i j R hst hj2

/-- Witness of C28 on the container holding `(0,2)`, `(2,0)`, `(0,0)`. -/
theorem scan_counter_is_size_witness :
    (PointSet.mk 3 4 [some ⟨0, 2⟩, some ⟨2, 0⟩, some ⟨0, 0⟩, none]).WF ∧
    (PointSet.mk 3 4 [some ⟨0, 2⟩, some ⟨2, 0⟩, some ⟨0, 0⟩, none]).toList.Nodup ∧
    ((∃ R j, getConvexHull (PointSet.mk 3 4 [some ⟨0, 2⟩, some ⟨2, 0⟩, some ⟨0, 0⟩, none]) =
        some ((PointSet.mk 3 4 [some ⟨0, 2⟩, some ⟨2, 0⟩, some ⟨0, 0⟩, none]).sortByPolar, R) ∧
      ScanState (PointSet.mk 3 4 [some ⟨0, 2⟩, some ⟨2, 0⟩, some ⟨0, 0⟩, none]).sortByPolar
        (INITIAL_RESULT_SIZE +
          ((PointSet.mk 3 4 [some ⟨0, 2⟩, some ⟨2, 0⟩, some ⟨0, 0⟩, none]).sortByPolar.size -
            INITIAL_RESULT_SIZE)) j R) ∧
    (∀ k : Nat, k < (PointSet.mk 3 4 [some ⟨0, 2⟩, some ⟨2, 0⟩, some ⟨0, 0⟩, none]).sortByPolar.size →
      ∃ p, (PointSet.mk 3 4 [some ⟨0, 2⟩, some ⟨2, 0⟩, some ⟨0, 0⟩, none]).sortByPolar.operator_index k =
        some p) ∧
    ∀ (i j : Nat) (R : PointSet),
      ScanState (PointSet.mk 3 4 [some ⟨0, 2⟩, some ⟨2, 0⟩, some ⟨0, 0⟩, none]).sortByPolar i j R →
      j = R.size ∧
      (i < (PointSet.mk 3 4 [some ⟨0, 2⟩, some ⟨2, 0⟩, some ⟨0, 0⟩, none]).sortByPolar.size →
        ∃ c R', (PointSet.mk 3 4 [some ⟨0, 2⟩, some ⟨2, 0⟩, some ⟨0, 0⟩, none]).sortByPolar.operator_index i =
            some c ∧ c ∉ R.toList ∧
          R.add c = some (true, R') ∧ R'.toList = R.toList ++ [c] ∧ R'.size = j + 1) ∧
      (2 ≤ j →
        ∃ a b R', R.operator_index ((j : Int) - 2) = some a ∧
          R.operator_index ((j : Int) - 1) = some b ∧
          R.remove b = some (true, R') ∧ R'.toList = R.toList.dropLast ∧
          R'.size = j - 1)) :=
  ⟨by decide, by decide, scan_counter_is_size _ (by decide) (by decide)⟩

/-- C29: for a well-formed duplicate-free container `getConvexHull` returns, and every three
consecutive points of the returned sequence are accepted by `counterClockwise`. -/
theorem hull_consecutive_turns (S : PointSet) (hwf : S.WF) (hnd : S.toList.Nodup) :
    ∃ P R, getConvexHull S = some (P, R) ∧
      ∀ (k : Nat) (a b c : Point), R.toList[k]? = some a → R.toList[k + 1]? = some b →
        R.toList[k + 2]? = some c → counterClockwise a b c = true := by
  obtain ⟨rest, hrest, hS⟩ := hwf.exists_mkSet
  generalize S.toList = l at hS hnd
  subst hS
  obtain ⟨r', hr', hhull⟩ := getConvexHull_mkSet l rest hnd
  refine ⟨_, _, hhull, ?_⟩
  rw [PointSet.toList_mkSet]
  exact grahamScan_turn (polarSort l)

/-- Witness of C29 on the container holding `(0,2)`, `(2,0)`, `(0,0)`, `(1,1)`, `(2,2)`. -/
theorem hull_consecutive_turns_witness :
    (PointSet.mk 5 8 [some ⟨0, 2⟩, some ⟨2, 0⟩, some ⟨0, 0⟩, some ⟨1, 1⟩, some ⟨2, 2⟩,
      none, none, none]).WF ∧
    (PointSet.mk 5 8 [some ⟨0, 2⟩, some ⟨2, 0⟩, some ⟨0, 0⟩, some ⟨1, 1⟩, some ⟨2, 2⟩,
      none, none, none]).toList.Nodup ∧
    ∃ P R, getConvexHull (PointSet.mk 5 8 [some ⟨0, 2⟩, some ⟨2, 0⟩, some ⟨0, 0⟩,
        some ⟨1, 1⟩, some ⟨2, 2⟩, none, none, none]) = some (P, R) ∧
      ∀ (k : Nat) (a b c : Point), R.toList[k]? = some a → R.toList[k + 1]? = some b →
        R.toList[k + 2]? = some c → counterClockwise a b c = true :=
  ⟨by decide, by decide, hull_consecutive_turns _ (by decide) (by decide)⟩

/-- C30: for a well-formed duplicate-free container with at least one point `getConvexHull`
returns, and the first element of the result is the element at position `0` of the
polar-sorted container; with at least two points the result has at least two points and its
last element is the last element of the polar-sorted container. -/
theorem hull_end_points (S : PointSet) (hwf : S.WF) (hnd : S.toList.Nodup)
    (hne : 1 ≤ S.size) :
    ∃ R, getConvexHull S = some (S.sortByPolar, R) ∧
      (∃ p0, S.sortByPolar.operator_index 0 = some p0 ∧ R.operator_index 0 = some p0) ∧
      (2 ≤ S.size → 2 ≤ R.size ∧
        ∃ q, S.sortByPolar.operator_index ((S.sortByPolar.size : Int) - 1) = some q ∧
          R.operator_index ((R.size : Int) - 1) = some q) := by
  obtain ⟨rest, hrest, hS⟩ := hwf.exists_mkSet
  generalize S.toList = l at hS hnd
  subst hS
  have hlen : 1 ≤ l.length := hne
  obtain ⟨r', hr', hhull⟩ := getConvexHull_mkSet l rest hnd
  rw [PointSet.sortByPolar_mkSet]
  refine ⟨_, hhull, ?_, ?_⟩
  all_goals
    obtain ⟨hhead, hlast, hsize⟩ := grahamScan_ends (polarSort l)
    have hLlen : (polarSort l).length = l.length := (polarSort_perm l).length_eq
    generalize grahamScan (polarSort l) = G at hhead hlast hsize hhull
    generalize polarSort l = L at hhead hlast hsize hhull hLlen
    have hLpos : 0 < L.length := by omega
    have hGpos : 0 < G.length := by
      cases G with
      | nil =>
        cases L with
        | nil => simp at hLpos
        | cons x L => simp at hhead
      | cons x G => simp
  · refine ⟨L[0], ?_, ?_⟩
    · have := PointSet.operator_index_mkSet L rest 0 hLpos
      rw [List.getElem?_eq_getElem hLpos] at this
      exact this
    · have := PointSet.operator_index_mkSet G r' 0 hGpos
      rw [← List.head?_eq_getElem?, hhead, List.head?_eq_getElem?,
        List.getElem?_eq_getElem hLpos] at this
      exact this
  · intro h2
    have h2' : 2 ≤ l.length := h2
    refine ⟨hsize (by omega), L[L.length - 1], ?_, ?_⟩
    · have e : ((L.length : Int) - 1) = ((L.length - 1 : Nat) : Int) := by omega
      have := PointSet.operator_index_mkSet L rest (L.length - 1) (by omega)
      rw [← e] at this
      rw [show ((PointSet.mkSet L rest).size : Int) = (L.length : Int) from rfl, this]
      exact List.getElem?_eq_getElem _
    · have e : ((G.length : Int) - 1) = ((G.length - 1 : Nat) : Int) := by omega
      have := PointSet.operator_index_mkSet G r' (G.length - 1) (by omega)
      rw [← e] at this
      rw [show ((PointSet.mkSet G r').size : Int) = (G.length : Int) from rfl, this,
        ← List.getLast?_eq_getElem?, hlast, List.getLast?_eq_getElem?]
      exact List.getElem?_eq_getElem _

/-- Witness of C30 on the container holding `(0,2)`, `(2,0)`, `(0,0)`, `(1,1)`, `(2,2)`. -/
theorem hull_end_points_witness :
    (PointSet.mk 5 8 [some ⟨0, 2⟩, some ⟨2, 0⟩, some ⟨0, 0⟩, some ⟨1, 1⟩, some ⟨2, 2⟩,
      none, none, none]).WF ∧
    (PointSet.mk 5 8 [some ⟨0, 2⟩, some ⟨2, 0⟩, some ⟨0, 0⟩, some ⟨1, 1⟩, some ⟨2, 2⟩,
      none, none, none]).toList.Nodup ∧
    1 ≤ (PointSet.mk 5 8 [some ⟨0, 2⟩, some ⟨2, 0⟩, some ⟨0, 0⟩, some ⟨1, 1⟩, some ⟨2, 2⟩,
      none, none, none]).size ∧
    ∃ R, getConvexHull (PointSet.mk 5 8 [some ⟨0, 2⟩, some ⟨2, 0⟩, some ⟨0, 0⟩,
        some ⟨1, 1⟩, some ⟨2, 2⟩, none, none, none]) =
        some ((PointSet.mk 5 8 [some ⟨0, 2⟩, some ⟨2, 0⟩, some ⟨0, 0⟩, some ⟨1, 1⟩,
          some ⟨2, 2⟩, none, none, none]).sortByPolar, R) ∧
      (∃ p0, (PointSet.mk 5 8 [some ⟨0, 2⟩, some ⟨2, 0⟩, some ⟨0, 0⟩, some ⟨1, 1⟩,
          some ⟨2, 2⟩, none, none, none]).sortByPolar.operator_index 0 = some p0 ∧
        R.operator_index 0 = some p0) ∧
      (2 ≤ (PointSet.mk 5 8 [some ⟨0, 2⟩, some ⟨2, 0⟩, some ⟨0, 0⟩, some ⟨1, 1⟩,
          some ⟨2, 2⟩, none, none, none]).size → 2 ≤ R.size ∧
        ∃ q, (PointSet.mk 5 8 [some ⟨0, 2⟩, some ⟨2, 0⟩, some ⟨0, 0⟩, some ⟨1, 1⟩,
            some ⟨2, 2⟩, none, none, none]).sortByPolar.operator_index
              (((PointSet.mk 5 8 [some ⟨0, 2⟩, some ⟨2, 0⟩, some ⟨0, 0⟩, some ⟨1, 1⟩,
                some ⟨2, 2⟩, none, none, none]).sortByPolar.size : Int) - 1) = some q ∧
          R.operator_index ((R.size : Int) - 1) = some q) :=
  ⟨by decide, by decide, by decide, hull_end_points _ (by decide) (by decide) (by decide)⟩

/-! ## Claim on the insertion order -/

/-- C31: for two well-formed duplicate-free containers `P` and `Q` that hold the same points,
in whatever orders, `sortByPolar` leaves both with the same element sequence, `getConvexHull`
returns for both, and the two results have the same element sequence. -/
theorem hull_order_independent (P Q : PointSet) (hP : P.WF) (hQ : Q.WF)
    (hPn : P.toList.Nodup) (hQn : Q.toList.Nodup) (hPQ : ∀ p ∈ P.toList, p ∈ Q.toList)
    (hQP : ∀ p ∈ Q.toList, p ∈ P.toList) :
    P.sortByPolar.toList = Q.sortByPolar.toList ∧
    ∃ P' Q' R1 R2, getConvexHull P = some (P', R1) ∧ getConvexHull Q = some (Q', R2) ∧
      P'.toList = Q'.toList ∧ R1.toList = R2.toList ∧ R1.size = R2.size := by
  obtain ⟨rest, hrest, hS⟩ := hP.exists_mkSet
  obtain ⟨rest2, hrest2, hS2⟩ := hQ.exists_mkSet
  generalize P.toList = l at hS hPn hPQ hQP
  generalize Q.toList = m at hS2 hQn hPQ hQP
  subst hS
  subst hS2
  have hperm : l.Perm m :=
    (List.perm_ext_iff_of_nodup hPn hQn).2 fun p => ⟨hPQ p, hQP p⟩
  have hsort : polarSort l = polarSort m := polarSort_congr hperm
  obtain ⟨r1, _, h1⟩ := getConvexHull_mkSet l rest hPn
  obtain ⟨r2, _, h2⟩ := getConvexHull_mkSet m rest2 hQn
  refine ⟨?_, _, _, _, _, h1, h2, ?_, ?_, ?_⟩
  · rw [PointSet.sortByPolar_mkSet, PointSet.sortByPolar_mkSet, PointSet.toList_mkSet,
      PointSet.toList_mkSet, hsort]
  · rw [PointSet.toList_mkSet, PointSet.toList_mkSet, hsort]
  · rw [PointSet.toList_mkSet, PointSet.toList_mkSet, hsort]
  · show (grahamScan (polarSort l)).length = (grahamScan (polarSort m)).length
    rw [hsort]

/-- Witness of C31 on the containers holding `(0,2)`, `(2,0)`, `(0,0)`, `(1,1)`, `(2,2)` and
`(2,2)`, `(1,1)`, `(0,0)`, `(0,2)`, `(2,0)`. -/
theorem hull_order_independent_witness :
    (PointSet.mk 5 8 [some ⟨0, 2⟩, some ⟨2, 0⟩, some ⟨0, 0⟩, some ⟨1, 1⟩, some ⟨2, 2⟩,
      none, none, none]).WF ∧
    (PointSet.mk 5 8 [some ⟨2, 2⟩, some ⟨1, 1⟩, some ⟨0, 0⟩, some ⟨0, 2⟩, some ⟨2, 0⟩,
      none, none, none]).WF ∧
    (PointSet.mk 5 8 [some ⟨0, 2⟩, some ⟨2, 0⟩, some ⟨0, 0⟩, some ⟨1, 1⟩, some ⟨2, 2⟩,
      none, none, none]).toList.Nodup ∧
    (PointSet.mk 5 8 [some ⟨2, 2⟩, some ⟨1, 1⟩, some ⟨0, 0⟩, some ⟨0, 2⟩, some ⟨2, 0⟩,
      none, none, none]).toList.Nodup ∧
    (∀ p ∈ (PointSet.mk 5 8 [some ⟨0, 2⟩, some ⟨2, 0⟩, some ⟨0, 0⟩, some ⟨1, 1⟩,
        some ⟨2, 2⟩, none, none, none]).toList,
      p ∈ (PointSet.mk 5 8 [some ⟨2, 2⟩, some ⟨1, 1⟩, some ⟨0, 0⟩, some ⟨0, 2⟩,
        some ⟨2, 0⟩, none, none, none]).toList) ∧
    (∀ p ∈ (PointSet.mk 5 8 [some ⟨2, 2⟩, some ⟨1, 1⟩, some ⟨0, 0⟩, some ⟨0, 2⟩,
        some ⟨2, 0⟩, none, none, none]).toList,
      p ∈ (PointSet.mk 5 8 [some ⟨0, 2⟩, some ⟨2, 0⟩, some ⟨0, 0⟩, some ⟨1, 1⟩,
        some ⟨2, 2⟩, none, none, none]).toList) ∧
    ((PointSet.mk 5 8 [some ⟨0, 2⟩, some ⟨2, 0⟩, some ⟨0, 0⟩, some ⟨1, 1⟩, some ⟨2, 2⟩,
        none, none, none]).sortByPolar.toList =
      (PointSet.mk 5 8 [some ⟨2, 2⟩, some ⟨1, 1⟩, some ⟨0, 0⟩, some ⟨0, 2⟩, some ⟨2, 0⟩,
        none, none, none]).sortByPolar.toList ∧
    ∃ P' Q' R1 R2,
      getConvexHull (PointSet.mk 5 8 [some ⟨0, 2⟩, some ⟨2, 0⟩, some ⟨0, 0⟩, some ⟨1, 1⟩,
        some ⟨2, 2⟩, none, none, none]) = some (P', R1) ∧
      getConvexHull (PointSet.mk 5 8 [some ⟨2, 2⟩, some ⟨1, 1⟩, some ⟨0, 0⟩, some ⟨0, 2⟩,
        some ⟨2, 0⟩, none, none, none]) = some (Q', R2) ∧
      P'.toList = Q'.toList ∧ R1.toList = R2.toList ∧ R1.size = R2.size) :=
  ⟨by decide, by decide, by decide, by decide, by decide, by decide,
    hull_order_independent _ _ (by decide) (by decide) (by decide) (by decide) (by decide)
      (by decide)⟩
